import Mathlib

/-!
Verification of the vi-mind keyboard-driven mind-map editor.

This file gives a shallow embedding of the repository's core modules and
proves the specified properties about them:

* the key-sequence engine (src/input/keyHandler.ts, `createKeyHandler`):
  buffer, timeout, escape handling, chorded shortcuts, precondition gating;
* the tree mutation service (src/services/mindMapService.ts,
  `createMindMapService`) over the repository (src/storage/repository.ts);
* the localStorage-backed repository (`createLocalStorageRepository`);
* the hierarchical layout engine (src/layout/hierarchicalLayout.ts,
  `calculateLayout`).

Modelling conventions:
* JavaScript `Map` objects are modelled as association lists in insertion
  order (`Map.set` on an existing key updates in place, otherwise appends;
  `Map.delete` removes; `values()` yields insertion order).
* `crypto.randomUUID()` is modelled by a fresh-id counter `nextId` carried
  in the store state; freshness is an explicit hypothesis where needed.
* `setTimeout`/`clearTimeout` are modelled by a list of live timer ids in
  the engine state together with a fresh-timer counter; a timer can only
  fire while its id is still live.
* Thrown exceptions are modelled with `Except`/`Option` results.
* JavaScript numbers are modelled as `Int`/`ℚ`: every arithmetic operation
  performed by the code on the relevant values (integer arithmetic, halving)
  is exact in IEEE double precision for realistic inputs.
-/

/-! ## Key-sequence engine: data model (src/types.ts) -/

/-- The two editor modes (type `Mode` in src/types.ts). -/
inductive Mode where
  | normal
  | insert
deriving DecidableEq, Repr, BEq

/-- The slice of `CommandContext` consulted by matching and preconditions. -/
structure CommandContext where
  selectedNodeId : Option Nat
  mode : Mode
  hasNodes : Bool
  isSelectedNodeRoot : Bool

/-- A command descriptor (`CommandDefinition` in src/types.ts); `execute` is
observed through the effect trace, so only the id is kept here, and the
optional `canExecute` precondition is kept as a function. -/
structure CommandDefinition where
  id : String
  keybindings : List String
  modes : List Mode
  canExecute : Option (CommandContext → Bool)

/-- A keyboard event as consumed by `handleKeyDown`: the key name, the two
modifier flags read by the code, and whether `event.target` is an
`HTMLInputElement`/`HTMLTextAreaElement`. -/
structure KeyEvent where
  key : String
  metaKey : Bool
  ctrlKey : Bool
  targetEditable : Bool

/-- Observable actions performed by one `handleKeyDown` call: a command
execution or one of the chorded context calls. -/
inductive Effect where
  | execCmd (id : String)
  | openCommandPalette
  | copyNodeContent
  | zoomCanvas (dir : String)
  | fitToView
  | panCanvas (dir : String)
deriving DecidableEq, Repr

/-- Mutable state captured by the `createKeyHandler` closure, together with
a model of the runtime timer queue: `keyBuffer` and `timeoutId` are the two
closure variables, `scheduled` is the list of live (not yet fired, not yet
cancelled) timer ids, and `nextId` generates fresh timer ids. -/
structure EngineState where
  keyBuffer : String
  timeoutId : Option Nat
  scheduled : List Nat
  nextId : Nat
deriving DecidableEq, Repr

/-- The state a fresh `createKeyHandler` closure starts in. -/
def initialEngineState : EngineState :=
  { keyBuffer := "", timeoutId := none, scheduled := [], nextId := 0 }

/-- The result of one `handleKeyDown` call: the updated closure state, the
returned boolean, and the effects performed. -/
structure KeyResult where
  state : EngineState
  handled : Bool
  effects : List Effect
deriving Repr

/-! ## Key-sequence engine: operations (src/input/keyHandler.ts) -/

/-- Precondition check as used by the code:
`!cmd.canExecute || cmd.canExecute(context)`. -/
def canExecOk (cmd : CommandDefinition) (ctx : CommandContext) : Bool :=
  match cmd.canExecute with
  | none => true
  | some f => f ctx

/-- `findExactMatch` (keyHandler.ts line 22): the first command whose
keybindings contain the sequence and whose modes contain the mode. -/
def findExactMatch (cmds : List CommandDefinition) (keys : String) (mode : Mode) :
    Option CommandDefinition :=
  cmds.find? (fun cmd => cmd.keybindings.contains keys && cmd.modes.contains mode)

/-- JavaScript `kb.startsWith(keys)`, computed on the character lists. -/
def strStartsWith (s pre : String) : Bool :=
  pre.data.isPrefixOf s.data

/-- `findPrefixMatches` (keyHandler.ts line 28): commands of the mode with a
binding that strictly extends the sequence. -/
def findPrefixMatches (cmds : List CommandDefinition) (keys : String) (mode : Mode) :
    List CommandDefinition :=
  cmds.filter (fun cmd =>
    cmd.modes.contains mode &&
      cmd.keybindings.any (fun kb => strStartsWith kb keys && !(kb == keys)))

/-- `clearTimeout(timeoutId)` alone (keyHandler.ts lines 107-109): the live
timer is cancelled but the `timeoutId` variable is left as is. -/
def clearPending (s : EngineState) : EngineState :=
  match s.timeoutId with
  | some t => { s with scheduled := s.scheduled.erase t }
  | none => s

/-- `resetBuffer` (keyHandler.ts line 14): clear the buffer and, when a
timeout id is recorded, cancel it and null the variable. -/
def resetBuffer (s : EngineState) : EngineState :=
  { clearPending s with keyBuffer := "", timeoutId := none }

/-- Lines 120-127 of keyHandler.ts: after no (executable) exact match, arm a
fresh timeout when some binding strictly extends the buffer, otherwise reset
and report not handled. -/
def prefixStep (cmds : List CommandDefinition) (ctx : CommandContext) (s : EngineState) :
    KeyResult :=
  if (findPrefixMatches cmds s.keyBuffer ctx.mode).length > 0 then
    { state := { s with
        timeoutId := some s.nextId
        scheduled := s.nextId :: s.scheduled
        nextId := s.nextId + 1 }
      handled := true
      effects := [] }
  else
    { state := resetBuffer s, handled := false, effects := [] }

/-- Lines 107-127 of keyHandler.ts: cancel any pending timer, append the key
to the buffer, then try an exact match (guarded by `canExecute`) and fall
back to `prefixStep`. -/
def bufferStep (cmds : List CommandDefinition) (e : KeyEvent) (ctx : CommandContext)
    (s : EngineState) : KeyResult :=
  let s1 := clearPending s
  let s2 := { s1 with keyBuffer := s1.keyBuffer ++ e.key }
  match findExactMatch cmds s2.keyBuffer ctx.mode with
  | some cmd =>
    if canExecOk cmd ctx then
      { state := resetBuffer s2, handled := true, effects := [Effect.execCmd cmd.id] }
    else prefixStep cmds ctx s2
  | none => prefixStep cmds ctx s2

/-- Lines 56-105 of keyHandler.ts: the always-on chorded shortcuts, falling
through to `bufferStep`. `isMac` models `navigator.platform` containing
MAC. -/
def chordStep (isMac : Bool) (cmds : List CommandDefinition) (e : KeyEvent)
    (ctx : CommandContext) (s : EngineState) : KeyResult :=
  if (e.metaKey || e.ctrlKey) && e.key == "k" then
    { state := resetBuffer s, handled := true, effects := [Effect.openCommandPalette] }
  else if (e.metaKey || e.ctrlKey) && e.key == "c" && ctx.mode == Mode.normal then
    { state := resetBuffer s, handled := true, effects := [Effect.copyNodeContent] }
  else if (if isMac then e.metaKey else e.ctrlKey) && (e.key == "=" || e.key == "+") then
    { state := resetBuffer s, handled := true, effects := [Effect.zoomCanvas "in"] }
  else if (if isMac then e.metaKey else e.ctrlKey) && e.key == "-" then
    { state := resetBuffer s, handled := true, effects := [Effect.zoomCanvas "out"] }
  else if e.ctrlKey && e.key == "0" then
    { state := resetBuffer s, handled := true, effects := [Effect.fitToView] }
  else if e.ctrlKey && ctx.mode == Mode.normal && e.key == "h" then
    { state := resetBuffer s, handled := true, effects := [Effect.panCanvas "left"] }
  else if e.ctrlKey && ctx.mode == Mode.normal && e.key == "j" then
    { state := resetBuffer s, handled := true, effects := [Effect.panCanvas "down"] }
  else if e.ctrlKey && ctx.mode == Mode.normal && e.key == "k" then
    { state := resetBuffer s, handled := true, effects := [Effect.panCanvas "up"] }
  else if e.ctrlKey && ctx.mode == Mode.normal && e.key == "l" then
    { state := resetBuffer s, handled := true, effects := [Effect.panCanvas "right"] }
  else bufferStep cmds e ctx s

/-- Lines 49-54 of keyHandler.ts: a non-escape key originating from an
editable element is reported not handled, before chords and buffering. -/
def editableGate (isMac : Bool) (cmds : List CommandDefinition) (e : KeyEvent)
    (ctx : CommandContext) (s : EngineState) : KeyResult :=
  if e.targetEditable then { state := s, handled := false, effects := [] }
  else chordStep isMac cmds e ctx s

/-- `handleKeyDown` (keyHandler.ts line 35): escape first, then the
editable-target gate, then chords, then sequence buffering. -/
def handleKeyDown (isMac : Bool) (cmds : List CommandDefinition) (e : KeyEvent)
    (ctx : CommandContext) (s : EngineState) : KeyResult :=
  if e.key == "Escape" then
    match findExactMatch cmds "Escape" ctx.mode with
    | some cmd =>
      if canExecOk cmd ctx then
        { state := resetBuffer s, handled := true, effects := [Effect.execCmd cmd.id] }
      else editableGate isMac cmds e ctx s
    | none => editableGate isMac cmds e ctx s
  else editableGate isMac cmds e ctx s

/-- The buffer timeout firing (the `setTimeout(resetBuffer, TIMEOUT_MS)`
callback): a timer runs only while still live; the runtime removes it from
the live set and the callback runs `resetBuffer`. -/
def timeoutFire (s : EngineState) (t : Nat) : EngineState :=
  if s.scheduled.contains t then
    resetBuffer { s with scheduled := s.scheduled.erase t }
  else s

/-! ## Key-sequence engine: lemmas -/

theorem clearPending_keyBuffer (s : EngineState) :
    (clearPending s).keyBuffer = s.keyBuffer := by
  unfold clearPending; cases s.timeoutId <;> rfl

theorem prefixStep_effects (cmds : List CommandDefinition) (ctx : CommandContext)
    (s : EngineState) : (prefixStep cmds ctx s).effects = [] := by
  unfold prefixStep; split <;> rfl

/-- Unfolding lemma for `bufferStep` with its local bindings expanded. -/
theorem bufferStep_def (cmds : List CommandDefinition) (e : KeyEvent)
    (ctx : CommandContext) (s : EngineState) :
    bufferStep cmds e ctx s =
    (match findExactMatch cmds ((clearPending s).keyBuffer ++ e.key) ctx.mode with
     | some cmd =>
       if canExecOk cmd ctx then
         { state := resetBuffer
             { clearPending s with keyBuffer := (clearPending s).keyBuffer ++ e.key }
           handled := true
           effects := [Effect.execCmd cmd.id] }
       else prefixStep cmds ctx
         { clearPending s with keyBuffer := (clearPending s).keyBuffer ++ e.key }
     | none => prefixStep cmds ctx
         { clearPending s with keyBuffer := (clearPending s).keyBuffer ++ e.key }) := rfl

/-- Any executed command in the buffering step comes from the command list
and passed its precondition. -/
theorem execCmd_mem_bufferStep (cmds : List CommandDefinition) (e : KeyEvent)
    (ctx : CommandContext) (s : EngineState) (i : String)
    (h : Effect.execCmd i ∈ (bufferStep cmds e ctx s).effects) :
    ∃ cmd ∈ cmds, cmd.id = i ∧ canExecOk cmd ctx = true := by
  rw [bufferStep_def] at h
  rcases hf : findExactMatch cmds
      ((clearPending s).keyBuffer ++ e.key) ctx.mode with _ | cmd
  · rw [hf] at h
    simp [prefixStep_effects] at h
  · rw [hf] at h
    by_cases hc : canExecOk cmd ctx
    · simp [hc] at h
      exact ⟨cmd, List.mem_of_find?_eq_some hf, h.symm, hc⟩
    · simp [hc, prefixStep_effects] at h

set_option maxHeartbeats 1000000 in
/-- The chord step either fires one chord effect (never a command
execution) or falls through to the buffering step. -/
theorem chordStep_cases (isMac : Bool) (cmds : List CommandDefinition)
    (e : KeyEvent) (ctx : CommandContext) (s : EngineState) :
    (∃ eff, chordStep isMac cmds e ctx s =
        { state := resetBuffer s, handled := true, effects := [eff] } ∧
        ∀ i, eff ≠ Effect.execCmd i)
    ∨ chordStep isMac cmds e ctx s = bufferStep cmds e ctx s := by
  unfold chordStep
  repeat'
    first
      | exact Or.inl ⟨_, rfl, fun i hcon => by cases hcon⟩
      | exact Or.inr rfl
      | split

/-- Any executed command in the chord step comes from the command list and
passed its precondition. -/
theorem execCmd_mem_chordStep (isMac : Bool) (cmds : List CommandDefinition)
    (e : KeyEvent) (ctx : CommandContext) (s : EngineState) (i : String)
    (h : Effect.execCmd i ∈ (chordStep isMac cmds e ctx s).effects) :
    ∃ cmd ∈ cmds, cmd.id = i ∧ canExecOk cmd ctx = true := by
  rcases chordStep_cases isMac cmds e ctx s with ⟨eff, heq, hne⟩ | heq
  · rw [heq] at h
    simp at h
    exact absurd h.symm (hne i)
  · rw [heq] at h
    exact execCmd_mem_bufferStep cmds e ctx s i h

/-- Any executed command in the gate-or-below part comes from the command
list and passed its precondition. -/
theorem execCmd_mem_editableGate (isMac : Bool) (cmds : List CommandDefinition)
    (e : KeyEvent) (ctx : CommandContext) (s : EngineState) (i : String)
    (h : Effect.execCmd i ∈ (editableGate isMac cmds e ctx s).effects) :
    ∃ cmd ∈ cmds, cmd.id = i ∧ canExecOk cmd ctx = true := by
  unfold editableGate at h
  split at h
  · simp at h
  · exact execCmd_mem_chordStep isMac cmds e ctx s i h

/-- Any executed command comes from the command list and passed its
precondition against the supplied context. -/
theorem execCmd_mem_handleKeyDown (isMac : Bool) (cmds : List CommandDefinition)
    (e : KeyEvent) (ctx : CommandContext) (s : EngineState) (i : String)
    (h : Effect.execCmd i ∈ (handleKeyDown isMac cmds e ctx s).effects) :
    ∃ cmd ∈ cmds, cmd.id = i ∧ canExecOk cmd ctx = true := by
  unfold handleKeyDown at h
  split at h
  · rcases hf : findExactMatch cmds "Escape" ctx.mode with _ | cmd
    · rw [hf] at h
      exact execCmd_mem_editableGate isMac cmds e ctx s i h
    · rw [hf] at h
      by_cases hc : canExecOk cmd ctx
      · simp [hc] at h
        exact ⟨cmd, List.mem_of_find?_eq_some hf, h.symm, hc⟩
      · simp only [Bool.not_eq_true] at hc
        simp [hc] at h
        exact execCmd_mem_editableGate isMac cmds e ctx s i h
  · exact execCmd_mem_editableGate isMac cmds e ctx s i h


theorem clearPending_timeoutId (s : EngineState) :
    (clearPending s).timeoutId = s.timeoutId := by
  rcases s with ⟨b, t, sch, n⟩
  cases t <;> rfl

theorem clearPending_keyBuffer' (s : EngineState) :
    (clearPending s).keyBuffer = s.keyBuffer := by
  rcases s with ⟨b, t, sch, n⟩
  cases t <;> rfl

/-- The possible outcomes of the gate-or-below part, as states. -/
theorem editableGate_state_cases (isMac : Bool) (cmds : List CommandDefinition)
    (e : KeyEvent) (ctx : CommandContext) (s : EngineState) :
    (editableGate isMac cmds e ctx s).state = s
    ∨ (editableGate isMac cmds e ctx s).state = resetBuffer s
    ∨ (editableGate isMac cmds e ctx s).state = (bufferStep cmds e ctx s).state := by
  unfold editableGate
  split
  · exact Or.inl rfl
  · rcases chordStep_cases isMac cmds e ctx s with ⟨eff, heq, _⟩ | heq <;> rw [heq]
    · exact Or.inr (Or.inl rfl)
    · exact Or.inr (Or.inr rfl)

/-- The state produced by one call is the input state, a reset, or one of
the buffering outcomes. -/
theorem handleKeyDown_state_cases (isMac : Bool) (cmds : List CommandDefinition)
    (e : KeyEvent) (ctx : CommandContext) (s : EngineState) :
    (handleKeyDown isMac cmds e ctx s).state = s
    ∨ (handleKeyDown isMac cmds e ctx s).state = resetBuffer s
    ∨ (handleKeyDown isMac cmds e ctx s).state = (bufferStep cmds e ctx s).state := by
  unfold handleKeyDown
  split
  · split
    · split
      · exact Or.inr (Or.inl rfl)
      · exact editableGate_state_cases isMac cmds e ctx s
    · exact editableGate_state_cases isMac cmds e ctx s
  · exact editableGate_state_cases isMac cmds e ctx s

/-- The two possible outcomes of the buffering step, as states. -/
theorem bufferStep_state_cases (cmds : List CommandDefinition) (e : KeyEvent)
    (ctx : CommandContext) (s : EngineState) :
    (bufferStep cmds e ctx s).state =
      resetBuffer { clearPending s with keyBuffer := (clearPending s).keyBuffer ++ e.key }
    ∨ (bufferStep cmds e ctx s).state =
      { keyBuffer := (clearPending s).keyBuffer ++ e.key
        timeoutId := some (clearPending s).nextId
        scheduled := (clearPending s).nextId :: (clearPending s).scheduled
        nextId := (clearPending s).nextId + 1 } := by
  rw [bufferStep_def]
  rcases hf : findExactMatch cmds ((clearPending s).keyBuffer ++ e.key) ctx.mode with _ | cmd <;>
    simp only [hf]
  · unfold prefixStep
    split <;>
      first
        | exact Or.inl rfl
        | exact Or.inr rfl
        | simp
  · by_cases hc : canExecOk cmd ctx
    · simp only [hc, if_true]
      first
        | exact Or.inl rfl
        | simp
    · simp only [Bool.not_eq_true] at hc
      simp only [hc, Bool.false_eq_true, if_false]
      unfold prefixStep
      split <;>
        first
          | exact Or.inl rfl
          | exact Or.inr rfl
          | simp

/-- The timer-queue invariant: the only live timer, if any, is the one the
engine's `timeoutId` variable records. -/
def engineInv (s : EngineState) : Prop :=
  s.scheduled = (match s.timeoutId with | none => [] | some t => [t])

theorem engineInv_initial : engineInv initialEngineState := rfl

theorem engineInv.scheduled_length {s : EngineState} (h : engineInv s) :
    s.scheduled.length ≤ 1 := by
  unfold engineInv at h
  rcases ht : s.timeoutId with _ | t <;> rw [ht] at h <;> simp [h]

theorem clearPending_scheduled_of_inv {s : EngineState} (h : engineInv s) :
    (clearPending s).scheduled = [] := by
  unfold engineInv at h
  unfold clearPending
  rcases ht : s.timeoutId with _ | t <;> simp_all

theorem engineInv_resetBuffer_of_scheduled {x : EngineState} (h : x.scheduled = []) :
    engineInv (resetBuffer x) := by
  rcases x with ⟨b, t, sch, n⟩
  simp only at h
  subst h
  cases t <;> simp [engineInv, resetBuffer, clearPending]

theorem engineInv_resetBuffer {s : EngineState} (h : engineInv s) :
    engineInv (resetBuffer s) := by
  unfold engineInv at h
  rcases s with ⟨b, t, sch, n⟩
  cases t <;> simp only at h <;> subst h <;>
    simp [engineInv, resetBuffer, clearPending]

/-- One `handleKeyDown` call preserves the timer-queue invariant: a newly
armed timeout replaces the cancelled one, so at most one timeout is ever
live. -/
theorem engineInv_handleKeyDown (isMac : Bool) (cmds : List CommandDefinition)
    (e : KeyEvent) (ctx : CommandContext) (s : EngineState) (hinv : engineInv s) :
    engineInv (handleKeyDown isMac cmds e ctx s).state := by
  rcases handleKeyDown_state_cases isMac cmds e ctx s with h1 | h1 | h1 <;> rw [h1]
  · exact hinv
  · exact engineInv_resetBuffer hinv
  · rcases bufferStep_state_cases cmds e ctx s with h2 | h2 <;> rw [h2]
    · apply engineInv_resetBuffer_of_scheduled
      show (clearPending s).scheduled = []
      exact clearPending_scheduled_of_inv hinv
    · unfold engineInv
      show (clearPending s).nextId :: (clearPending s).scheduled = [(clearPending s).nextId]
      rw [clearPending_scheduled_of_inv hinv]

/-- The timeout callback preserves the timer-queue invariant. -/
theorem engineInv_timeoutFire (s : EngineState) (t : Nat) (hinv : engineInv s) :
    engineInv (timeoutFire s t) := by
  unfold timeoutFire
  split
  · rename_i hc
    apply engineInv_resetBuffer_of_scheduled
    show s.scheduled.erase t = []
    unfold engineInv at hinv
    rcases ht : s.timeoutId with _ | u <;> rw [ht] at hinv <;> rw [hinv]
    · rfl
    · rw [hinv] at hc
      simp at hc
      subst hc
      simp
  · exact hinv

/-! ## Key-sequence engine: concrete fixtures -/

/-- A command bound to the single key `d` whose precondition always
fails. -/
def dFailCmd : CommandDefinition :=
  { id := "edit.delete", keybindings := ["d"], modes := [Mode.normal],
    canExecute := some (fun _ => false) }

/-- A two-key command bound to `dd` with no precondition. -/
def ddCmd : CommandDefinition :=
  { id := "edit.deleteSeq", keybindings := ["dd"], modes := [Mode.normal],
    canExecute := none }

/-- The exit-insert command bound to `Escape` in insert mode. -/
def escCmd : CommandDefinition :=
  { id := "mode.exitInsert", keybindings := ["Escape"], modes := [Mode.insert],
    canExecute := none }

/-- A normal-mode context with a non-root selection. -/
def ctxNormal : CommandContext :=
  { selectedNodeId := some 1, mode := Mode.normal, hasNodes := true,
    isSelectedNodeRoot := false }

/-- An insert-mode context. -/
def ctxInsert : CommandContext :=
  { selectedNodeId := some 1, mode := Mode.insert, hasNodes := true,
    isSelectedNodeRoot := false }

/-- A plain `d` key press outside any editable element. -/
def dEvent : KeyEvent :=
  { key := "d", metaKey := false, ctrlKey := false, targetEditable := false }

/-- An `Escape` key press originating from an editable element. -/
def escEditableEvent : KeyEvent :=
  { key := "Escape", metaKey := false, ctrlKey := false, targetEditable := true }

/-- A plain `j` key press originating from an editable element. -/
def jEditableEvent : KeyEvent :=
  { key := "j", metaKey := false, ctrlKey := false, targetEditable := true }

/-! ## Claims C1-C3 -/

/-- C1, counterexample: with a command list containing a precondition-failing
command bound to `d` and another command bound to `dd`, a `d` press exactly
matches the failing command's binding in the current mode, the precondition
fails, no command is executed, and yet `handleKeyDown` returns true (it
consumes the event to keep buffering), contradicting the claim that the
event is reported as unhandled (false) in that case. -/
theorem claim_C1_counterexample :
    canExecOk dFailCmd ctxNormal = false
    ∧ dFailCmd.keybindings.contains (initialEngineState.keyBuffer ++ dEvent.key) = true
    ∧ findExactMatch [dFailCmd, ddCmd] (initialEngineState.keyBuffer ++ dEvent.key)
        ctxNormal.mode = some dFailCmd
    ∧ (handleKeyDown false [dFailCmd, ddCmd] dEvent ctxNormal initialEngineState).effects = []
    ∧ (handleKeyDown false [dFailCmd, ddCmd] dEvent ctxNormal initialEngineState).handled
        = true :=
  ⟨rfl, rfl, rfl, rfl, rfl⟩

/-- C1, amended: a command whose precondition fails on the current context is
never executed, even when the buffer exactly matches one of its keybindings
for the current mode; in that situation `handleKeyDown` executes nothing at
all and returns false exactly when no binding of the mode strictly extends
the buffered sequence (otherwise it returns true, consuming the event to
keep buffering). Moreover, no command all of whose definitions fail their
precondition is ever executed by any call. -/
theorem claim_C1_amended (isMac : Bool) (cmds : List CommandDefinition) (e : KeyEvent)
    (ctx : CommandContext) (s : EngineState) (cmd : CommandDefinition)
    (hkey : e.key ≠ "Escape") (hed : e.targetEditable = false)
    (hm : e.metaKey = false) (hc : e.ctrlKey = false)
    (hfind : findExactMatch cmds (s.keyBuffer ++ e.key) ctx.mode = some cmd)
    (hcan : canExecOk cmd ctx = false) :
    (handleKeyDown isMac cmds e ctx s).effects = []
    ∧ ((handleKeyDown isMac cmds e ctx s).handled = true ↔
        findPrefixMatches cmds (s.keyBuffer ++ e.key) ctx.mode ≠ [])
    ∧ (∀ i : String, (∀ c ∈ cmds, c.id = i → canExecOk c ctx = false) →
        ∀ e' : KeyEvent, ∀ s' : EngineState,
          Effect.execCmd i ∉ (handleKeyDown isMac cmds e' ctx s').effects) := by
  have hstep : handleKeyDown isMac cmds e ctx s = bufferStep cmds e ctx s := by
    unfold handleKeyDown editableGate chordStep
    have hk : (e.key == "Escape") = false := by
      simp [hkey]
    rw [hk, hed, hm, hc]
    cases isMac <;> simp
  have hbuf : bufferStep cmds e ctx s =
      prefixStep cmds ctx
        { clearPending s with keyBuffer := (clearPending s).keyBuffer ++ e.key } := by
    rw [bufferStep_def]
    rw [clearPending_keyBuffer', hfind]
    simp [hcan]
  refine ⟨?_, ?_, ?_⟩
  · rw [hstep, hbuf]
    exact prefixStep_effects _ _ _
  · rw [hstep, hbuf]
    unfold prefixStep
    have hkb : ({ clearPending s with
        keyBuffer := (clearPending s).keyBuffer ++ e.key } : EngineState).keyBuffer
        = s.keyBuffer ++ e.key := by
      rw [clearPending_keyBuffer']
    split
    · rename_i hlen
      rw [hkb] at hlen
      simp only [List.length_pos] at hlen
      simpa using hlen
    · rename_i hlen
      rw [hkb] at hlen
      simp only [not_lt, Nat.le_zero, List.length_eq_zero] at hlen
      simpa using hlen
  · intro i hall e' s' hmem
    rcases execCmd_mem_handleKeyDown isMac cmds e' ctx s' i hmem with ⟨c, hcmem, hcid, hcok⟩
    rw [hall c hcmem hcid] at hcok
    cases hcok

/-- C1, witness for the amended theorem at the counterexample input. -/
theorem claim_C1_amended_witness :
    (handleKeyDown false [dFailCmd, ddCmd] dEvent ctxNormal initialEngineState).effects = []
    ∧ (handleKeyDown false [dFailCmd, ddCmd] dEvent ctxNormal initialEngineState).handled
        = true := by
  have h := claim_C1_amended false [dFailCmd, ddCmd] dEvent ctxNormal initialEngineState
    dFailCmd (by decide) rfl rfl rfl rfl rfl
  refine ⟨h.1, h.2.1.mpr ?_⟩
  have : findPrefixMatches [dFailCmd, ddCmd]
      (initialEngineState.keyBuffer ++ dEvent.key) ctxNormal.mode = [ddCmd] := rfl
  rw [this]
  exact List.cons_ne_nil _ _

/-- C2: whenever the key is Escape and the exact-match lookup for "Escape"
in the current mode yields a command whose precondition passes,
`handleKeyDown` executes that command and returns true, regardless of
whether the event's target is an editable element; and any non-Escape key
event whose target is an editable element executes nothing, leaves the
state untouched and returns false. -/
theorem claim_C2 (isMac : Bool) (cmds : List CommandDefinition) (e : KeyEvent)
    (ctx : CommandContext) (s : EngineState) :
    (∀ cmd : CommandDefinition, e.key = "Escape" →
      findExactMatch cmds "Escape" ctx.mode = some cmd → canExecOk cmd ctx = true →
      handleKeyDown isMac cmds e ctx s =
        { state := resetBuffer s, handled := true, effects := [Effect.execCmd cmd.id] })
    ∧ (e.key ≠ "Escape" → e.targetEditable = true →
      handleKeyDown isMac cmds e ctx s = { state := s, handled := false, effects := [] }) := by
  constructor
  · intro cmd hkey hfind hcan
    unfold handleKeyDown
    have hk : (e.key == "Escape") = true := by simp [hkey]
    rw [hk, hfind]
    simp [hcan]
  · intro hkey hed
    unfold handleKeyDown editableGate
    have hk : (e.key == "Escape") = false := by simp [hkey]
    rw [hk, hed]
    simp

/-- C2, witness: the Escape binding fires from inside an editable element,
and a plain key from an editable element is reported unhandled. -/
theorem claim_C2_witness :
    handleKeyDown false [escCmd] escEditableEvent ctxInsert initialEngineState =
      { state := initialEngineState, handled := true,
        effects := [Effect.execCmd "mode.exitInsert"] }
    ∧ handleKeyDown false [escCmd] jEditableEvent ctxInsert initialEngineState =
      { state := initialEngineState, handled := false, effects := [] } :=
  ⟨(claim_C2 false [escCmd] escEditableEvent ctxInsert initialEngineState).1
      escCmd rfl rfl rfl,
   (claim_C2 false [escCmd] jEditableEvent ctxInsert initialEngineState).2
      (by decide) rfl⟩

/-- C3: for a two-key binding `dd` active in the current mode (no `d`
binding, `dd` a strict extension of `d`, the `dd` command's precondition
passing), starting from the idle state: the first `d` is consumed (returns
true) without executing anything and arms a timeout; a second `d` before
the timeout fires executes the command and resets the buffer (cancelling
the pending timer); if the timeout fires first, the buffer is cleared and a
subsequent `d` does not execute the command; and every call preserves the
invariant that the single recorded timer is the only live one, so each
newly buffered key cancels and replaces any prior pending timeout and at
most one timeout is live. -/
theorem withKeyBuffer_keyBuffer (x : EngineState) (k : String) :
    ({ x with keyBuffer := k } : EngineState).keyBuffer = k := rfl

/-- The engine state after one buffered `d` from idle. -/
def armedD : EngineState :=
  { keyBuffer := "d", timeoutId := some 0, scheduled := [0], nextId := 1 }

/-- The idle engine state after the first timer was resolved. -/
def idleOne : EngineState :=
  { keyBuffer := "", timeoutId := none, scheduled := [], nextId := 1 }

theorem claim_C3 (isMac : Bool) (cmds : List CommandDefinition) (ctx : CommandContext)
    (cmd : CommandDefinition)
    (hx : findExactMatch cmds "d" ctx.mode = none)
    (hp : findPrefixMatches cmds "d" ctx.mode ≠ [])
    (hdd : findExactMatch cmds "dd" ctx.mode = some cmd)
    (hcan : canExecOk cmd ctx = true) :
    (handleKeyDown isMac cmds dEvent ctx initialEngineState =
      { state := armedD, handled := true, effects := [] })
    ∧ (handleKeyDown isMac cmds dEvent ctx armedD =
      { state := idleOne, handled := true, effects := [Effect.execCmd cmd.id] })
    ∧ (timeoutFire armedD 0 = idleOne)
    ∧ (handleKeyDown isMac cmds dEvent ctx idleOne =
      { state := { keyBuffer := "d", timeoutId := some 1, scheduled := [1], nextId := 2 }
        handled := true, effects := [] })
    ∧ (∀ e : KeyEvent, ∀ s : EngineState, engineInv s →
        engineInv (handleKeyDown isMac cmds e ctx s).state
        ∧ (handleKeyDown isMac cmds e ctx s).state.scheduled.length ≤ 1) := by
  have hgate : ∀ s : EngineState,
      handleKeyDown isMac cmds dEvent ctx s = bufferStep cmds dEvent ctx s := by
    intro s
    unfold handleKeyDown editableGate chordStep
    cases isMac <;> simp [dEvent]
  have hlen : 0 < (findPrefixMatches cmds "d" ctx.mode).length := by
    cases hfp : findPrefixMatches cmds "d" ctx.mode with
    | nil => exact absurd hfp hp
    | cons a l => simp
  refine ⟨?_, ?_, ?_, ?_, ?_⟩
  · rw [hgate, bufferStep_def]
    have hb : (clearPending initialEngineState).keyBuffer ++ dEvent.key = "d" := rfl
    rw [hb, hx]
    unfold prefixStep
    rw [withKeyBuffer_keyBuffer, if_pos hlen]
    rfl
  · rw [hgate, bufferStep_def]
    have hb : (clearPending armedD).keyBuffer ++ dEvent.key = "dd" := rfl
    rw [hb, hdd]
    simp only [hcan, if_true]
    rfl
  · rfl
  · rw [hgate, bufferStep_def]
    have hb : (clearPending idleOne).keyBuffer ++ dEvent.key = "d" := rfl
    rw [hb, hx]
    unfold prefixStep
    rw [withKeyBuffer_keyBuffer, if_pos hlen]
    rfl
  · intro e s hinv
    refine ⟨engineInv_handleKeyDown isMac cmds e ctx s hinv, ?_⟩
    exact (engineInv_handleKeyDown isMac cmds e ctx s hinv).scheduled_length

/-- C3, witness at the concrete one-command registry containing only the
`dd` binding. -/
theorem claim_C3_witness :
    (handleKeyDown false [ddCmd] dEvent ctxNormal initialEngineState =
      { state := armedD, handled := true, effects := [] })
    ∧ (handleKeyDown false [ddCmd] dEvent ctxNormal armedD =
      { state := idleOne, handled := true, effects := [Effect.execCmd "edit.deleteSeq"] }) := by
  have hp : findPrefixMatches [ddCmd] "d" ctxNormal.mode ≠ [] := by
    have h1 : findPrefixMatches [ddCmd] "d" ctxNormal.mode = [ddCmd] := rfl
    rw [h1]
    exact List.cons_ne_nil _ _
  have h := claim_C3 false [ddCmd] ctxNormal ddCmd rfl hp rfl rfl
  exact ⟨h.1, h.2.1⟩

/-! ## Tree store and mutation service: data model (src/types.ts) -/

/-- A mind-map node (`MindMapNode` in src/types.ts). Ids are modelled as
naturals handed out by a fresh-id counter in place of `crypto.randomUUID()`;
`order` is an integer. -/
structure MindMapNode where
  id : Nat
  content : String
  parentId : Option Nat
  order : Int
deriving DecidableEq, Repr

/-- The repository state (the `Map` inside `createInMemoryRepository`, in
insertion order) together with the fresh-id counter. -/
structure Store where
  nodes : List MindMapNode
  nextId : Nat
deriving DecidableEq, Repr

/-! ## Repository operations (src/storage/repository.ts) -/

/-- `findById`: `nodes.get(id) ?? null`. -/
def findById (st : Store) (i : Nat) : Option MindMapNode :=
  st.nodes.find? (fun n => n.id == i)

/-- `save`: `nodes.set(node.id, node)` - update in place when the key
exists, append otherwise. -/
def save (st : Store) (node : MindMapNode) : Store :=
  if st.nodes.any (fun n => n.id == node.id) then
    { st with nodes := st.nodes.map (fun n => if n.id == node.id then node else n) }
  else
    { st with nodes := st.nodes ++ [node] }

/-- `delete`: `nodes.delete(id)`. -/
def deleteById (st : Store) (i : Nat) : Store :=
  { st with nodes := st.nodes.filter (fun n => !(n.id == i)) }

/-- The comparator `(a, b) => a.order - b.order` as a relation. -/
def nodeLE (a b : MindMapNode) : Prop := a.order ≤ b.order

instance : DecidableRel nodeLE := fun a b => inferInstanceAs (Decidable (a.order ≤ b.order))

instance : IsTotal MindMapNode nodeLE := ⟨fun a b => Int.le_total a.order b.order⟩

instance : IsTrans MindMapNode nodeLE := ⟨fun _ _ _ h1 h2 => le_trans h1 h2⟩

/-- JavaScript `Array.prototype.sort` with the order comparator: a stable
sort by `order`, modelled by insertion sort (any stable sort by the same
key agrees with it). -/
def sortByOrder (l : List MindMapNode) : List MindMapNode :=
  List.insertionSort nodeLE l

/-- `findByParentId`: all nodes with the given parent, sorted ascending by
`order` (stably, preserving insertion order among equal keys). -/
def findByParentId (st : Store) (pid : Option Nat) : List MindMapNode :=
  sortByOrder (st.nodes.filter (fun n => n.parentId == pid))

/-- `findAll`: `Array.from(nodes.values())`. -/
def findAll (st : Store) : List MindMapNode :=
  st.nodes

/-! ## Mutation service operations (src/services/mindMapService.ts) -/

/-- `siblings.length > 0 ? Math.max(...siblings.map(s => s.order)) : -1`. -/
def maxOrder : List MindMapNode → Int
  | [] => -1
  | n :: ns => ns.foldl (fun a m => max a m.order) n.order

/-- `createNode` (mindMapService.ts line 116): append as the last sibling
with order one above the current maximum. -/
def createNode (st : Store) (content : String) (parentId : Option Nat) :
    Store × MindMapNode :=
  let siblings := findByParentId st parentId
  let node : MindMapNode :=
    { id := st.nextId, content := content, parentId := parentId,
      order := maxOrder siblings + 1 }
  (save { st with nextId := st.nextId + 1 } node, node)

/-- The shift loop of `createSiblingAbove`/`createSiblingBelow`: each listed
node's stored `order` is incremented by one and saved back under its own
key. -/
def bumpOrders (st : Store) (ids : List Nat) : Store :=
  { st with nodes := st.nodes.map (fun n =>
      if ids.contains n.id then { n with order := n.order + 1 } else n) }

/-- `createSiblingAbove` (mindMapService.ts line 124): shift the orders of
the sorted siblings from the anchor's position on by one, then insert at
`sibling.order - 1` - where `sibling` aliases the stored (already shifted)
anchor object, so the fresh node takes the anchor's original order. The
stored anchor is re-read to reflect that aliasing. -/
def createSiblingAbove (st : Store) (siblingId : Nat) (content : String) :
    Store × Option MindMapNode :=
  match findById st siblingId with
  | none => (st, none)
  | some sib =>
    match sib.parentId with
    | none => (st, none)
    | some pid =>
      let sibs := findByParentId st (some pid)
      let idx := sibs.findIdx (fun n => n.id == siblingId)
      let st1 := bumpOrders st ((sibs.drop idx).map (fun n => n.id))
      let sibNow := (findById st1 siblingId).getD sib
      let node : MindMapNode :=
        { id := st1.nextId, content := content, parentId := some pid,
          order := sibNow.order - 1 }
      (save { st1 with nextId := st1.nextId + 1 } node, some node)

/-- `createSiblingBelow` (mindMapService.ts line 146): shift the orders of
the sorted siblings strictly after the anchor's position by one, then
insert at `sibling.order + 1` (the anchor is not shifted here). -/
def createSiblingBelow (st : Store) (siblingId : Nat) (content : String) :
    Store × Option MindMapNode :=
  match findById st siblingId with
  | none => (st, none)
  | some sib =>
    match sib.parentId with
    | none => (st, none)
    | some pid =>
      let sibs := findByParentId st (some pid)
      let idx := sibs.findIdx (fun n => n.id == siblingId)
      let st1 := bumpOrders st ((sibs.drop (idx + 1)).map (fun n => n.id))
      let sibNow := (findById st1 siblingId).getD sib
      let node : MindMapNode :=
        { id := st1.nextId, content := content, parentId := some pid,
          order := sibNow.order + 1 }
      (save { st1 with nextId := st1.nextId + 1 } node, some node)

/-- `insertBetweenParentAndChild` (mindMapService.ts line 168): the new node
takes the child's former parent and order, the child is re-parented under
it with order 0; the new node is saved first, then the child. -/
def insertBetweenParentAndChild (st : Store) (childId : Nat) (content : String) :
    Store × Option MindMapNode :=
  match findById st childId with
  | none => (st, none)
  | some child =>
    match child.parentId with
    | none => (st, none)
    | some pid =>
      let newNode : MindMapNode :=
        { id := st.nextId, content := content, parentId := some pid,
          order := child.order }
      let child2 := { child with parentId := some newNode.id, order := 0 }
      let st1 := save { st with nextId := st.nextId + 1 } newNode
      (save st1 child2, some newNode)

/-- `updateContent` (mindMapService.ts line 191): replace the content,
preserving identity, parent and order; a missing node throws, modelled by
`none` with the store unchanged. -/
def updateContent (st : Store) (nodeId : Nat) (content : String) :
    Store × Option MindMapNode :=
  match findById st nodeId with
  | none => (st, none)
  | some node =>
    let updated := { node with content := content }
    (save st updated, some updated)

/-- `hasChildren`: `children.length > 0`. -/
def hasChildren (st : Store) (nodeId : Nat) : Bool :=
  decide (0 < (findByParentId st (some nodeId)).length)

/-- `deleteNode` (mindMapService.ts line 199): guarded leaf deletion with
the three distinguishable failures, mutating nothing on failure. -/
def deleteNode (st : Store) (nodeId : Nat) : Store × Except String Unit :=
  match findById st nodeId with
  | none => (st, Except.error "Node not found")
  | some node =>
    match node.parentId with
    | none => (st, Except.error "Cannot delete root node")
    | some _ =>
      if hasChildren st nodeId then (st, Except.error "Node has children")
      else (deleteById st nodeId, Except.ok ())

/-- `deleteNodeWithChildren` (mindMapService.ts line 208), with explicit
fuel standing in for the unbounded recursion: the children captured before
the loop are deleted recursively against the evolving store, then the node
itself. Fuel one past the store size is enough for any acyclic store. -/
def deleteNodeWithChildrenFuel : Nat → Store → Nat → Store
  | 0, st, _ => st
  | fuel + 1, st, nodeId =>
    let children := findByParentId st (some nodeId)
    let st1 := children.foldl (fun acc c => deleteNodeWithChildrenFuel fuel acc c.id) st
    deleteById st1 nodeId

/-- `deleteNodeWithChildren` at full fuel. -/
def deleteNodeWithChildren (st : Store) (nodeId : Nat) : Store :=
  deleteNodeWithChildrenFuel (st.nodes.length + 1) st nodeId

/-- `deleteChildren` (mindMapService.ts line 216): delete every child's
subtree but keep the node. -/
def deleteChildren (st : Store) (nodeId : Nat) : Store :=
  (findByParentId st (some nodeId)).foldl (fun acc c => deleteNodeWithChildren acc c.id) st

/-! ## Store layer (src/stores/nodeStore.ts) -/

/-- The slice of the `useNodeStore` zustand state the root-guard claim
needs: the cached `nodes` snapshot, the selection, and the backing
repository. -/
structure NodeStoreState where
  cached : List MindMapNode
  selectedNodeId : Option Nat
  store : Store

/-- `createRootNode` (nodeStore.ts line 149): refuse (null) when the cached
snapshot already has a root, otherwise create through the service, refresh
the snapshot and select the new node. -/
def createRootNode (s : NodeStoreState) : NodeStoreState × Option MindMapNode :=
  if s.cached.any (fun n => n.parentId == none) then (s, none)
  else
    let res := createNode s.store "Root" none
    ({ cached := findAll res.1, selectedNodeId := some res.2.id, store := res.1 },
      some res.2)

/-! ## Claim C5 -/

/-- C5: `deleteNode` succeeds iff the node exists, is non-root and
childless; each failure carries its distinguishable reason; failure mutates
nothing; and the root id always fails with the cannot-delete-root reason
regardless of children. -/
theorem claim_C5 (st : Store) (nodeId : Nat) :
    ((deleteNode st nodeId).2 = Except.ok () ↔
      ∃ n, findById st nodeId = some n ∧ n.parentId ≠ none
        ∧ hasChildren st nodeId = false)
    ∧ ((deleteNode st nodeId).2 ≠ Except.ok () → (deleteNode st nodeId).1 = st)
    ∧ (findById st nodeId = none →
        (deleteNode st nodeId).2 = Except.error "Node not found")
    ∧ (∀ n, findById st nodeId = some n → n.parentId = none →
        (deleteNode st nodeId).2 = Except.error "Cannot delete root node")
    ∧ (∀ n, findById st nodeId = some n → n.parentId ≠ none →
        hasChildren st nodeId = true →
        (deleteNode st nodeId).2 = Except.error "Node has children") := by
  rcases hf : findById st nodeId with _ | node
  · refine ⟨?_, ?_, ?_, ?_, ?_⟩ <;> simp [deleteNode, hf]
  · rcases hp : node.parentId with _ | pid
    · refine ⟨?_, ?_, ?_, ?_, ?_⟩ <;> simp [deleteNode, hf, hp]
    · by_cases hc : hasChildren st nodeId
      · refine ⟨?_, ?_, ?_, ?_, ?_⟩ <;> simp [deleteNode, hf, hp, hc]
      · refine ⟨?_, ?_, ?_, ?_, ?_⟩ <;> simp [deleteNode, hf, hp, hc]

/-- A concrete store: root 0 with children 1, 2; node 1 has child 3. -/
def exStore : Store :=
  { nodes := [ { id := 0, content := "Root", parentId := none, order := 0 },
               { id := 1, content := "a", parentId := some 0, order := 0 },
               { id := 2, content := "b", parentId := some 0, order := 1 },
               { id := 3, content := "c", parentId := some 1, order := 0 } ],
    nextId := 4 }

/-- C5, witness: deleting the root fails with the root reason even though
the root has children, deleting the node with a child fails with the
has-children reason without mutating, and deleting a childless non-root
leaf succeeds. -/
theorem claim_C5_witness :
    (deleteNode exStore 0).2 = Except.error "Cannot delete root node"
    ∧ (deleteNode exStore 1).2 = Except.error "Node has children"
    ∧ (deleteNode exStore 1).1 = exStore
    ∧ (deleteNode exStore 2).2 = Except.ok ()
    ∧ (deleteNode exStore 99).2 = Except.error "Node not found" := by
  refine ⟨?_, ?_, ?_, ?_, ?_⟩
  · exact (claim_C5 exStore 0).2.2.2.1 _ rfl rfl
  · exact (claim_C5 exStore 1).2.2.2.2 _ rfl (by decide) rfl
  · have h2 := (claim_C5 exStore 1).2.2.2.2 _ rfl (by decide) rfl
    exact (claim_C5 exStore 1).2.1 (by rw [h2]; exact fun hcon => by cases hcon)
  · exact (claim_C5 exStore 2).1.mpr ⟨_, rfl, by decide, rfl⟩
  · exact (claim_C5 exStore 99).2.2.1 rfl

/-! ## Claim C6 -/

theorem find?_map_update (l : List MindMapNode) (c : MindMapNode) (k : Nat)
    (hck : c.id = k) :
    (l.map (fun n => if n.id == k then c else n)).find? (fun n => n.id == k) =
      (l.find? (fun n => n.id == k)).map (fun _ => c) := by
  induction l with
  | nil => rfl
  | cons a l ih =>
    by_cases ha : a.id = k
    · simp [ha, hck]
    · have ha' : (a.id == k) = false := by simp [ha]
      simp only [List.map_cons, ha', if_false, Bool.false_eq_true]
      rw [List.find?_cons_of_neg _ (by simp [ha]), List.find?_cons_of_neg _ (by simp [ha])]
      exact ih

theorem find?_map_preserve (l : List MindMapNode) (c : MindMapNode) (k i : Nat)
    (hne : i ≠ k) (hci : c.id ≠ i) :
    (l.map (fun n => if n.id == k then c else n)).find? (fun n => n.id == i) =
      l.find? (fun n => n.id == i) := by
  induction l with
  | nil => rfl
  | cons a l ih =>
    by_cases ha : a.id = k
    · simp only [List.map_cons, ha, beq_self_eq_true, if_true]
      rw [List.find?_cons_of_neg _ (by simp [hci]),
        List.find?_cons_of_neg _ (by simp [ha, Ne.symm hne])]
      exact ih
    · have ha' : (a.id == k) = false := by simp [ha]
      simp only [List.map_cons, ha', if_false, Bool.false_eq_true]
      by_cases hai : a.id = i
      · rw [List.find?_cons_of_pos _ (by simp [hai]),
          List.find?_cons_of_pos _ (by simp [hai])]
      · rw [List.find?_cons_of_neg _ (by simp [hai]),
          List.find?_cons_of_neg _ (by simp [hai])]
        exact ih

/-- C6: on an existing non-root child, `insertBetweenParentAndChild` creates
a node carrying the child's former parent and order, and afterwards the
child hangs under the new node with order 0; on the root or a missing id it
returns null and leaves the collection unchanged. -/
theorem claim_C6 (st : Store) (childId : Nat) (content : String) :
    (∀ child pid, findById st childId = some child → child.parentId = some pid →
      (∀ n ∈ st.nodes, n.id < st.nextId) →
      ∃ st2 node, insertBetweenParentAndChild st childId content = (st2, some node)
        ∧ node.parentId = some pid
        ∧ node.order = child.order
        ∧ node.content = content
        ∧ findById st2 node.id = some node
        ∧ findById st2 childId =
            some { child with parentId := some node.id, order := 0 })
    ∧ (findById st childId = none →
        insertBetweenParentAndChild st childId content = (st, none))
    ∧ (∀ child, findById st childId = some child → child.parentId = none →
        insertBetweenParentAndChild st childId content = (st, none)) := by
  refine ⟨?_, ?_, ?_⟩
  · intro child pid hf hp hfresh
    have hid : child.id = childId := by
      have h1 := List.find?_some hf
      simpa using h1
    subst hid
    have hcmem : child ∈ st.nodes := List.mem_of_find?_eq_some hf
    have hchildlt : child.id < st.nextId := hfresh child hcmem
    have hfreshb : (st.nodes.any (fun n => n.id == st.nextId)) = false := by
      simp only [List.any_eq_false]
      intro n hn
      simp [Nat.ne_of_lt (hfresh n hn)]
    have hnone : (st.nodes.find? (fun n => n.id == st.nextId)) = none := by
      simp only [List.find?_eq_none]
      intro n hn
      simp [Nat.ne_of_lt (hfresh n hn)]
    have hmemb : ((st.nodes ++
        [(⟨st.nextId, content, some pid, child.order⟩ : MindMapNode)]).any
          (fun n => n.id ==
            ({ child with parentId := some st.nextId, order := 0 } :
              MindMapNode).id)) = true := by
      simp only [List.any_append, Bool.or_eq_true, List.any_eq_true]
      exact Or.inl ⟨child, hcmem, by simp⟩
    refine ⟨save (save { st with nextId := st.nextId + 1 }
        (⟨st.nextId, content, some pid, child.order⟩ : MindMapNode))
        { child with parentId := some st.nextId, order := 0 },
      (⟨st.nextId, content, some pid, child.order⟩ : MindMapNode),
      ?_, rfl, rfl, rfl, ?_, ?_⟩
    · simp only [insertBetweenParentAndChild, hf, hp]
    · -- the fresh node is retrievable afterwards
      unfold save
      rw [hfreshb]
      simp only [Bool.false_eq_true, if_false]
      rw [hmemb]
      simp only [if_true]
      unfold findById
      simp only
      rw [find?_map_preserve
        (st.nodes ++ [(⟨st.nextId, content, some pid, child.order⟩ : MindMapNode)])
        ({ child with parentId := some st.nextId, order := 0 })
        child.id st.nextId (Ne.symm (Nat.ne_of_lt hchildlt)) (Nat.ne_of_lt hchildlt)]
      rw [List.find?_append]
      rw [hnone]
      simp
    · -- the child is re-parented under the fresh node with order 0
      unfold save
      rw [hfreshb]
      simp only [Bool.false_eq_true, if_false]
      rw [hmemb]
      simp only [if_true]
      unfold findById
      simp only
      rw [find?_map_update
        (st.nodes ++ [(⟨st.nextId, content, some pid, child.order⟩ : MindMapNode)])
        ({ child with parentId := some st.nextId, order := 0 }) child.id rfl]
      rw [List.find?_append]
      have hfind : st.nodes.find? (fun n => n.id == child.id) = some child := hf
      rw [hfind]
      simp
  · intro h
    simp only [insertBetweenParentAndChild, h]
  · intro child hf hp
    simp only [insertBetweenParentAndChild, hf, hp]

/-- C6, witness: splicing above node 2 of the example store. -/
theorem claim_C6_witness :
    ∃ st2 node, insertBetweenParentAndChild exStore 2 "m" = (st2, some node)
      ∧ node.parentId = some 0
      ∧ node.order = 1
      ∧ node.content = "m"
      ∧ findById st2 node.id = some node
      ∧ findById st2 2 =
          some (⟨2, "b", some node.id, 0⟩ : MindMapNode) := by
  have h := (claim_C6 exStore 2 "m").1
    { id := 2, content := "b", parentId := some 0, order := 1 } 0 rfl rfl
    (by decide)
  exact h

/-! ## Claim C10 -/

/-- C10: the mutation service itself does not enforce root uniqueness - on a
store that already contains a root, the service-level `createNode` with a
null parent saves a second root (the count of parentless nodes grows by
one, to at least two); only the store layer's `createRootNode` guards
against this, returning null and changing nothing when the cached snapshot
already has a root. -/
theorem claim_C10 (st : Store) (content : String) :
    ((∃ r ∈ st.nodes, r.parentId = none) → (∀ n ∈ st.nodes, n.id < st.nextId) →
      ((createNode st content none).2.parentId = none
        ∧ (createNode st content none).1.nodes = st.nodes ++ [(createNode st content none).2]
        ∧ 2 ≤ ((createNode st content none).1.nodes.filter
            (fun n => n.parentId == none)).length))
    ∧ (∀ s : NodeStoreState, (∃ r ∈ s.cached, r.parentId = none) →
        createRootNode s = (s, none)) := by
  constructor
  · intro hroot hfresh
    have hfreshb : (st.nodes.any (fun n => n.id == st.nextId)) = false := by
      simp only [List.any_eq_false]
      intro n hn
      simp [Nat.ne_of_lt (hfresh n hn)]
    have happ : (createNode st content none).1.nodes =
        st.nodes ++ [(createNode st content none).2] := by
      unfold createNode save
      simp only
      rw [hfreshb]
      simp
    refine ⟨rfl, happ, ?_⟩
    rw [happ]
    rw [List.filter_append]
    rcases hroot with ⟨r, hrmem, hrroot⟩
    have hr : r ∈ st.nodes.filter (fun n => n.parentId == none) := by
      rw [List.mem_filter]
      exact ⟨hrmem, by simp [hrroot]⟩
    have h1 : 1 ≤ (st.nodes.filter (fun n => n.parentId == none)).length :=
      List.length_pos.mpr (List.ne_nil_of_mem hr)
    have h2 : ([(createNode st content none).2].filter
        (fun n => n.parentId == none)).length = 1 := by
      simp [createNode]
    rw [List.length_append, h2]
    omega
  · intro s hroot
    unfold createRootNode
    have hany : (s.cached.any (fun n => n.parentId == none)) = true := by
      rcases hroot with ⟨r, hrmem, hrroot⟩
      simp only [List.any_eq_true]
      exact ⟨r, hrmem, by simp [hrroot]⟩
    rw [hany]
    simp

/-- C10, witness: the example store already has a root, yet the service
creates a second one; the store layer refuses. -/
theorem claim_C10_witness :
    (createNode exStore "r2" none).2.parentId = none
    ∧ 2 ≤ ((createNode exStore "r2" none).1.nodes.filter
        (fun n => n.parentId == none)).length
    ∧ createRootNode ⟨exStore.nodes, none, exStore⟩ =
      (⟨exStore.nodes, none, exStore⟩, none) := by
  have h := claim_C10 exStore "r2"
  have h1 := h.1 ⟨{ id := 0, content := "Root", parentId := none, order := 0 },
    by decide, rfl⟩ (by decide)
  exact ⟨h1.1, h1.2.2, h.2 _ ⟨{ id := 0, content := "Root", parentId := none, order := 0 },
    by decide, rfl⟩⟩

/-! ## localStorage repository (src/storage/repository.ts, createLocalStorageRepository) -/

/-- `nodes.set(node.id, node)` on a plain list (used while loading). -/
def setNode (l : List MindMapNode) (node : MindMapNode) : List MindMapNode :=
  if l.any (fun n => n.id == node.id) then
    l.map (fun n => if n.id == node.id then node else n)
  else
    l ++ [node]

/-- `loadFromStorage` as run by the `createLocalStorageRepository`
constructor. `stored` is `localStorage.getItem(STORAGE_KEY)` (`none` for a
missing key); `JSON.parse` plus the array walk is the abstract `parse`
parameter, `none` meaning it throws (corrupt or non-array blob). The code
has no try/catch, so a parse failure propagates out of the constructor;
note that `if (stored)` also skips the empty string. -/
def loadFromStorage (stored : Option String)
    (parse : String → Option (List MindMapNode)) : Except String (List MindMapNode) :=
  match stored with
  | none => Except.ok []
  | some s =>
    if s = "" then Except.ok []
    else
      match parse s with
      | none => Except.error "SyntaxError: JSON.parse"
      | some parsed => Except.ok (parsed.foldl setNode [])

/-- `createLocalStorageRepository` up to its observable store: load the
snapshot into the map, or propagate the exception. -/
def createLocalStorageRepository (stored : Option String)
    (parse : String → Option (List MindMapNode)) : Except String Store :=
  (loadFromStorage stored parse).map (fun ns => { nodes := ns, nextId := 0 })

/-- A parse function that fails on every input, as `JSON.parse` does on a
non-JSON blob. -/
def failingParse : String → Option (List MindMapNode) := fun _ => none

/-- C7, counterexample: with a present but unparseable blob, constructing
the localStorage-backed repository does not succeed with an empty
collection - the `JSON.parse` exception propagates out of the constructor. -/
theorem claim_C7_counterexample :
    createLocalStorageRepository (some "not json") failingParse =
      Except.error "SyntaxError: JSON.parse"
    ∧ ∀ st : Store, createLocalStorageRepository (some "not json") failingParse ≠
        Except.ok st := by
  refine ⟨rfl, ?_⟩
  intro st h
  rw [show createLocalStorageRepository (some "not json") failingParse =
    Except.error "SyntaxError: JSON.parse" from rfl] at h
  cases h

/-- C7, amended: a missing blob (and likewise an empty-string blob, which
`if (stored)` treats as absent) yields an empty collection, and a blob the
parser accepts yields the parsed collection; but a present blob the parser
rejects makes construction fail with the propagated parse error instead of
falling back to an empty collection. -/
theorem claim_C7_amended (parse : String → Option (List MindMapNode)) :
    (createLocalStorageRepository none parse = Except.ok { nodes := [], nextId := 0 }
      ∧ ∀ st, createLocalStorageRepository none parse = Except.ok st → findAll st = [])
    ∧ (createLocalStorageRepository (some "") parse =
        Except.ok { nodes := [], nextId := 0 })
    ∧ (∀ s parsed, s ≠ "" → parse s = some parsed →
        createLocalStorageRepository (some s) parse =
          Except.ok { nodes := parsed.foldl setNode [], nextId := 0 })
    ∧ (∀ s, s ≠ "" → parse s = none →
        createLocalStorageRepository (some s) parse =
          Except.error "SyntaxError: JSON.parse") := by
  refine ⟨⟨rfl, ?_⟩, rfl, ?_, ?_⟩
  · intro st h
    have h2 : (Except.ok ({ nodes := [], nextId := 0 } : Store) :
        Except String Store) = Except.ok st := by
      rw [show createLocalStorageRepository none parse =
        Except.ok ({ nodes := [], nextId := 0 } : Store) from rfl] at h
      exact h
    cases h2
    rfl
  · intro s parsed hs hp
    simp only [createLocalStorageRepository, loadFromStorage]
    rw [if_neg hs, hp]
    rfl
  · intro s hs hp
    simp only [createLocalStorageRepository, loadFromStorage]
    rw [if_neg hs, hp]
    rfl

/-- C7, witness for the amended behavior at concrete blobs. -/
theorem claim_C7_amended_witness :
    createLocalStorageRepository none failingParse =
      Except.ok { nodes := [], nextId := 0 }
    ∧ createLocalStorageRepository (some "boom") failingParse =
      Except.error "SyntaxError: JSON.parse" :=
  ⟨(claim_C7_amended failingParse).1.1,
   (claim_C7_amended failingParse).2.2.2 "boom" (by decide) rfl⟩

/-! ## Ordering lemmas for the sibling sort -/

/-- Strict order comparison between nodes. -/
def nodeLT (a b : MindMapNode) : Prop := a.order < b.order

theorem sortByOrder_perm (l : List MindMapNode) : List.Perm (sortByOrder l) l :=
  List.perm_insertionSort nodeLE l

theorem sortByOrder_sorted (l : List MindMapNode) :
    (sortByOrder l).Pairwise nodeLE :=
  List.sorted_insertionSort nodeLE l

theorem pairwise_lt_of_le_of_ne {l : List MindMapNode}
    (hle : l.Pairwise nodeLE) (hne : l.Pairwise (fun a b => a.order ≠ b.order)) :
    l.Pairwise nodeLT :=
  (hle.and hne).imp (fun h => lt_of_le_of_ne h.1 h.2)

theorem sorted_perm_eq {l1 l2 : List MindMapNode} (hp : List.Perm l1 l2)
    (h1 : l1.Pairwise nodeLT) (h2 : l2.Pairwise nodeLT) : l1 = l2 := by
  haveI : IsAntisymm MindMapNode nodeLT :=
    ⟨fun a b hab hba => absurd hba (by unfold nodeLT at hab ⊢; omega)⟩
  exact List.eq_of_perm_of_sorted hp h1 h2

/-! ## Store invariants -/

/-- Orders are pairwise distinct within every sibling group. -/
def SiblingOrders (st : Store) : Prop :=
  ∀ pid : Option Nat,
    (st.nodes.filter (fun n => n.parentId == pid)).Pairwise
      (fun a b => a.order ≠ b.order)

/-- Node ids are pairwise distinct and below the fresh-id counter. -/
def IdsOK (st : Store) : Prop :=
  (st.nodes.map (fun n => n.id)).Nodup ∧ ∀ n ∈ st.nodes, n.id < st.nextId

/-- Every stored parent pointer refers to an id already handed out. -/
def ParentsBounded (st : Store) : Prop :=
  ∀ n ∈ st.nodes, ∀ p, n.parentId = some p → p < st.nextId

/-- The store invariant maintained by the mutation service. -/
def StoreInv (st : Store) : Prop := IdsOK st ∧ ParentsBounded st ∧ SiblingOrders st

theorem findByParentId_pairwise_ne (st : Store) (h : SiblingOrders st)
    (pid : Option Nat) :
    (findByParentId st pid).Pairwise (fun a b => a.order ≠ b.order) :=
  (List.Perm.pairwise_iff (fun h2 => Ne.symm h2)
    (sortByOrder_perm (st.nodes.filter (fun n => n.parentId == pid)))).mpr (h pid)

/-- Under the invariant, the children query is sorted strictly ascending by
order. -/
theorem findByParentId_sorted_lt (st : Store) (h : SiblingOrders st)
    (pid : Option Nat) :
    (findByParentId st pid).Pairwise nodeLT :=
  pairwise_lt_of_le_of_ne (sortByOrder_sorted _) (findByParentId_pairwise_ne st h pid)

theorem mem_findByParentId {st : Store} {pid : Option Nat} {x : MindMapNode} :
    x ∈ findByParentId st pid ↔ x ∈ st.nodes ∧ x.parentId = pid := by
  unfold findByParentId
  rw [(sortByOrder_perm _).mem_iff, List.mem_filter]
  simp

/-! ## Generic store utilities -/

theorem maxOrder_le_aux (ns : List MindMapNode) (init : Int) :
    init ≤ ns.foldl (fun a m => max a m.order) init := by
  induction ns generalizing init with
  | nil => exact le_refl _
  | cons x xs ih => exact le_trans (le_max_left _ _) (ih (max init x.order))

theorem maxOrder_mem_aux (ns : List MindMapNode) :
    ∀ (init : Int) (x : MindMapNode), x ∈ ns →
      x.order ≤ ns.foldl (fun a m => max a m.order) init := by
  induction ns with
  | nil => intro init x hx; cases hx
  | cons y ys ih =>
    intro init x hx
    rcases List.mem_cons.mp hx with h | h
    · subst h
      exact le_trans (le_max_right _ _) (maxOrder_le_aux ys _)
    · exact ih _ x h

theorem le_maxOrder {l : List MindMapNode} {a : MindMapNode} (ha : a ∈ l) :
    a.order ≤ maxOrder l := by
  cases l with
  | nil => cases ha
  | cons x xs =>
    rcases List.mem_cons.mp ha with h | h
    · subst h
      exact maxOrder_le_aux xs _
    · exact maxOrder_mem_aux xs _ _ h

/-- The pairwise distinct orders give a usable binary fact between any two
distinct members of a sibling group. -/
theorem orders_ne_of_pairwise {l : List MindMapNode}
    (h : l.Pairwise (fun a b => a.order ≠ b.order)) {a b : MindMapNode}
    (ha : a ∈ l) (hb : b ∈ l) (hne : a ≠ b) : a.order ≠ b.order :=
  List.Pairwise.forall (fun _ _ h2 => Ne.symm h2) h ha hb hne

theorem filter_map_of_parent_preserved (l : List MindMapNode)
    (f : MindMapNode → MindMapNode) (q : Option Nat)
    (hpar : ∀ n ∈ l, (f n).parentId = n.parentId) :
    (l.map f).filter (fun n => n.parentId == q) =
      (l.filter (fun n => n.parentId == q)).map f := by
  rw [List.filter_map]
  congr 1
  apply List.filter_congr
  intro x hx
  simp only [Function.comp]
  rw [hpar x hx]

theorem find?_map_id_preserving (l : List MindMapNode) (f : MindMapNode → MindMapNode)
    (hid : ∀ n, (f n).id = n.id) (i : Nat) :
    (l.map f).find? (fun n => n.id == i) = (l.find? (fun n => n.id == i)).map f := by
  induction l with
  | nil => rfl
  | cons a l ih =>
    rw [List.map_cons]
    by_cases ha : a.id = i
    · rw [List.find?_cons_of_pos _ (by simp [hid, ha]),
        List.find?_cons_of_pos _ (by simp [ha])]
      rfl
    · rw [List.find?_cons_of_neg _ (by simp [hid, ha]),
        List.find?_cons_of_neg _ (by simp [ha])]
      exact ih

/-- Pairwise strict sortedness of a sorted block with one node spliced at a
boundary position, all later nodes shifted up by one. -/
theorem spliced_pairwise_lt (sibs : List MindMapNode) (k : Nat)
    (hlt : sibs.Pairwise nodeLT) (new : MindMapNode)
    (htake : ∀ x ∈ sibs.take k, x.order < new.order)
    (hdrop : ∀ x ∈ sibs.drop k, new.order ≤ x.order) :
    (sibs.take k ++ new :: (sibs.drop k).map
      (fun x => { x with order := x.order + 1 })).Pairwise nodeLT := by
  rw [List.pairwise_append]
  refine ⟨hlt.sublist (List.take_sublist k sibs), ?_, ?_⟩
  · rw [List.pairwise_cons]
    constructor
    · intro b hb
      rcases List.mem_map.mp hb with ⟨x, hx, rfl⟩
      have := hdrop x hx
      show new.order < x.order + 1
      omega
    · rw [List.pairwise_map]
      refine (hlt.sublist (List.drop_sublist k sibs)).imp ?_
      intro a b hab
      show a.order + 1 < b.order + 1
      unfold nodeLT at hab
      omega
  · intro a ha b hb
    have ha2 := htake a ha
    rcases List.mem_cons.mp hb with rfl | hb2
    · exact ha2
    · rcases List.mem_map.mp hb2 with ⟨x, hx, rfl⟩
      have := hdrop x hx
      show a.order < x.order + 1
      omega

/-- The underlying permutation: mapped block plus appended node versus the
spliced arrangement. -/
theorem spliced_perm (l1 l2 : List MindMapNode) (a : MindMapNode) :
    List.Perm ((l1 ++ l2) ++ [a]) (l1 ++ a :: l2) := by
  rw [List.append_assoc]
  exact List.Perm.append_left l1 (List.perm_append_singleton a l2)


/-- With distinct ids, `findIdx` on an id locates the member itself. -/
theorem sorted_findIdx_self (l : List MindMapNode) (x : MindMapNode)
    (hnodup : (l.map (fun n => n.id)).Nodup) (hx : x ∈ l) :
    l.findIdx (fun n => n.id == x.id) < l.length
    ∧ l[l.findIdx (fun n => n.id == x.id)]? = some x := by
  have hex : ∃ y ∈ l, (fun n => n.id == x.id) y = true := ⟨x, hx, by simp⟩
  have hidx : l.findIdx (fun n => n.id == x.id) < l.length :=
    List.findIdx_lt_length_of_exists hex
  refine ⟨hidx, ?_⟩
  rw [List.getElem?_eq_getElem hidx]
  have hp1 : ((l[l.findIdx (fun n => n.id == x.id)]).id == x.id) = true :=
    @List.findIdx_getElem _ (fun n => n.id == x.id) l hidx
  have : l[l.findIdx (fun n => n.id == x.id)] = x :=
    List.inj_on_of_nodup_map hnodup (l.getElem_mem hidx) hx (by simpa using hp1)
  rw [this]

/-- Order bounds of the prefix and suffix around a member of a strictly
sorted list. -/
theorem sorted_split_bounds (l : List MindMapNode) (x : MindMapNode) (k : Nat)
    (hlt : l.Pairwise nodeLT) (hk : k < l.length) (hkx : l[k] = x) :
    (∀ y ∈ l.take (k + 1), y.order ≤ x.order)
    ∧ (∀ y ∈ l.drop (k + 1), x.order < y.order)
    ∧ (∀ y ∈ l.take k, y.order < x.order)
    ∧ (∀ y ∈ l.drop k, x.order ≤ y.order) := by
  have hij := List.pairwise_iff_getElem.mp hlt
  refine ⟨?_, ?_, ?_, ?_⟩
  · intro y hy
    rcases List.mem_iff_getElem.mp hy with ⟨j, hj, rfl⟩
    have hj2 : j < k + 1 := lt_of_lt_of_le hj (by simp [List.length_take])
    rw [List.getElem_take]
    rcases Nat.lt_or_ge j k with hji | hji
    · have h2 := hij j k (lt_trans hji hk) hk hji
      rw [hkx] at h2
      exact le_of_lt h2
    · have : j = k := by omega
      subst this
      rw [hkx]
  · intro y hy
    rcases List.mem_iff_getElem.mp hy with ⟨j, hj, rfl⟩
    rw [List.getElem_drop]
    have hj2 : k + 1 + j < l.length := by
      have := hj
      simp [List.length_drop] at this
      omega
    have h2 := hij k (k + 1 + j) hk hj2 (by omega)
    rw [hkx] at h2
    exact h2
  · intro y hy
    rcases List.mem_iff_getElem.mp hy with ⟨j, hj, rfl⟩
    have hj2 : j < k := lt_of_lt_of_le hj (by simp [List.length_take])
    rw [List.getElem_take]
    have h2 := hij j k (lt_trans hj2 hk) hk hj2
    rw [hkx] at h2
    exact h2
  · intro y hy
    rcases List.mem_iff_getElem.mp hy with ⟨j, hj, rfl⟩
    rw [List.getElem_drop]
    have hj2 : k + j < l.length := by
      have := hj
      simp [List.length_drop] at this
      omega
    rcases Nat.eq_zero_or_pos j with rfl | hjpos
    · simp only [Nat.add_zero]
      rw [hkx]
    · have h2 := hij k (k + j) hk hj2 (by omega)
      rw [hkx] at h2
      exact le_of_lt h2

theorem bumpIf_id (ids : List Nat) (n : MindMapNode) :
    (if ids.contains n.id then { n with order := n.order + 1 } else n).id = n.id := by
  split <;> rfl

theorem bumpIf_parentId (ids : List Nat) (n : MindMapNode) :
    (if ids.contains n.id then
      { n with order := n.order + 1 } else n).parentId = n.parentId := by
  split <;> rfl

theorem bumpOrders_nextId (st : Store) (ids : List Nat) :
    (bumpOrders st ids).nextId = st.nextId := rfl

theorem bumpOrders_nodes (st : Store) (ids : List Nat) :
    (bumpOrders st ids).nodes = st.nodes.map (fun n =>
      if ids.contains n.id then { n with order := n.order + 1 } else n) := rfl

/-- The raw computation performed by `createSiblingBelow` on a found
non-root anchor whose own id is not among the shifted ones. -/
theorem createSiblingBelow_eq (st : Store) (sib : MindMapNode) (pid : Nat) (c : String)
    (hf : findById st sib.id = some sib) (hp : sib.parentId = some pid)
    (hnotbump : ((((findByParentId st (some pid)).drop
        ((findByParentId st (some pid)).findIdx (fun n => n.id == sib.id) + 1)).map
          (fun n => n.id)).contains sib.id) = false)
    (hfresh : ∀ n ∈ st.nodes, n.id < st.nextId) :
    createSiblingBelow st sib.id c =
      ((⟨(bumpOrders st (((findByParentId st (some pid)).drop
            ((findByParentId st (some pid)).findIdx (fun n => n.id == sib.id) + 1)).map
              (fun n => n.id))).nodes ++
          [(⟨st.nextId, c, some pid, sib.order + 1⟩ : MindMapNode)],
        st.nextId + 1⟩ : Store),
        some (⟨st.nextId, c, some pid, sib.order + 1⟩ : MindMapNode)) := by
  have hfind : findById (bumpOrders st (((findByParentId st (some pid)).drop
      ((findByParentId st (some pid)).findIdx (fun n => n.id == sib.id) + 1)).map
        (fun n => n.id))) sib.id = some sib := by
    show (st.nodes.map _).find? _ = _
    rw [find?_map_id_preserving st.nodes _ (fun n => bumpIf_id _ n) sib.id]
    rw [show st.nodes.find? (fun n => n.id == sib.id) = some sib from hf]
    have hnb := hnotbump
    simp at hnb
    simp [hnb]
  have hany : ∀ ids : List Nat,
      ((bumpOrders st ids).nodes.any (fun n => n.id == st.nextId)) = false := by
    intro ids
    rw [bumpOrders_nodes, List.any_map]
    rw [List.any_eq_false]
    intro x hx
    simp only [Function.comp_apply, bumpIf_id]
    simp [Nat.ne_of_lt (hfresh x hx)]
  simp only [createSiblingBelow, hf, hp]
  rw [hfind]
  simp only [Option.getD_some, bumpOrders_nextId]
  unfold save
  simp only [bumpOrders_nextId]
  rw [show ((⟨(bumpOrders st (((findByParentId st (some pid)).drop
      ((findByParentId st (some pid)).findIdx (fun n => n.id == sib.id) + 1)).map
        (fun n => n.id))).nodes, st.nextId + 1⟩ : Store).nodes.any
      (fun n => n.id == st.nextId)) = false from hany _]
  simp

/-- With duplicate-free ids, looking a stored node up by its own id returns
that node. -/
theorem findById_of_mem {st : Store}
    (hnodup : (st.nodes.map (fun n => n.id)).Nodup)
    {x : MindMapNode} (hx : x ∈ st.nodes) : findById st x.id = some x := by
  show st.nodes.find? (fun n => n.id == x.id) = some x
  cases h : st.nodes.find? (fun n => n.id == x.id) with
  | none =>
    have := List.find?_eq_none.mp h x hx
    simp at this
  | some y =>
    have hy := List.find?_some h
    have hymem := List.mem_of_find?_eq_some h
    have : y = x := List.inj_on_of_nodup_map hnodup hymem hx (by simpa using hy)
    rw [this]

/-- Sibling groups inherit duplicate-free ids from the store. -/
theorem findByParentId_ids_nodup (st : Store)
    (hnodup : (st.nodes.map (fun n => n.id)).Nodup) (pid : Option Nat) :
    ((findByParentId st pid).map (fun n => n.id)).Nodup := by
  have hperm : List.Perm ((findByParentId st pid).map (fun n => n.id))
      ((st.nodes.filter (fun n => n.parentId == pid)).map (fun n => n.id)) :=
    (sortByOrder_perm _).map _
  rw [hperm.nodup_iff]
  exact hnodup.sublist ((List.filter_sublist _).map _)

/-- The sort pins down any strictly sorted rearrangement. -/
theorem sortByOrder_eq_of_perm_sorted {X E : List MindMapNode}
    (hXE : List.Perm X E) (hE : E.Pairwise nodeLT) : sortByOrder X = E := by
  have hperm := (sortByOrder_perm X).trans hXE
  have hneE : E.Pairwise (fun a b => a.order ≠ b.order) := hE.imp (fun h => ne_of_lt h)
  have hne : (sortByOrder X).Pairwise (fun a b => a.order ≠ b.order) :=
    (List.Perm.pairwise_iff (fun h => Ne.symm h) hperm).mpr hneE
  exact sorted_perm_eq hperm (pairwise_lt_of_le_of_ne (sortByOrder_sorted X) hne) hE

/-- Splitting the shift map at the boundary: nodes before the boundary keep
their order, nodes from the boundary on are shifted up by one. -/
theorem map_bumpIf_split (l : List MindMapNode) (k : Nat) (ids : List Nat)
    (hids : ids = (l.drop k).map (fun m => m.id))
    (hnodup : (l.map (fun n => n.id)).Nodup) :
    l.map (fun n => if ids.contains n.id then { n with order := n.order + 1 } else n)
      = l.take k ++ (l.drop k).map (fun n => { n with order := n.order + 1 }) := by
  rw [← List.take_append_drop k l, List.map_append, List.nodup_append] at hnodup
  have h1 : ∀ x ∈ l.take k,
      (if ids.contains x.id then ({ x with order := x.order + 1 } : MindMapNode) else x)
        = x := by
    intro x hx
    subst hids
    have hxid : x.id ∈ (l.take k).map (fun n => n.id) := List.mem_map_of_mem _ hx
    have hmem : x.id ∉ (l.drop k).map (fun n => n.id) := hnodup.2.2 hxid
    rw [List.map_drop] at hmem
    simp [hmem]
  have h2 : ∀ x ∈ l.drop k,
      (if ids.contains x.id then ({ x with order := x.order + 1 } : MindMapNode) else x)
        = ({ x with order := x.order + 1 } : MindMapNode) := by
    intro x hx
    subst hids
    have hmem : x.id ∈ (l.drop k).map (fun n => n.id) := List.mem_map_of_mem _ hx
    rw [List.map_drop] at hmem
    simp [hmem]
  conv_lhs => rw [← List.take_append_drop k l]
  rw [List.map_append]
  congr 1
  · calc (l.take k).map (fun n =>
          if ids.contains n.id then { n with order := n.order + 1 } else n)
        = (l.take k).map (fun n => n) := List.map_congr_left h1
      _ = l.take k := by simp
  · exact List.map_congr_left h2

/-- Filtering the shifted-and-appended node list for the group the new node
joins. -/
theorem filter_map_append_new (l : List MindMapNode) (f : MindMapNode → MindMapNode)
    (q : Option Nat) (new : MindMapNode)
    (hpar : ∀ n ∈ l, (f n).parentId = n.parentId) (hnew : (new.parentId == q) = true) :
    (l.map f ++ [new]).filter (fun n => n.parentId == q)
      = (l.filter (fun n => n.parentId == q)).map f ++ [new] := by
  rw [List.filter_append, filter_map_of_parent_preserved l f q hpar]
  simp [hnew]

/-- Filtering the shifted-and-appended node list for any other group. -/
theorem filter_map_append_other (l : List MindMapNode) (f : MindMapNode → MindMapNode)
    (q : Option Nat) (new : MindMapNode)
    (hpar : ∀ n ∈ l, (f n).parentId = n.parentId) (hnew : (new.parentId == q) = false) :
    (l.map f ++ [new]).filter (fun n => n.parentId == q)
      = (l.filter (fun n => n.parentId == q)).map f := by
  rw [List.filter_append, filter_map_of_parent_preserved l f q hpar]
  simp [hnew]

/-- The shift map leaves any node outside the shifted sibling group alone,
because the shifted ids all belong to that group and ids are unique. -/
theorem bumpIf_id_of_parent_ne (st : Store) (pid : Nat) (ids : List Nat)
    (hnodup : (st.nodes.map (fun n => n.id)).Nodup)
    (hids : ∀ i ∈ ids, ∃ y ∈ st.nodes, y.id = i ∧ y.parentId = some pid)
    {x : MindMapNode} (hx : x ∈ st.nodes) (hxp : x.parentId ≠ some pid) :
    (if ids.contains x.id then ({ x with order := x.order + 1 } : MindMapNode) else x)
      = x := by
  cases hcon : ids.contains x.id with
  | false => simp
  | true =>
    exfalso
    have hmemid : x.id ∈ ids := by simpa using hcon
    rcases hids x.id hmemid with ⟨y, hy, hyid, hyp⟩
    have hxy : y = x := List.inj_on_of_nodup_map hnodup hy hx hyid
    exact hxp (hxy ▸ hyp)

/-- Sibling order values forming the block 0, 1, 2, ... (the shape the
creation operations keep stable). -/
def ordersContiguous (l : List MindMapNode) : Prop :=
  ∀ i : Nat, ∀ _ : i < l.length, ∀ x : MindMapNode, l[i]? = some x → x.order = (i : Int)

/-- Children query on a literal store. -/
theorem findByParentId_mk (ns : List MindMapNode) (k : Nat) (q : Option Nat) :
    findByParentId (⟨ns, k⟩ : Store) q = sortByOrder (ns.filter (fun n => n.parentId == q)) := rfl

/-- Full characterisation of `createSiblingBelow` on an existing non-root
anchor under the store invariant: the anchor sits at position `idx` of its
sorted sibling group, the result store satisfies the invariant again, the
group becomes the original block up to the anchor, then the new node at
`sibling.order + 1`, then the remaining block shifted up by one, and every
other group is untouched. -/
theorem createSiblingBelow_char (st : Store) (sib : MindMapNode) (pid : Nat) (c : String)
    (sibs : List MindMapNode) (idx : Nat)
    (hsibs : sibs = findByParentId st (some pid))
    (hidxe : idx = sibs.findIdx (fun n => n.id == sib.id))
    (hinv : StoreInv st) (hmem : sib ∈ st.nodes) (hp : sib.parentId = some pid) :
    idx < sibs.length ∧ sibs[idx]? = some sib ∧
    ∃ st2,
      createSiblingBelow st sib.id c =
        (st2, some (⟨st.nextId, c, some pid, sib.order + 1⟩ : MindMapNode))
      ∧ st2.nextId = st.nextId + 1
      ∧ StoreInv st2
      ∧ findByParentId st2 (some pid) =
          sibs.take (idx + 1)
            ++ (⟨st.nextId, c, some pid, sib.order + 1⟩ : MindMapNode)
              :: (sibs.drop (idx + 1)).map (fun n => { n with order := n.order + 1 })
      ∧ (∀ q, q ≠ some pid → findByParentId st2 q = findByParentId st q) := by
  obtain ⟨⟨hnodup, hfresh⟩, hpb, hso⟩ := hinv
  have hsibnodup : (sibs.map (fun n => n.id)).Nodup := by
    rw [hsibs]; exact findByParentId_ids_nodup st hnodup (some pid)
  have hsibmem : sib ∈ sibs := by
    rw [hsibs]; exact mem_findByParentId.mpr ⟨hmem, hp⟩
  have hsorted : sibs.Pairwise nodeLT := by
    rw [hsibs]; exact findByParentId_sorted_lt st hso (some pid)
  obtain ⟨hidx, hget⟩ : idx < sibs.length ∧ sibs[idx]? = some sib := by
    rw [hidxe]; exact sorted_findIdx_self sibs sib hsibnodup hsibmem
  have hgetE : sibs[idx] = sib := by
    have h2 := hget
    rwa [List.getElem?_eq_getElem hidx, Option.some_inj] at h2
  have hnotbump : (((sibs.drop (idx + 1)).map (fun n => n.id)).contains sib.id)
      = false := by
    have hnodup2 := hsibnodup
    rw [← List.take_append_drop (idx + 1) sibs, List.map_append, List.nodup_append]
      at hnodup2
    have hsibtake : sib ∈ sibs.take (idx + 1) := by
      have h1 : idx < (sibs.take (idx + 1)).length := by
        simp [List.length_take]; omega
      have h2 : (sibs.take (idx + 1))[idx] = sib := by
        rw [List.getElem_take]; exact hgetE
      exact h2 ▸ List.getElem_mem h1
    have hnm : sib.id ∉ (sibs.drop (idx + 1)).map (fun n => n.id) :=
      hnodup2.2.2 (List.mem_map_of_mem _ hsibtake)
    rw [List.map_drop] at hnm
    simp [hnm]
  have hfid : findById st sib.id = some sib := findById_of_mem hnodup hmem
  have hnotbumpF := hnotbump
  rw [hidxe, hsibs] at hnotbumpF
  have heq := createSiblingBelow_eq st sib pid c hfid hp hnotbumpF hfresh
  rw [← hsibs, ← hidxe] at heq
  have hfilperm : List.Perm (st.nodes.filter (fun n => n.parentId == some pid)) sibs := by
    rw [hsibs]; exact (sortByOrder_perm _).symm
  have hmapsplit : sibs.map (fun n =>
      if ((sibs.drop (idx + 1)).map (fun m => m.id)).contains n.id
      then { n with order := n.order + 1 } else n)
      = sibs.take (idx + 1)
        ++ (sibs.drop (idx + 1)).map (fun n => { n with order := n.order + 1 }) :=
    map_bumpIf_split sibs (idx + 1) _ rfl hsibnodup
  have hbounds := sorted_split_bounds sibs sib idx hsorted hidx hgetE
  have hElt : (sibs.take (idx + 1)
      ++ (⟨st.nextId, c, some pid, sib.order + 1⟩ : MindMapNode)
        :: (sibs.drop (idx + 1)).map
            (fun n => { n with order := n.order + 1 })).Pairwise nodeLT := by
    refine spliced_pairwise_lt sibs (idx + 1) hsorted _ ?_ ?_
    · intro x hx
      have := hbounds.1 x hx
      show x.order < sib.order + 1
      omega
    · intro x hx
      have := hbounds.2.1 x hx
      show sib.order + 1 ≤ x.order
      omega
  have hXperm : List.Perm
      ((st.nodes.filter (fun n => n.parentId == some pid)).map (fun n =>
        if ((sibs.drop (idx + 1)).map (fun m => m.id)).contains n.id
        then { n with order := n.order + 1 } else n)
       ++ [(⟨st.nextId, c, some pid, sib.order + 1⟩ : MindMapNode)])
      (sibs.take (idx + 1)
        ++ (⟨st.nextId, c, some pid, sib.order + 1⟩ : MindMapNode)
          :: (sibs.drop (idx + 1)).map (fun n => { n with order := n.order + 1 })) := by
    have h1 := (hfilperm.map (fun n =>
        if ((sibs.drop (idx + 1)).map (fun m => m.id)).contains n.id
        then { n with order := n.order + 1 } else n)).append_right
        [(⟨st.nextId, c, some pid, sib.order + 1⟩ : MindMapNode)]
    rw [hmapsplit] at h1
    exact h1.trans (spliced_perm _ _ _)
  have hids : ∀ i ∈ (sibs.drop (idx + 1)).map (fun n => n.id),
      ∃ y ∈ st.nodes, y.id = i ∧ y.parentId = some pid := by
    intro i hi
    rcases List.mem_map.mp hi with ⟨y, hy, rfl⟩
    have hy2 : y ∈ sibs := List.mem_of_mem_drop hy
    rw [hsibs] at hy2
    rcases mem_findByParentId.mp hy2 with ⟨hyn, hyp⟩
    exact ⟨y, hyn, rfl, hyp⟩
  have hother : ∀ q, q ≠ some pid →
      ((st.nodes.map (fun n =>
          if ((sibs.drop (idx + 1)).map (fun m => m.id)).contains n.id
          then { n with order := n.order + 1 } else n)
        ++ [(⟨st.nextId, c, some pid, sib.order + 1⟩ : MindMapNode)]).filter
          (fun n => n.parentId == q))
        = st.nodes.filter (fun n => n.parentId == q) := by
    intro q hq
    rw [filter_map_append_other st.nodes _ q _ (fun n _ => bumpIf_parentId _ n)
      (by simp only [beq_eq_false_iff_ne]; exact fun h => hq h.symm)]
    calc (st.nodes.filter (fun n => n.parentId == q)).map (fun n =>
          if ((sibs.drop (idx + 1)).map (fun m => m.id)).contains n.id
          then { n with order := n.order + 1 } else n)
        = (st.nodes.filter (fun n => n.parentId == q)).map (fun n => n) := by
          refine List.map_congr_left ?_
          intro x hx
          rcases List.mem_filter.mp hx with ⟨hxn, hxq⟩
          refine bumpIf_id_of_parent_ne st pid _ hnodup hids hxn ?_
          intro hcon
          have hxq2 : x.parentId = q := by simpa using hxq
          exact hq (hxq2.symm.trans hcon)
      _ = st.nodes.filter (fun n => n.parentId == q) := by simp
  refine ⟨hidx, hget, ⟨(bumpOrders st ((sibs.drop (idx + 1)).map (fun n => n.id))).nodes
      ++ [(⟨st.nextId, c, some pid, sib.order + 1⟩ : MindMapNode)], st.nextId + 1⟩,
    heq, rfl, ?_, ?_, ?_⟩
  · rw [bumpOrders_nodes]
    have hA : (((st.nodes.map (fun n =>
        if ((sibs.drop (idx + 1)).map (fun m => m.id)).contains n.id
        then { n with order := n.order + 1 } else n))
        ++ [(⟨st.nextId, c, some pid, sib.order + 1⟩ : MindMapNode)]).map
          (fun n => n.id)).Nodup := by
      rw [List.map_append, List.map_map,
        show st.nodes.map ((fun n => n.id) ∘ (fun n =>
          if ((sibs.drop (idx + 1)).map (fun m => m.id)).contains n.id
          then { n with order := n.order + 1 } else n)) = st.nodes.map (fun n => n.id)
          from List.map_congr_left (fun x _ => bumpIf_id _ x),
        List.nodup_append]
      refine ⟨hnodup, List.nodup_singleton _, ?_⟩
      intro a ha hb
      rcases List.mem_map.mp ha with ⟨x, hx, rfl⟩
      have hlt := hfresh x hx
      have : x.id = st.nextId := by simpa using hb
      omega
    have hB : ∀ n ∈ (st.nodes.map (fun n =>
        if ((sibs.drop (idx + 1)).map (fun m => m.id)).contains n.id
        then { n with order := n.order + 1 } else n))
        ++ [(⟨st.nextId, c, some pid, sib.order + 1⟩ : MindMapNode)],
        n.id < st.nextId + 1 := by
      intro n hn
      rcases List.mem_append.mp hn with h | h
      · rcases List.mem_map.mp h with ⟨x, hx, rfl⟩
        have hlt := hfresh x hx
        rw [bumpIf_id]
        omega
      · rw [List.mem_singleton] at h
        subst h
        show st.nextId < st.nextId + 1
        omega
    have hC : ∀ n ∈ (st.nodes.map (fun n =>
        if ((sibs.drop (idx + 1)).map (fun m => m.id)).contains n.id
        then { n with order := n.order + 1 } else n))
        ++ [(⟨st.nextId, c, some pid, sib.order + 1⟩ : MindMapNode)],
        ∀ p, n.parentId = some p → p < st.nextId + 1 := by
      intro n hn p hp2
      rcases List.mem_append.mp hn with h | h
      · rcases List.mem_map.mp h with ⟨x, hx, rfl⟩
        rw [bumpIf_parentId] at hp2
        have := hpb x hx p hp2
        omega
      · rw [List.mem_singleton] at h
        subst h
        have hp3 : p = pid := (Option.some_inj.mp (hp2 : some pid = some p)).symm
        subst hp3
        have := hpb sib hmem p hp
        omega
    have hD : ∀ q : Option Nat, ((((st.nodes.map (fun n =>
        if ((sibs.drop (idx + 1)).map (fun m => m.id)).contains n.id
        then { n with order := n.order + 1 } else n))
        ++ [(⟨st.nextId, c, some pid, sib.order + 1⟩ : MindMapNode)]).filter
          (fun n => n.parentId == q)).Pairwise (fun a b => a.order ≠ b.order)) := by
      intro q
      by_cases hq : q = some pid
      · subst hq
        rw [filter_map_append_new st.nodes _ (some pid) _
          (fun n _ => bumpIf_parentId _ n) (by simp)]
        exact (List.Perm.pairwise_iff (fun h => Ne.symm h) hXperm).mpr
          (hElt.imp (fun h => ne_of_lt h))
      · rw [hother q hq]
        exact hso q
    exact ⟨⟨hA, hB⟩, hC, hD⟩
  · rw [bumpOrders_nodes, findByParentId_mk,
      filter_map_append_new st.nodes _ (some pid) _
        (fun n _ => bumpIf_parentId _ n) (by simp)]
    exact sortByOrder_eq_of_perm_sorted hXperm hElt
  · intro q hq
    rw [bumpOrders_nodes, findByParentId_mk, hother q hq]
    rfl

/-- The raw computation performed by `createSiblingAbove` on a found
non-root anchor: the anchor itself is among the shifted nodes, so the new
node lands exactly at the anchor's original order. -/
theorem createSiblingAbove_eq (st : Store) (sib : MindMapNode) (pid : Nat) (c : String)
    (hf : findById st sib.id = some sib) (hp : sib.parentId = some pid)
    (hbump : ((((findByParentId st (some pid)).drop
        ((findByParentId st (some pid)).findIdx (fun n => n.id == sib.id))).map
          (fun n => n.id)).contains sib.id) = true)
    (hfresh : ∀ n ∈ st.nodes, n.id < st.nextId) :
    createSiblingAbove st sib.id c =
      ((⟨(bumpOrders st (((findByParentId st (some pid)).drop
            ((findByParentId st (some pid)).findIdx (fun n => n.id == sib.id))).map
              (fun n => n.id))).nodes ++
          [(⟨st.nextId, c, some pid, sib.order⟩ : MindMapNode)],
        st.nextId + 1⟩ : Store),
        some (⟨st.nextId, c, some pid, sib.order⟩ : MindMapNode)) := by
  have hfind : findById (bumpOrders st (((findByParentId st (some pid)).drop
      ((findByParentId st (some pid)).findIdx (fun n => n.id == sib.id))).map
        (fun n => n.id))) sib.id = some ({ sib with order := sib.order + 1 }) := by
    show (st.nodes.map _).find? _ = _
    rw [find?_map_id_preserving st.nodes _ (fun n => bumpIf_id _ n) sib.id]
    rw [show st.nodes.find? (fun n => n.id == sib.id) = some sib from hf]
    have hb := hbump
    simp at hb
    simp [hb]
  have hany : ∀ ids : List Nat,
      ((bumpOrders st ids).nodes.any (fun n => n.id == st.nextId)) = false := by
    intro ids
    rw [bumpOrders_nodes, List.any_map]
    rw [List.any_eq_false]
    intro x hx
    simp only [Function.comp_apply, bumpIf_id]
    simp [Nat.ne_of_lt (hfresh x hx)]
  simp only [createSiblingAbove, hf, hp]
  rw [hfind]
  simp only [Option.getD_some, bumpOrders_nextId]
  unfold save
  simp only [bumpOrders_nextId]
  rw [show ((⟨(bumpOrders st (((findByParentId st (some pid)).drop
      ((findByParentId st (some pid)).findIdx (fun n => n.id == sib.id))).map
        (fun n => n.id))).nodes, st.nextId + 1⟩ : Store).nodes.any
      (fun n => n.id == st.nextId)) = false from hany _]
  simp

/-- Full characterisation of `createSiblingAbove` on an existing non-root
anchor under the store invariant: the group becomes the original block
before the anchor, then the new node at the anchor's original order, then
the anchor and the rest shifted up by one; other groups are untouched. -/
theorem createSiblingAbove_char (st : Store) (sib : MindMapNode) (pid : Nat) (c : String)
    (sibs : List MindMapNode) (idx : Nat)
    (hsibs : sibs = findByParentId st (some pid))
    (hidxe : idx = sibs.findIdx (fun n => n.id == sib.id))
    (hinv : StoreInv st) (hmem : sib ∈ st.nodes) (hp : sib.parentId = some pid) :
    idx < sibs.length ∧ sibs[idx]? = some sib ∧
    ∃ st2,
      createSiblingAbove st sib.id c =
        (st2, some (⟨st.nextId, c, some pid, sib.order⟩ : MindMapNode))
      ∧ st2.nextId = st.nextId + 1
      ∧ StoreInv st2
      ∧ findByParentId st2 (some pid) =
          sibs.take idx
            ++ (⟨st.nextId, c, some pid, sib.order⟩ : MindMapNode)
              :: (sibs.drop idx).map (fun n => { n with order := n.order + 1 })
      ∧ (∀ q, q ≠ some pid → findByParentId st2 q = findByParentId st q) := by
  obtain ⟨⟨hnodup, hfresh⟩, hpb, hso⟩ := hinv
  have hsibnodup : (sibs.map (fun n => n.id)).Nodup := by
    rw [hsibs]; exact findByParentId_ids_nodup st hnodup (some pid)
  have hsibmem : sib ∈ sibs := by
    rw [hsibs]; exact mem_findByParentId.mpr ⟨hmem, hp⟩
  have hsorted : sibs.Pairwise nodeLT := by
    rw [hsibs]; exact findByParentId_sorted_lt st hso (some pid)
  obtain ⟨hidx, hget⟩ : idx < sibs.length ∧ sibs[idx]? = some sib := by
    rw [hidxe]; exact sorted_findIdx_self sibs sib hsibnodup hsibmem
  have hgetE : sibs[idx] = sib := by
    have h2 := hget
    rwa [List.getElem?_eq_getElem hidx, Option.some_inj] at h2
  have hbump : (((sibs.drop idx).map (fun n => n.id)).contains sib.id) = true := by
    have hdropmem : sib ∈ sibs.drop idx := by
      have h1 : 0 < (sibs.drop idx).length := by
        rw [List.length_drop]; omega
      have h2 : (sibs.drop idx)[0] = sib := by
        rw [List.getElem_drop]
        simpa using hgetE
      exact h2 ▸ List.getElem_mem h1
    have hm : sib.id ∈ (sibs.drop idx).map (fun n => n.id) :=
      List.mem_map_of_mem _ hdropmem
    simpa using hm
  have hfid : findById st sib.id = some sib := findById_of_mem hnodup hmem
  have hbumpF := hbump
  rw [hidxe, hsibs] at hbumpF
  have heq := createSiblingAbove_eq st sib pid c hfid hp hbumpF hfresh
  rw [← hsibs, ← hidxe] at heq
  have hfilperm : List.Perm (st.nodes.filter (fun n => n.parentId == some pid)) sibs := by
    rw [hsibs]; exact (sortByOrder_perm _).symm
  have hmapsplit : sibs.map (fun n =>
      if ((sibs.drop idx).map (fun m => m.id)).contains n.id
      then { n with order := n.order + 1 } else n)
      = sibs.take idx
        ++ (sibs.drop idx).map (fun n => { n with order := n.order + 1 }) :=
    map_bumpIf_split sibs idx _ rfl hsibnodup
  have hbounds := sorted_split_bounds sibs sib idx hsorted hidx hgetE
  have hElt : (sibs.take idx
      ++ (⟨st.nextId, c, some pid, sib.order⟩ : MindMapNode)
        :: (sibs.drop idx).map
            (fun n => { n with order := n.order + 1 })).Pairwise nodeLT := by
    refine spliced_pairwise_lt sibs idx hsorted _ ?_ ?_
    · intro x hx
      have := hbounds.2.2.1 x hx
      show x.order < sib.order
      omega
    · intro x hx
      have := hbounds.2.2.2 x hx
      show sib.order ≤ x.order
      omega
  have hXperm : List.Perm
      ((st.nodes.filter (fun n => n.parentId == some pid)).map (fun n =>
        if ((sibs.drop idx).map (fun m => m.id)).contains n.id
        then { n with order := n.order + 1 } else n)
       ++ [(⟨st.nextId, c, some pid, sib.order⟩ : MindMapNode)])
      (sibs.take idx
        ++ (⟨st.nextId, c, some pid, sib.order⟩ : MindMapNode)
          :: (sibs.drop idx).map (fun n => { n with order := n.order + 1 })) := by
    have h1 := (hfilperm.map (fun n =>
        if ((sibs.drop idx).map (fun m => m.id)).contains n.id
        then { n with order := n.order + 1 } else n)).append_right
        [(⟨st.nextId, c, some pid, sib.order⟩ : MindMapNode)]
    rw [hmapsplit] at h1
    exact h1.trans (spliced_perm _ _ _)
  have hids : ∀ i ∈ (sibs.drop idx).map (fun n => n.id),
      ∃ y ∈ st.nodes, y.id = i ∧ y.parentId = some pid := by
    intro i hi
    rcases List.mem_map.mp hi with ⟨y, hy, rfl⟩
    have hy2 : y ∈ sibs := List.mem_of_mem_drop hy
    rw [hsibs] at hy2
    rcases mem_findByParentId.mp hy2 with ⟨hyn, hyp⟩
    exact ⟨y, hyn, rfl, hyp⟩
  have hother : ∀ q, q ≠ some pid →
      ((st.nodes.map (fun n =>
          if ((sibs.drop idx).map (fun m => m.id)).contains n.id
          then { n with order := n.order + 1 } else n)
        ++ [(⟨st.nextId, c, some pid, sib.order⟩ : MindMapNode)]).filter
          (fun n => n.parentId == q))
        = st.nodes.filter (fun n => n.parentId == q) := by
    intro q hq
    rw [filter_map_append_other st.nodes _ q _ (fun n _ => bumpIf_parentId _ n)
      (by simp only [beq_eq_false_iff_ne]; exact fun h => hq h.symm)]
    calc (st.nodes.filter (fun n => n.parentId == q)).map (fun n =>
          if ((sibs.drop idx).map (fun m => m.id)).contains n.id
          then { n with order := n.order + 1 } else n)
        = (st.nodes.filter (fun n => n.parentId == q)).map (fun n => n) := by
          refine List.map_congr_left ?_
          intro x hx
          rcases List.mem_filter.mp hx with ⟨hxn, hxq⟩
          refine bumpIf_id_of_parent_ne st pid _ hnodup hids hxn ?_
          intro hcon
          have hxq2 : x.parentId = q := by simpa using hxq
          exact hq (hxq2.symm.trans hcon)
      _ = st.nodes.filter (fun n => n.parentId == q) := by simp
  refine ⟨hidx, hget, ⟨(bumpOrders st ((sibs.drop idx).map (fun n => n.id))).nodes
      ++ [(⟨st.nextId, c, some pid, sib.order⟩ : MindMapNode)], st.nextId + 1⟩,
    heq, rfl, ?_, ?_, ?_⟩
  · rw [bumpOrders_nodes]
    have hA : (((st.nodes.map (fun n =>
        if ((sibs.drop idx).map (fun m => m.id)).contains n.id
        then { n with order := n.order + 1 } else n))
        ++ [(⟨st.nextId, c, some pid, sib.order⟩ : MindMapNode)]).map
          (fun n => n.id)).Nodup := by
      rw [List.map_append, List.map_map,
        show st.nodes.map ((fun n => n.id) ∘ (fun n =>
          if ((sibs.drop idx).map (fun m => m.id)).contains n.id
          then { n with order := n.order + 1 } else n)) = st.nodes.map (fun n => n.id)
          from List.map_congr_left (fun x _ => bumpIf_id _ x),
        List.nodup_append]
      refine ⟨hnodup, List.nodup_singleton _, ?_⟩
      intro a ha hb
      rcases List.mem_map.mp ha with ⟨x, hx, rfl⟩
      have hlt := hfresh x hx
      have : x.id = st.nextId := by simpa using hb
      omega
    have hB : ∀ n ∈ (st.nodes.map (fun n =>
        if ((sibs.drop idx).map (fun m => m.id)).contains n.id
        then { n with order := n.order + 1 } else n))
        ++ [(⟨st.nextId, c, some pid, sib.order⟩ : MindMapNode)],
        n.id < st.nextId + 1 := by
      intro n hn
      rcases List.mem_append.mp hn with h | h
      · rcases List.mem_map.mp h with ⟨x, hx, rfl⟩
        have hlt := hfresh x hx
        rw [bumpIf_id]
        omega
      · rw [List.mem_singleton] at h
        subst h
        show st.nextId < st.nextId + 1
        omega
    have hC : ∀ n ∈ (st.nodes.map (fun n =>
        if ((sibs.drop idx).map (fun m => m.id)).contains n.id
        then { n with order := n.order + 1 } else n))
        ++ [(⟨st.nextId, c, some pid, sib.order⟩ : MindMapNode)],
        ∀ p, n.parentId = some p → p < st.nextId + 1 := by
      intro n hn p hp2
      rcases List.mem_append.mp hn with h | h
      · rcases List.mem_map.mp h with ⟨x, hx, rfl⟩
        rw [bumpIf_parentId] at hp2
        have := hpb x hx p hp2
        omega
      · rw [List.mem_singleton] at h
        subst h
        have hp3 : p = pid := (Option.some_inj.mp (hp2 : some pid = some p)).symm
        subst hp3
        have := hpb sib hmem p hp
        omega
    have hD : ∀ q : Option Nat, ((((st.nodes.map (fun n =>
        if ((sibs.drop idx).map (fun m => m.id)).contains n.id
        then { n with order := n.order + 1 } else n))
        ++ [(⟨st.nextId, c, some pid, sib.order⟩ : MindMapNode)]).filter
          (fun n => n.parentId == q)).Pairwise (fun a b => a.order ≠ b.order)) := by
      intro q
      by_cases hq : q = some pid
      · subst hq
        rw [filter_map_append_new st.nodes _ (some pid) _
          (fun n _ => bumpIf_parentId _ n) (by simp)]
        exact (List.Perm.pairwise_iff (fun h => Ne.symm h) hXperm).mpr
          (hElt.imp (fun h => ne_of_lt h))
      · rw [hother q hq]
        exact hso q
    exact ⟨⟨hA, hB⟩, hC, hD⟩
  · rw [bumpOrders_nodes, findByParentId_mk,
      filter_map_append_new st.nodes _ (some pid) _
        (fun n _ => bumpIf_parentId _ n) (by simp)]
    exact sortByOrder_eq_of_perm_sorted hXperm hElt
  · intro q hq
    rw [bumpOrders_nodes, findByParentId_mk, hother q hq]
    rfl

/-- The element sitting at the splice boundary is the spliced node. -/
theorem spliced_getElem_new (T D : List MindMapNode) (new : MindMapNode) :
    (T ++ new :: D)[T.length]? = some new := by
  rw [List.getElem?_append_right (le_refl T.length)]
  simp

/-- Positions before the splice boundary read from the first block. -/
theorem spliced_getElem_left (T D : List MindMapNode) (new : MindMapNode)
    (i : Nat) (h : i < T.length) :
    (T ++ new :: D)[i]? = T[i]? := by
  rw [List.getElem?_append, if_pos h]

/-- Positions after the splice boundary read from the shifted block. -/
theorem spliced_getElem_right (T D : List MindMapNode) (new : MindMapNode)
    (i : Nat) (h : T.length < i) :
    (T ++ new :: D)[i]? = D[i - T.length - 1]? := by
  rw [List.getElem?_append_right (le_of_lt h)]
  have h2 : i - T.length = (i - T.length - 1) + 1 := by omega
  conv_lhs => rw [h2]
  rw [List.getElem?_cons_succ]

/-- Splicing a node with order `k` at boundary `k` and shifting the tail by
one keeps the 0,1,2,... order shape. -/
theorem spliced_contiguous (sibs : List MindMapNode) (k : Nat) (new : MindMapNode)
    (hk : k ≤ sibs.length) (hord : new.order = (k : Int))
    (hcont : ordersContiguous sibs) :
    ordersContiguous (sibs.take k ++ new :: (sibs.drop k).map
      (fun n => { n with order := n.order + 1 })) := by
  intro i hi x hx
  have hTlen : (sibs.take k).length = k := by
    simp [List.length_take]; omega
  have hlen : (sibs.take k ++ new :: (sibs.drop k).map
      (fun n => ({ n with order := n.order + 1 } : MindMapNode))).length
      = sibs.length + 1 := by
    simp [List.length_append, List.length_take, List.length_drop]
    omega
  rw [hlen] at hi
  rcases Nat.lt_trichotomy i k with hik | hik | hik
  · rw [spliced_getElem_left _ _ _ i (by omega)] at hx
    rw [List.getElem?_take, if_pos hik] at hx
    exact hcont i (by omega) x hx
  · subst hik
    have hb := spliced_getElem_new (sibs.take i) ((sibs.drop i).map
      (fun n => ({ n with order := n.order + 1 } : MindMapNode))) new
    rw [hTlen] at hb
    rw [hb] at hx
    have hxnew : new = x := Option.some_inj.mp hx
    rw [← hxnew]
    exact hord
  · rw [spliced_getElem_right _ _ _ i (by omega)] at hx
    rw [hTlen, List.getElem?_map, List.getElem?_drop] at hx
    have hik2 : k + (i - k - 1) = i - 1 := by omega
    rw [hik2] at hx
    cases hy : sibs[i - 1]? with
    | none => rw [hy] at hx; cases hx
    | some y =>
      rw [hy] at hx
      have hxy : x = ({ y with order := y.order + 1 } : MindMapNode) :=
        (Option.some_inj.mp hx).symm
      have hyord := hcont (i - 1) (by omega) y hy
      rw [hxy]
      show y.order + 1 = (i : Int)
      rw [hyord]
      omega

/-- `SiblingOrders` from one decidable pairwise check over the whole node
list. -/
theorem siblingOrders_of_pairwise {st : Store}
    (h : st.nodes.Pairwise (fun a b => a.parentId = b.parentId → a.order ≠ b.order)) :
    SiblingOrders st := by
  intro pid
  refine (h.filter _).imp_of_mem ?_
  intro a b ha hb hab
  have ha2 : a.parentId = pid := by simpa using (List.mem_filter.mp ha).2
  have hb2 : b.parentId = pid := by simpa using (List.mem_filter.mp hb).2
  exact hab (ha2.trans hb2.symm)

/-- `ParentsBounded` from a decidable per-node check. -/
theorem parentsBounded_of_forall {st : Store}
    (h : ∀ n ∈ st.nodes, n.parentId.all (fun p => decide (p < st.nextId)) = true) :
    ParentsBounded st := by
  intro n hn p hp
  have h2 := h n hn
  rw [hp] at h2
  simpa using h2

/-- The full store invariant from four decidable checks. -/
theorem storeInv_of_checks {st : Store}
    (h1 : (st.nodes.map (fun n => n.id)).Nodup)
    (h2 : ∀ n ∈ st.nodes, n.id < st.nextId)
    (h3 : ∀ n ∈ st.nodes, n.parentId.all (fun p => decide (p < st.nextId)) = true)
    (h4 : st.nodes.Pairwise (fun a b => a.parentId = b.parentId → a.order ≠ b.order)) :
    StoreInv st :=
  ⟨⟨h1, h2⟩, parentsBounded_of_forall h3, siblingOrders_of_pairwise h4⟩

/-! ## Claim C4 -/

/-- C4: under the store invariant, for every existing non-root anchor,
`createSiblingBelow` creates the node the children query of the anchor's
parent returns immediately after the anchor and `createSiblingAbove` one
immediately before it, and both keep contiguous (0,1,2,...) sibling orders
contiguous; on a root anchor (null parentId) or a missing id, both
operations return null with the store unchanged. -/
theorem claim_C4 (st : Store) (c c2 : String) (hinv : StoreInv st) :
    (∀ sib ∈ st.nodes, ∀ pid : Nat, sib.parentId = some pid →
      (∃ st2 newNode, createSiblingBelow st sib.id c = (st2, some newNode) ∧
        (∃ i : Nat, ∃ a : MindMapNode,
          (findByParentId st2 (some pid))[i]? = some a ∧ a.id = sib.id ∧
          (findByParentId st2 (some pid))[i + 1]? = some newNode) ∧
        (ordersContiguous (findByParentId st (some pid)) →
          ordersContiguous (findByParentId st2 (some pid)))) ∧
      (∃ st2 newNode, createSiblingAbove st sib.id c2 = (st2, some newNode) ∧
        (∃ i : Nat, ∃ b : MindMapNode,
          (findByParentId st2 (some pid))[i]? = some newNode ∧
          (findByParentId st2 (some pid))[i + 1]? = some b ∧ b.id = sib.id) ∧
        (ordersContiguous (findByParentId st (some pid)) →
          ordersContiguous (findByParentId st2 (some pid)))))
    ∧ (∀ rt ∈ st.nodes, rt.parentId = none →
        createSiblingBelow st rt.id c = (st, none)
        ∧ createSiblingAbove st rt.id c2 = (st, none))
    ∧ (∀ i : Nat, findById st i = none →
        createSiblingBelow st i c = (st, none)
        ∧ createSiblingAbove st i c2 = (st, none)) := by
  refine ⟨?_, ?_, ?_⟩
  · intro sib hmem pid hp
    obtain ⟨hidxB, hgetB, st2B, heqB, _, _, hEB, _⟩ :=
      createSiblingBelow_char st sib pid c _ _ rfl rfl hinv hmem hp
    obtain ⟨hidxA, hgetA, st2A, heqA, _, _, hEA, _⟩ :=
      createSiblingAbove_char st sib pid c2 _ _ rfl rfl hinv hmem hp
    constructor
    · refine ⟨st2B, _, heqB, ?_, ?_⟩
      · refine ⟨(findByParentId st (some pid)).findIdx (fun n => n.id == sib.id),
          sib, ?_, rfl, ?_⟩
        · rw [hEB]
          have hTlen : ((findByParentId st (some pid)).take
              ((findByParentId st (some pid)).findIdx (fun n => n.id == sib.id) + 1)).length
              = (findByParentId st (some pid)).findIdx (fun n => n.id == sib.id) + 1 := by
            simp [List.length_take]; omega
          have hb := spliced_getElem_left ((findByParentId st (some pid)).take
              ((findByParentId st (some pid)).findIdx (fun n => n.id == sib.id) + 1))
            (((findByParentId st (some pid)).drop
              ((findByParentId st (some pid)).findIdx (fun n => n.id == sib.id) + 1)).map
                (fun n => { n with order := n.order + 1 }))
            (⟨st.nextId, c, some pid, sib.order + 1⟩ : MindMapNode)
            ((findByParentId st (some pid)).findIdx (fun n => n.id == sib.id))
            (by rw [hTlen]; omega)
          rw [hb, List.getElem?_take, if_pos (by omega)]
          exact hgetB
        · rw [hEB]
          have hTlen : ((findByParentId st (some pid)).take
              ((findByParentId st (some pid)).findIdx (fun n => n.id == sib.id) + 1)).length
              = (findByParentId st (some pid)).findIdx (fun n => n.id == sib.id) + 1 := by
            simp [List.length_take]; omega
          have hb := spliced_getElem_new ((findByParentId st (some pid)).take
              ((findByParentId st (some pid)).findIdx (fun n => n.id == sib.id) + 1))
            (((findByParentId st (some pid)).drop
              ((findByParentId st (some pid)).findIdx (fun n => n.id == sib.id) + 1)).map
                (fun n => { n with order := n.order + 1 }))
            (⟨st.nextId, c, some pid, sib.order + 1⟩ : MindMapNode)
          rw [hTlen] at hb
          exact hb
      · intro hcont
        rw [hEB]
        refine spliced_contiguous _ _ _ (by omega) ?_ hcont
        have hsibord := hcont _ hidxB sib hgetB
        show sib.order + 1 =
          (((findByParentId st (some pid)).findIdx (fun n => n.id == sib.id) + 1 : Nat) : Int)
        push_cast
        omega
    · refine ⟨st2A, _, heqA, ?_, ?_⟩
      · refine ⟨(findByParentId st (some pid)).findIdx (fun n => n.id == sib.id),
          { sib with order := sib.order + 1 }, ?_, ?_, rfl⟩
        · rw [hEA]
          have hTlen : ((findByParentId st (some pid)).take
              ((findByParentId st (some pid)).findIdx (fun n => n.id == sib.id))).length
              = (findByParentId st (some pid)).findIdx (fun n => n.id == sib.id) := by
            simp [List.length_take]; omega
          have hb := spliced_getElem_new ((findByParentId st (some pid)).take
              ((findByParentId st (some pid)).findIdx (fun n => n.id == sib.id)))
            (((findByParentId st (some pid)).drop
              ((findByParentId st (some pid)).findIdx (fun n => n.id == sib.id))).map
                (fun n => { n with order := n.order + 1 }))
            (⟨st.nextId, c2, some pid, sib.order⟩ : MindMapNode)
          rw [hTlen] at hb
          exact hb
        · rw [hEA]
          have hTlen : ((findByParentId st (some pid)).take
              ((findByParentId st (some pid)).findIdx (fun n => n.id == sib.id))).length
              = (findByParentId st (some pid)).findIdx (fun n => n.id == sib.id) := by
            simp [List.length_take]; omega
          have hb := spliced_getElem_right ((findByParentId st (some pid)).take
              ((findByParentId st (some pid)).findIdx (fun n => n.id == sib.id)))
            (((findByParentId st (some pid)).drop
              ((findByParentId st (some pid)).findIdx (fun n => n.id == sib.id))).map
                (fun n => { n with order := n.order + 1 }))
            (⟨st.nextId, c2, some pid, sib.order⟩ : MindMapNode)
            ((findByParentId st (some pid)).findIdx (fun n => n.id == sib.id) + 1)
            (by rw [hTlen]; omega)
          rw [hTlen] at hb
          have h0 : (findByParentId st (some pid)).findIdx (fun n => n.id == sib.id) + 1
              - (findByParentId st (some pid)).findIdx (fun n => n.id == sib.id) - 1 = 0 := by
            omega
          rw [h0] at hb
          rw [hb, List.getElem?_map, List.getElem?_drop, Nat.add_zero, hgetA]
          rfl
      · intro hcont
        rw [hEA]
        refine spliced_contiguous _ _ _ (by omega) ?_ hcont
        exact hcont _ hidxA sib hgetA
  · intro rt hmemr hpr
    have hfid : findById st rt.id = some rt := findById_of_mem hinv.1.1 hmemr
    constructor
    · simp [createSiblingBelow, hfid, hpr]
    · simp [createSiblingAbove, hfid, hpr]
  · intro i hnone
    constructor
    · simp [createSiblingBelow, hnone]
    · simp [createSiblingAbove, hnone]

/-- C4, witness: the example store satisfies the invariant, and by the
claim both sibling creations on its root anchor return null and leave the
store unchanged. -/
theorem claim_C4_witness :
    StoreInv exStore ∧
    (createSiblingBelow exStore 0 "x" = (exStore, none)
      ∧ createSiblingAbove exStore 0 "y" = (exStore, none)) := by
  have hinv : StoreInv exStore :=
    storeInv_of_checks (by decide) (by decide) (by decide) (by decide)
  exact ⟨hinv, (claim_C4 exStore "x" "y" hinv).2.1
    ({ id := 0, content := "Root", parentId := none, order := 0 }) (by decide) rfl⟩

/-! ## Invariant preservation for the mutation service -/

/-- The store invariant survives dropping nodes (same id counter). -/
theorem storeInv_of_sublist {st st2 : Store} (hs : st2.nodes.Sublist st.nodes)
    (hn : st2.nextId = st.nextId) (hinv : StoreInv st) : StoreInv st2 := by
  obtain ⟨⟨hnodup, hfresh⟩, hpb, hso⟩ := hinv
  refine ⟨⟨hnodup.sublist (hs.map _), ?_⟩, ?_, ?_⟩
  · intro n hn2
    rw [hn]
    exact hfresh n (hs.subset hn2)
  · intro n hn2 p hp
    rw [hn]
    exact hpb n (hs.subset hn2) p hp
  · intro pid
    exact List.Pairwise.sublist (hs.filter _) (hso pid)

/-- Folding a nodes-shrinking, counter-preserving step shrinks nodes and
preserves the counter. -/
theorem foldl_sublist {α : Type} (f : Store → α → Store)
    (hf : ∀ acc a, (f acc a).nodes.Sublist acc.nodes ∧ (f acc a).nextId = acc.nextId)
    (l : List α) (st : Store) :
    (l.foldl f st).nodes.Sublist st.nodes ∧ (l.foldl f st).nextId = st.nextId := by
  induction l generalizing st with
  | nil => exact ⟨List.Sublist.refl _, rfl⟩
  | cons a l ih =>
    have h1 := hf st a
    have h2 := ih (f st a)
    exact ⟨h2.1.trans h1.1, h2.2.trans h1.2⟩

/-- Deleting a subtree only removes nodes and never touches the counter. -/
theorem deleteNodeWithChildrenFuel_sublist :
    ∀ (fuel : Nat) (st : Store) (i : Nat),
      (deleteNodeWithChildrenFuel fuel st i).nodes.Sublist st.nodes
      ∧ (deleteNodeWithChildrenFuel fuel st i).nextId = st.nextId := by
  intro fuel
  induction fuel with
  | zero => intro st i; exact ⟨List.Sublist.refl _, rfl⟩
  | succ fuel ih =>
    intro st i
    have hst1 := foldl_sublist (fun acc c => deleteNodeWithChildrenFuel fuel acc c.id)
      (fun acc a => ih acc a.id) (findByParentId st (some i)) st
    exact ⟨(List.filter_sublist _).trans hst1.1, hst1.2⟩

/-- `deleteNode` preserves the store invariant (failures mutate nothing,
success filters). -/
theorem deleteNode_inv (st : Store) (nodeId : Nat) (hinv : StoreInv st) :
    StoreInv (deleteNode st nodeId).1 := by
  cases hx : findById st nodeId with
  | none => simp only [deleteNode, hx]; exact hinv
  | some node =>
    cases hpp : node.parentId with
    | none => simp only [deleteNode, hx, hpp]; exact hinv
    | some pid =>
      simp only [deleteNode, hx, hpp]
      split
      · exact hinv
      · exact storeInv_of_sublist (List.filter_sublist _) rfl hinv

/-- `deleteNodeWithChildren` preserves the store invariant. -/
theorem deleteNodeWithChildren_inv (st : Store) (i : Nat) (hinv : StoreInv st) :
    StoreInv (deleteNodeWithChildren st i) :=
  storeInv_of_sublist (deleteNodeWithChildrenFuel_sublist _ st i).1
    (deleteNodeWithChildrenFuel_sublist _ st i).2 hinv

/-- `deleteChildren` preserves the store invariant. -/
theorem deleteChildren_inv (st : Store) (i : Nat) (hinv : StoreInv st) :
    StoreInv (deleteChildren st i) := by
  have h := @foldl_sublist MindMapNode (fun acc c => deleteNodeWithChildren acc c.id)
    (fun acc a =>
      ⟨(deleteNodeWithChildrenFuel_sublist (acc.nodes.length + 1) acc a.id).1,
        (deleteNodeWithChildrenFuel_sublist (acc.nodes.length + 1) acc a.id).2⟩)
    (findByParentId st (some i)) st
  exact storeInv_of_sublist h.1 h.2 hinv

/-- The two sibling creations preserve the store invariant. -/
theorem createSiblingBelow_inv (st : Store) (sid : Nat) (c : String)
    (hinv : StoreInv st) : StoreInv (createSiblingBelow st sid c).1 := by
  cases hx : findById st sid with
  | none => simp only [createSiblingBelow, hx]; exact hinv
  | some sib =>
    cases hpp : sib.parentId with
    | none => simp only [createSiblingBelow, hx, hpp]; exact hinv
    | some pid =>
      have hid : sib.id = sid := by simpa using List.find?_some hx
      subst hid
      obtain ⟨_, _, st2, heq, _, hinv2, _, _⟩ :=
        createSiblingBelow_char st sib pid c _ _ rfl rfl hinv
          (List.mem_of_find?_eq_some hx) hpp
      rw [heq]
      exact hinv2

theorem createSiblingAbove_inv (st : Store) (sid : Nat) (c : String)
    (hinv : StoreInv st) : StoreInv (createSiblingAbove st sid c).1 := by
  cases hx : findById st sid with
  | none => simp only [createSiblingAbove, hx]; exact hinv
  | some sib =>
    cases hpp : sib.parentId with
    | none => simp only [createSiblingAbove, hx, hpp]; exact hinv
    | some pid =>
      have hid : sib.id = sid := by simpa using List.find?_some hx
      subst hid
      obtain ⟨_, _, st2, heq, _, hinv2, _, _⟩ :=
        createSiblingAbove_char st sib pid c _ _ rfl rfl hinv
          (List.mem_of_find?_eq_some hx) hpp
      rw [heq]
      exact hinv2

/-- The raw computation of `createNode`: a fresh id is always appended. -/
theorem createNode_eq (st : Store) (content : String) (parentId : Option Nat)
    (hfresh : ∀ n ∈ st.nodes, n.id < st.nextId) :
    createNode st content parentId =
      ((⟨st.nodes ++ [(⟨st.nextId, content, parentId,
            maxOrder (findByParentId st parentId) + 1⟩ : MindMapNode)],
        st.nextId + 1⟩ : Store),
       (⟨st.nextId, content, parentId,
            maxOrder (findByParentId st parentId) + 1⟩ : MindMapNode)) := by
  have hany : (st.nodes.any (fun n => n.id == st.nextId)) = false := by
    rw [List.any_eq_false]
    intro x hx
    simp [Nat.ne_of_lt (hfresh x hx)]
  simp only [createNode]
  unfold save
  simp only []
  rw [show (({ st with nextId := st.nextId + 1 } : Store).nodes.any
      (fun n => n.id == (⟨st.nextId, content, parentId,
        maxOrder (findByParentId st parentId) + 1⟩ : MindMapNode).id)) = false from hany]
  simp

/-- `createNode` preserves the store invariant when the requested parent is
null or a previously issued id. -/
theorem createNode_inv (st : Store) (content : String) (parentId : Option Nat)
    (hinv : StoreInv st)
    (hpar : parentId = none ∨ ∃ p, parentId = some p ∧ p < st.nextId) :
    StoreInv (createNode st content parentId).1 := by
  obtain ⟨⟨hnodup, hfresh⟩, hpb, hso⟩ := hinv
  rw [createNode_eq st content parentId hfresh]
  have hA : (((st.nodes ++ [(⟨st.nextId, content, parentId,
      maxOrder (findByParentId st parentId) + 1⟩ : MindMapNode)]).map
        (fun n => n.id)).Nodup) := by
    rw [List.map_append, List.nodup_append]
    refine ⟨hnodup, List.nodup_singleton _, ?_⟩
    intro a ha hb
    rcases List.mem_map.mp ha with ⟨x, hx, rfl⟩
    have hlt := hfresh x hx
    have : x.id = st.nextId := by simpa using hb
    omega
  have hB : ∀ n ∈ st.nodes ++ [(⟨st.nextId, content, parentId,
      maxOrder (findByParentId st parentId) + 1⟩ : MindMapNode)],
      n.id < st.nextId + 1 := by
    intro n hn
    rcases List.mem_append.mp hn with h | h
    · have := hfresh n h
      omega
    · rw [List.mem_singleton] at h
      subst h
      show st.nextId < st.nextId + 1
      omega
  have hC : ∀ n ∈ st.nodes ++ [(⟨st.nextId, content, parentId,
      maxOrder (findByParentId st parentId) + 1⟩ : MindMapNode)],
      ∀ p, n.parentId = some p → p < st.nextId + 1 := by
    intro n hn p hp
    rcases List.mem_append.mp hn with h | h
    · have := hpb n h p hp
      omega
    · rw [List.mem_singleton] at h
      subst h
      rcases hpar with hno | ⟨p2, hp2, hlt⟩
      · exact absurd ((hno ▸ hp) : (none : Option Nat) = some p) (by simp)
      · have : p = p2 := Option.some_inj.mp ((hp2 ▸ hp) : some p2 = some p) |>.symm
        omega
  have hD : ∀ q : Option Nat, (((st.nodes ++ [(⟨st.nextId, content, parentId,
      maxOrder (findByParentId st parentId) + 1⟩ : MindMapNode)]).filter
        (fun n => n.parentId == q)).Pairwise (fun a b => a.order ≠ b.order)) := by
    intro q
    rw [List.filter_append]
    by_cases hq : parentId = q
    · subst hq
      rw [show ([(⟨st.nextId, content, parentId,
          maxOrder (findByParentId st parentId) + 1⟩ : MindMapNode)].filter
            (fun n => n.parentId == parentId))
          = [(⟨st.nextId, content, parentId,
              maxOrder (findByParentId st parentId) + 1⟩ : MindMapNode)] from by simp]
      rw [List.pairwise_append]
      refine ⟨hso parentId, List.pairwise_singleton _ _, ?_⟩
      intro a ha b hb
      rw [List.mem_singleton] at hb
      subst hb
      have hamem : a ∈ findByParentId st parentId := by
        refine mem_findByParentId.mpr ⟨(List.mem_filter.mp ha).1, ?_⟩
        simpa using (List.mem_filter.mp ha).2
      have := le_maxOrder hamem
      show a.order ≠ maxOrder (findByParentId st parentId) + 1
      omega
    · rw [show ([(⟨st.nextId, content, parentId,
          maxOrder (findByParentId st parentId) + 1⟩ : MindMapNode)].filter
            (fun n => n.parentId == q)) = [] from by simp [hq]]
      rw [List.append_nil]
      exact hso q
  exact ⟨⟨hA, hB⟩, hC, hD⟩

/-- The raw computation of `updateContent` on a found node: an in-place map
replacing only the content. -/
theorem updateContent_eq (st : Store) (node : MindMapNode) (content : String)
    (hf : findById st node.id = some node) :
    updateContent st node.id content =
      ((⟨st.nodes.map (fun n => if n.id == node.id then
            ({ node with content := content } : MindMapNode) else n), st.nextId⟩ : Store),
       some ({ node with content := content } : MindMapNode)) := by
  simp only [updateContent, hf]
  unfold save
  rw [show (st.nodes.any (fun n => n.id ==
      ({ node with content := content } : MindMapNode).id)) = true from by
    simp only [List.any_eq_true]
    exact ⟨node, List.mem_of_find?_eq_some hf, by simp⟩]
  simp

/-- `updateContent` preserves the store invariant: ids, parents and orders
are untouched pointwise. -/
theorem updateContent_inv (st : Store) (nodeId : Nat) (content : String)
    (hinv : StoreInv st) : StoreInv (updateContent st nodeId content).1 := by
  cases hx : findById st nodeId with
  | none => simp only [updateContent, hx]; exact hinv
  | some node =>
    have hid : node.id = nodeId := by simpa using List.find?_some hx
    subst hid
    obtain ⟨⟨hnodup, hfresh⟩, hpb, hso⟩ := hinv
    rw [updateContent_eq st node content hx]
    have hnmem : node ∈ st.nodes := List.mem_of_find?_eq_some hx
    have hpt : ∀ n ∈ st.nodes,
        (if n.id == node.id then ({ node with content := content } : MindMapNode) else n).id
          = n.id
        ∧ (if n.id == node.id then
            ({ node with content := content } : MindMapNode) else n).parentId = n.parentId
        ∧ (if n.id == node.id then
            ({ node with content := content } : MindMapNode) else n).order = n.order := by
      intro n hn
      by_cases h : n.id = node.id
      · have : n = node := List.inj_on_of_nodup_map hnodup hn hnmem h
        subst this
        simp
      · simp [h]
    have hA : ((st.nodes.map (fun n => if n.id == node.id then
        ({ node with content := content } : MindMapNode) else n)).map
          (fun n => n.id)).Nodup := by
      rw [List.map_map,
        show st.nodes.map ((fun n => n.id) ∘ (fun n => if n.id == node.id then
          ({ node with content := content } : MindMapNode) else n))
            = st.nodes.map (fun n => n.id)
          from List.map_congr_left (fun x hx2 => (hpt x hx2).1)]
      exact hnodup
    have hB : ∀ n ∈ st.nodes.map (fun n => if n.id == node.id then
        ({ node with content := content } : MindMapNode) else n), n.id < st.nextId := by
      intro n hn
      rcases List.mem_map.mp hn with ⟨x, hx2, rfl⟩
      rw [(hpt x hx2).1]
      exact hfresh x hx2
    have hC : ∀ n ∈ st.nodes.map (fun n => if n.id == node.id then
        ({ node with content := content } : MindMapNode) else n),
        ∀ p, n.parentId = some p → p < st.nextId := by
      intro n hn p hp
      rcases List.mem_map.mp hn with ⟨x, hx2, rfl⟩
      rw [(hpt x hx2).2.1] at hp
      exact hpb x hx2 p hp
    have hD : ∀ q : Option Nat, (((st.nodes.map (fun n => if n.id == node.id then
        ({ node with content := content } : MindMapNode) else n)).filter
          (fun n => n.parentId == q)).Pairwise (fun a b => a.order ≠ b.order)) := by
      intro q
      rw [filter_map_of_parent_preserved st.nodes _ q (fun n hn => (hpt n hn).2.1),
        List.pairwise_map]
      refine List.Pairwise.imp_of_mem ?_ (hso q)
      intro a b ha hb hab
      rw [(hpt a (List.mem_filter.mp ha).1).2.2, (hpt b (List.mem_filter.mp hb).1).2.2]
      exact hab
    exact ⟨⟨hA, hB⟩, hC, hD⟩

/-- Lists with at most one element are vacuously pairwise. -/
theorem pairwise_of_length_le_one {α : Type} {R : α → α → Prop} {l : List α}
    (h : l.length ≤ 1) : l.Pairwise R := by
  match l with
  | [] => exact List.Pairwise.nil
  | [a] => exact List.pairwise_singleton R a
  | a :: b :: t => simp at h

/-- A duplicate-free list of one repeated value has at most one element. -/
theorem length_le_one_of_nodup_const {l : List Nat} (hnodup : l.Nodup) (k : Nat)
    (hall : ∀ x ∈ l, x = k) : l.length ≤ 1 := by
  match l with
  | [] => simp
  | [a] => simp
  | a :: b :: t =>
    exfalso
    have ha := hall a (by simp)
    have hb := hall b (by simp)
    rw [List.nodup_cons] at hnodup
    exact hnodup.1 (by rw [ha, ← hb]; exact List.mem_cons_self b t)

/-- With duplicate-free ids, filtering on one id keeps at most one node. -/
theorem filter_id_short (l : List MindMapNode)
    (hnodup : (l.map (fun n => n.id)).Nodup) (k : Nat) :
    (l.filter (fun n => n.id == k)).length ≤ 1 := by
  have h1 : ((l.filter (fun n => n.id == k)).map (fun n => n.id)).Nodup :=
    hnodup.sublist ((List.filter_sublist l).map _)
  have h2 : ∀ x ∈ (l.filter (fun n => n.id == k)).map (fun n => n.id), x = k := by
    intro x hx
    rcases List.mem_map.mp hx with ⟨y, hy, rfl⟩
    simpa using (List.mem_filter.mp hy).2
  have h3 := length_le_one_of_nodup_const h1 k h2
  simpa using h3

/-- The raw computation of `insertBetweenParentAndChild` on a found
non-root child: every stored entry with the child's id is re-pointed at the
fresh node, which is appended carrying the child's old place. -/
theorem insertBetween_eq (st : Store) (child : MindMapNode) (pid : Nat) (content : String)
    (hf : findById st child.id = some child) (hp : child.parentId = some pid)
    (hfresh : ∀ n ∈ st.nodes, n.id < st.nextId) :
    insertBetweenParentAndChild st child.id content =
      ((⟨(st.nodes ++ [(⟨st.nextId, content, some pid, child.order⟩ : MindMapNode)]).map
          (fun n => if n.id == child.id then
            ({ child with parentId := some st.nextId, order := 0 } : MindMapNode) else n),
        st.nextId + 1⟩ : Store),
       some (⟨st.nextId, content, some pid, child.order⟩ : MindMapNode)) := by
  have hcmem : child ∈ st.nodes := List.mem_of_find?_eq_some hf
  have hfreshb : (st.nodes.any (fun n => n.id == st.nextId)) = false := by
    simp only [List.any_eq_false]
    intro n hn
    simp [Nat.ne_of_lt (hfresh n hn)]
  have hmemb : ((st.nodes ++
      [(⟨st.nextId, content, some pid, child.order⟩ : MindMapNode)]).any
        (fun n => n.id ==
          ({ child with parentId := some st.nextId, order := 0 } :
            MindMapNode).id)) = true := by
    simp only [List.any_append, Bool.or_eq_true, List.any_eq_true]
    exact Or.inl ⟨child, hcmem, by simp⟩
  simp only [insertBetweenParentAndChild, hf, hp]
  unfold save
  rw [hfreshb]
  simp only [Bool.false_eq_true, if_false]
  rw [hmemb]
  simp only [if_true]

/-- `insertBetweenParentAndChild` preserves the store invariant. -/
theorem insertBetweenParentAndChild_inv (st : Store) (childId : Nat) (content : String)
    (hinv : StoreInv st) :
    StoreInv (insertBetweenParentAndChild st childId content).1 := by
  cases hx : findById st childId with
  | none => simp only [insertBetweenParentAndChild, hx]; exact hinv
  | some child =>
    cases hpp : child.parentId with
    | none => simp only [insertBetweenParentAndChild, hx, hpp]; exact hinv
    | some pid =>
      have hid : child.id = childId := by simpa using List.find?_some hx
      subst hid
      obtain ⟨⟨hnodup, hfresh⟩, hpb, hso⟩ := hinv
      have hcmem : child ∈ st.nodes := List.mem_of_find?_eq_some hx
      have hchildlt : child.id < st.nextId := hfresh child hcmem
      have hpidlt : pid < st.nextId := hpb child hcmem pid hpp
      rw [insertBetween_eq st child pid content hx hpp hfresh]
      have hnodes : (st.nodes ++
          [(⟨st.nextId, content, some pid, child.order⟩ : MindMapNode)]).map
          (fun n => if n.id == child.id then
            ({ child with parentId := some st.nextId, order := 0 } : MindMapNode) else n)
          = st.nodes.map (fun n => if n.id == child.id then
              ({ child with parentId := some st.nextId, order := 0 } : MindMapNode) else n)
            ++ [(⟨st.nextId, content, some pid, child.order⟩ : MindMapNode)] := by
        rw [List.map_append]
        congr 1
        simp [(Nat.ne_of_lt hchildlt).symm]
      rw [hnodes]
      have hupid : ∀ n : MindMapNode, ((if n.id == child.id then
          ({ child with parentId := some st.nextId, order := 0 } : MindMapNode)
          else n)).id = n.id := by
        intro n
        by_cases h : n.id = child.id
        · simp [h]
        · simp [h]
      have hupar : ∀ n : MindMapNode, ((if n.id == child.id then
          ({ child with parentId := some st.nextId, order := 0 } : MindMapNode)
          else n)).parentId
          = (if n.id == child.id then some st.nextId else n.parentId) := by
        intro n
        by_cases h : n.id = child.id
        · simp [h]
        · simp [h]
      have hA : (((st.nodes.map (fun n => if n.id == child.id then
          ({ child with parentId := some st.nextId, order := 0 } : MindMapNode) else n))
          ++ [(⟨st.nextId, content, some pid, child.order⟩ : MindMapNode)]).map
            (fun n => n.id)).Nodup := by
        rw [List.map_append, List.map_map,
          show st.nodes.map ((fun n => n.id) ∘ (fun n => if n.id == child.id then
            ({ child with parentId := some st.nextId, order := 0 } : MindMapNode) else n))
              = st.nodes.map (fun n => n.id)
            from List.map_congr_left (fun x _ => hupid x),
          List.nodup_append]
        refine ⟨hnodup, List.nodup_singleton _, ?_⟩
        intro a ha hb
        rcases List.mem_map.mp ha with ⟨x, hx2, rfl⟩
        have hlt := hfresh x hx2
        have : x.id = st.nextId := by simpa using hb
        omega
      have hB : ∀ n ∈ (st.nodes.map (fun n => if n.id == child.id then
          ({ child with parentId := some st.nextId, order := 0 } : MindMapNode) else n))
          ++ [(⟨st.nextId, content, some pid, child.order⟩ : MindMapNode)],
          n.id < st.nextId + 1 := by
        intro n hn
        rcases List.mem_append.mp hn with h | h
        · rcases List.mem_map.mp h with ⟨x, hx2, rfl⟩
          rw [hupid x]
          have := hfresh x hx2
          omega
        · rw [List.mem_singleton] at h
          subst h
          show st.nextId < st.nextId + 1
          omega
      have hC : ∀ n ∈ (st.nodes.map (fun n => if n.id == child.id then
          ({ child with parentId := some st.nextId, order := 0 } : MindMapNode) else n))
          ++ [(⟨st.nextId, content, some pid, child.order⟩ : MindMapNode)],
          ∀ p, n.parentId = some p → p < st.nextId + 1 := by
        intro n hn p hp2
        rcases List.mem_append.mp hn with h | h
        · rcases List.mem_map.mp h with ⟨x, hx2, rfl⟩
          rw [hupar x] at hp2
          by_cases hxc : x.id = child.id
          · simp [hxc] at hp2
            have : st.nextId = p := hp2
            omega
          · simp [hxc] at hp2
            have := hpb x hx2 p hp2
            omega
        · rw [List.mem_singleton] at h
          subst h
          have : pid = p := Option.some_inj.mp (hp2 : some pid = some p)
          omega
      have hD : ∀ q : Option Nat, ((((st.nodes.map (fun n => if n.id == child.id then
          ({ child with parentId := some st.nextId, order := 0 } : MindMapNode) else n))
          ++ [(⟨st.nextId, content, some pid, child.order⟩ : MindMapNode)]).filter
            (fun n => n.parentId == q)).Pairwise (fun a b => a.order ≠ b.order)) := by
        intro q
        rw [List.filter_append, List.filter_map]
        by_cases hqN : q = some st.nextId
        · subst hqN
          have hsingle : ([(⟨st.nextId, content, some pid, child.order⟩ : MindMapNode)].filter
              (fun n => n.parentId == some st.nextId)) = [] := by
            simp [Nat.ne_of_lt hpidlt]
          have hfc : st.nodes.filter ((fun n => n.parentId == some st.nextId) ∘
              (fun n => if n.id == child.id then
                ({ child with parentId := some st.nextId, order := 0 } : MindMapNode)
                else n))
              = st.nodes.filter (fun n => n.id == child.id) := by
            refine List.filter_congr ?_
            intro x hx2
            show (((if x.id == child.id then
              ({ child with parentId := some st.nextId, order := 0 } : MindMapNode)
              else x)).parentId == some st.nextId) = (x.id == child.id)
            rw [hupar x]
            by_cases hxc : x.id = child.id
            · simp [hxc]
            · have hne : x.parentId ≠ some st.nextId := by
                intro hcon
                have := hpb x hx2 st.nextId hcon
                omega
              simp [hxc, hne]
          rw [hsingle, List.append_nil, hfc]
          have hlen : ((st.nodes.filter (fun n => n.id == child.id)).map
              (fun n => if n.id == child.id then
                ({ child with parentId := some st.nextId, order := 0 } : MindMapNode)
                else n)).length ≤ 1 := by
            rw [List.length_map]
            exact filter_id_short st.nodes hnodup child.id
          exact pairwise_of_length_le_one hlen
        · have hfc : st.nodes.filter ((fun n => n.parentId == q) ∘
              (fun n => if n.id == child.id then
                ({ child with parentId := some st.nextId, order := 0 } : MindMapNode)
                else n))
              = st.nodes.filter (fun n => (!(n.id == child.id)) && (n.parentId == q)) := by
            refine List.filter_congr ?_
            intro x hx2
            show (((if x.id == child.id then
              ({ child with parentId := some st.nextId, order := 0 } : MindMapNode)
              else x)).parentId == q) = ((!(x.id == child.id)) && (x.parentId == q))
            rw [hupar x]
            by_cases hxc : x.id = child.id
            · have hne : some st.nextId ≠ q := fun h => hqN h.symm
              simp [hxc, hne]
            · simp [hxc]
          rw [hfc, ← List.filter_filter]
          have hmapid2 : ((st.nodes.filter (fun n => n.parentId == q)).filter
              (fun n => !(n.id == child.id))).map
              (fun n => if n.id == child.id then
                ({ child with parentId := some st.nextId, order := 0 } : MindMapNode)
                else n)
              = (st.nodes.filter (fun n => n.parentId == q)).filter
                  (fun n => !(n.id == child.id)) := by
            have h1 : ((st.nodes.filter (fun n => n.parentId == q)).filter
                (fun n => !(n.id == child.id))).map
                (fun n => if n.id == child.id then
                  ({ child with parentId := some st.nextId, order := 0 } : MindMapNode)
                  else n)
                = ((st.nodes.filter (fun n => n.parentId == q)).filter
                    (fun n => !(n.id == child.id))).map (fun n => n) := by
              refine List.map_congr_left ?_
              intro x hx2
              have hxc : ¬(x.id = child.id) := by
                simpa using (List.mem_filter.mp hx2).2
              simp [hxc]
            rw [h1]
            simp
          rw [hmapid2]
          have hblock : ((st.nodes.filter (fun n => n.parentId == q)).filter
              (fun n => !(n.id == child.id))).Pairwise
                (fun a b => a.order ≠ b.order) :=
            List.Pairwise.sublist (List.filter_sublist _) (hso q)
          by_cases hq2 : (some pid : Option Nat) = q
          · have hsingle : ([(⟨st.nextId, content, some pid, child.order⟩ : MindMapNode)].filter
                (fun n => n.parentId == q)) =
                [(⟨st.nextId, content, some pid, child.order⟩ : MindMapNode)] := by
              simp [hq2]
            rw [hsingle, List.pairwise_append]
            refine ⟨hblock, List.pairwise_singleton _ _, ?_⟩
            intro a ha b hb
            rw [List.mem_singleton] at hb
            subst hb
            have ha2 := List.mem_filter.mp ha
            have haid : ¬(a.id = child.id) := by simpa using ha2.2
            have hane : a ≠ child := fun hcon => haid (by rw [hcon])
            have hchildf : child ∈ st.nodes.filter (fun n => n.parentId == q) := by
              rw [List.mem_filter]
              refine ⟨hcmem, ?_⟩
              rw [hpp]
              simp [hq2]
            have hres := orders_ne_of_pairwise (hso q) ha2.1 hchildf hane
            show a.order ≠ child.order
            exact hres
          · have hsingle : ([(⟨st.nextId, content, some pid, child.order⟩ : MindMapNode)].filter
                (fun n => n.parentId == q)) = [] := by
              simp [hq2]
            rw [hsingle, List.append_nil]
            exact hblock
      exact ⟨⟨hA, hB⟩, hC, hD⟩

/-! ## Claim C9 -/

/-- One mutation-service call, as a relation between stores. The
`createNode` case carries the caller contract that a non-null parent refers
to a previously issued id - the counter model of `crypto.randomUUID`, under
which a fresh id never collides with an id the caller could mention. -/
inductive ServiceStep : Store → Store → Prop
  | create (st : Store) (content : String) (parentId : Option Nat)
      (hpar : parentId = none ∨ ∃ p, parentId = some p ∧ p < st.nextId) :
      ServiceStep st (createNode st content parentId).1
  | siblingAbove (st : Store) (sid : Nat) (content : String) :
      ServiceStep st (createSiblingAbove st sid content).1
  | siblingBelow (st : Store) (sid : Nat) (content : String) :
      ServiceStep st (createSiblingBelow st sid content).1
  | insertBetween (st : Store) (childId : Nat) (content : String) :
      ServiceStep st (insertBetweenParentAndChild st childId content).1
  | updateStep (st : Store) (nodeId : Nat) (content : String) :
      ServiceStep st (updateContent st nodeId content).1
  | deleteStep (st : Store) (nodeId : Nat) :
      ServiceStep st (deleteNode st nodeId).1
  | deleteWith (st : Store) (nodeId : Nat) :
      ServiceStep st (deleteNodeWithChildren st nodeId)
  | deleteKids (st : Store) (nodeId : Nat) :
      ServiceStep st (deleteChildren st nodeId)

/-- Every single service call preserves the store invariant. -/
theorem serviceStep_inv {st st2 : Store} (h : ServiceStep st st2)
    (hinv : StoreInv st) : StoreInv st2 := by
  cases h with
  | create content parentId hpar => exact createNode_inv st content parentId hinv hpar
  | siblingAbove sid content => exact createSiblingAbove_inv st sid content hinv
  | siblingBelow sid content => exact createSiblingBelow_inv st sid content hinv
  | insertBetween childId content =>
    exact insertBetweenParentAndChild_inv st childId content hinv
  | updateStep nodeId content => exact updateContent_inv st nodeId content hinv
  | deleteStep nodeId => exact deleteNode_inv st nodeId hinv
  | deleteWith nodeId => exact deleteNodeWithChildren_inv st nodeId hinv
  | deleteKids nodeId => exact deleteChildren_inv st nodeId hinv

/-- C9: in every store reachable from a valid initial store by
mutation-service operations, order values are pairwise distinct within
every sibling group, so the children query returns each group sorted
strictly ascending by order, and calling it again without an intervening
mutation returns the same sequence. -/
theorem claim_C9 (st0 st : Store) (hinv0 : StoreInv st0)
    (hreach : Relation.ReflTransGen ServiceStep st0 st) :
    (∀ pid : Option Nat,
      (st.nodes.filter (fun n => n.parentId == pid)).Pairwise
        (fun a b => a.order ≠ b.order))
    ∧ (∀ pid : Option Nat, (findByParentId st pid).Pairwise nodeLT)
    ∧ (∀ pid : Option Nat, findByParentId st pid = findByParentId st pid) := by
  have hinv : StoreInv st := by
    induction hreach with
    | refl => exact hinv0
    | tail hab hbc ih => exact serviceStep_inv hbc ih
  exact ⟨hinv.2.2, fun pid => findByParentId_sorted_lt st hinv.2.2 pid, fun _ => rfl⟩

/-- C9, witness: the example store is a valid initial store, and after one
reachable mutation (a sibling insertion below node 1) every sibling group
still has pairwise distinct orders. -/
theorem claim_C9_witness :
    StoreInv exStore ∧
    (∀ pid : Option Nat,
      ((createSiblingBelow exStore 1 "z").1.nodes.filter
        (fun n => n.parentId == pid)).Pairwise (fun a b => a.order ≠ b.order)) := by
  have hinv : StoreInv exStore :=
    storeInv_of_checks (by decide) (by decide) (by decide) (by decide)
  exact ⟨hinv, (claim_C9 exStore _ hinv
    (Relation.ReflTransGen.single (ServiceStep.siblingBelow exStore 1 "z"))).1⟩

/-! ## Hierarchical layout (src/layout/hierarchicalLayout.ts) -/

/-- `calculateNodeDimensions`: text box sizing. Lines come from splitting
the content on newlines; the width clamps `longest line * CHAR_WIDTH +
NODE_PADDING_X` to [MIN_NODE_WIDTH, MAX_NODE_WIDTH]; each line wraps into
`ceil(length / floor((width - padding) / CHAR_WIDTH))` rows (at least one);
the height is `rows * LINE_HEIGHT + NODE_PADDING_Y`, at least 40. -/
def calculateNodeDimensions (content : String) : Int × Int :=
  let lines := content.splitOn "\n"
  let maxLineLength := (lines.map (fun l => (l.length : Int))).foldl max 1
  let textWidth := maxLineLength * 8
  let width := min 250 (max 80 (textWidth + 24))
  let charsPerLine := (width - 24) / 8
  let wrappedLineCount := lines.foldl (fun count line =>
    count + max 1 (((line.length : Int) + charsPerLine - 1) / charsPerLine)) 0
  let height := max 40 (wrappedLineCount * 20 + 16)
  (width, height)

/-- The in-memory tree `buildTree` produces (`TreeNode` in
hierarchicalLayout.ts). -/
inductive TreeNode where
  | mk (id : Nat) (content : String) (children : List TreeNode)
      (width : Int) (height : Int)
deriving Repr

def TreeNode.id : TreeNode → Nat
  | .mk i _ _ _ _ => i

def TreeNode.content : TreeNode → String
  | .mk _ c _ _ _ => c

def TreeNode.children : TreeNode → List TreeNode
  | .mk _ _ cs _ _ => cs

def TreeNode.width : TreeNode → Int
  | .mk _ _ _ w _ => w

def TreeNode.height : TreeNode → Int
  | .mk _ _ _ _ h => h

/-- The `childrenMap` groups sorted by `order` (same stable sort as the
repository query). -/
def childrenOf (nodes : List MindMapNode) (i : Nat) : List MindMapNode :=
  sortByOrder (nodes.filter (fun n => n.parentId == some i))

/-- `buildNode`, with fuel standing in for the unbounded recursion (the
parent-pointer graph reachable from a node of a duplicate-free store is
acyclic, so fuel one past the node count is never exhausted). -/
def buildNodeFuel : Nat → List MindMapNode → Nat → Option TreeNode
  | 0, _, _ => none
  | fuel + 1, nodes, nodeId =>
    match nodes.find? (fun n => n.id == nodeId) with
    | none => none
    | some node =>
      let dims := calculateNodeDimensions node.content
      some (.mk node.id node.content
        (((childrenOf nodes nodeId).map
          (fun c => buildNodeFuel fuel nodes c.id)).filterMap id)
        dims.1 dims.2)

/-- `buildTree(nodes, null)`: start from the first parentless node. -/
def buildTree (nodes : List MindMapNode) : Option TreeNode :=
  match nodes.find? (fun n => n.parentId == none) with
  | none => none
  | some rootNode => buildNodeFuel (nodes.length + 1) nodes rootNode.id

mutual

/-- `calculateSubtreeHeight`. -/
def subtreeHeight : TreeNode → Int
  | .mk _ _ children _ h =>
    match children with
    | [] => h
    | c :: cs => max h ((heightsOf (c :: cs)).foldl (fun sum hh => sum + hh + 20) (-20))

/-- The children's subtree heights, in order. -/
def heightsOf : List TreeNode → List Int
  | [] => []
  | t :: ts => subtreeHeight t :: heightsOf ts

end

/-- One entry of the `nodeLayouts` map. Positions are exact rationals
(JavaScript arithmetic here only halves integers, which doubles represent
exactly). -/
structure NodeLayout where
  nodeId : Nat
  x : ℚ
  y : ℚ
  width : Int
  height : Int
deriving Repr, DecidableEq

/-- One entry of the `edges` array, with its two anchor points. -/
structure EdgeLayout where
  fromId : Nat
  toId : Nat
  p1x : ℚ
  p1y : ℚ
  p2x : ℚ
  p2y : ℚ
deriving Repr, DecidableEq

mutual

/-- `layoutNode`: place the node at (x, y), then stack the children's
subtree bands to the right, centred on the node. Returns the layouts in
insertion order and the edges in push order. -/
def layoutNode : TreeNode → ℚ → ℚ → (List NodeLayout × List EdgeLayout)
  | .mk i _ children w h, x, y =>
    match children with
    | [] => ([(⟨i, x, y, w, h⟩ : NodeLayout)], [])
    | c :: cs =>
      let hs := heightsOf (c :: cs)
      let total : Int := hs.foldl (fun sum hh => sum + hh + 20) (-20)
      let childY0 := y + (h : ℚ) / 2 - (total : ℚ) / 2
      let childX := x + (w : ℚ) + 60
      let rest := layoutChildren i x y w h childX (c :: cs) childY0
      ((⟨i, x, y, w, h⟩ : NodeLayout) :: rest.1, rest.2)

/-- The child loop of `layoutNode`: for each child, push its edge, lay the
child subtree out, and advance the running `childY` by the child's subtree
height plus the vertical gap. -/
def layoutChildren : Nat → ℚ → ℚ → Int → Int → ℚ → List TreeNode → ℚ →
    (List NodeLayout × List EdgeLayout)
  | _, _, _, _, _, _, [], _ => ([], [])
  | pid, px, py, pw, ph, childX, t :: ts, childY =>
    let ch := subtreeHeight t
    let childNodeY := childY + (ch : ℚ) / 2 - (t.height : ℚ) / 2
    let e : EdgeLayout := ⟨pid, t.id, px + (pw : ℚ), py + (ph : ℚ) / 2,
      childX, childNodeY + (t.height : ℚ) / 2⟩
    let sub := layoutNode t childX childNodeY
    let rest := layoutChildren pid px py pw ph childX ts (childY + (ch : ℚ) + 20)
    (sub.1 ++ rest.1, e :: (sub.2 ++ rest.2))

end

/-- `LayoutResult`. -/
structure LayoutResult where
  nodes : List NodeLayout
  edges : List EdgeLayout
  minX : ℚ
  minY : ℚ
  width : ℚ
  height : ℚ
deriving Repr, DecidableEq

/-- Minimum of a list with a default for the (unreachable) empty case,
standing in for the `Infinity` fold seed. -/
def minimumD (l : List ℚ) (d : ℚ) : ℚ :=
  match l with
  | [] => d
  | a :: t => t.foldl min a

/-- `calculateLayout`. -/
def calculateLayout (nodes : List MindMapNode) : LayoutResult :=
  if nodes.length = 0 then ⟨[], [], 0, 0, 0, 0⟩
  else
    match buildTree nodes with
    | none => ⟨[], [], 0, 0, 0, 0⟩
    | some tree =>
      let res := layoutNode tree 50 50
      let minX := minimumD (res.1.map (fun L => L.x)) 0
      let minY := minimumD (res.1.map (fun L => L.y)) 0
      let maxX := (res.1.map (fun L => L.x + (L.width : ℚ))).foldl max 0
      let maxY := (res.1.map (fun L => L.y + (L.height : ℚ))).foldl max 0
      ⟨res.1, res.2, minX - 50, minY - 50, maxX - minX + 100, maxY - minY + 100⟩

mutual

/-- The ids of a built tree in preorder - exactly the insertion order of
the `nodeLayouts` map. -/
def treeIds : TreeNode → List Nat
  | .mk i _ children _ _ => i :: flatTreeIds children

def flatTreeIds : List TreeNode → List Nat
  | [] => []
  | t :: ts => treeIds t ++ flatTreeIds ts

end

/-- Decidable check that a node's parent chain reaches a parentless node
within the given number of steps. -/
def chainToRoot : Nat → List MindMapNode → MindMapNode → Bool
  | 0, _, _ => false
  | fuel + 1, nodes, n =>
    match n.parentId with
    | none => true
    | some p =>
      match nodes.find? (fun m => m.id == p) with
      | none => false
      | some m => chainToRoot fuel nodes m

/-- The input shape the layout claim quantifies over: duplicate-free ids,
exactly one parentless node, and every node's parent chain reaching a
parentless node (within the only possible bound for an acyclic chain). -/
def isRootedTree (nodes : List MindMapNode) : Prop :=
  (nodes.map (fun n => n.id)).Nodup
  ∧ (nodes.filter (fun n => n.parentId == none)).length = 1
  ∧ ∀ n ∈ nodes, chainToRoot (nodes.length + 1) nodes n = true

instance (nodes : List MindMapNode) : Decidable (isRootedTree nodes) := by
  unfold isRootedTree
  infer_instance

/-- The parent chain, as a relation: `ReachesUpN nodes m a k` means the
`k`-th iterated parent lookup from `m` is the node `a`. -/
inductive ReachesUpN (nodes : List MindMapNode) : MindMapNode → MindMapNode → Nat → Prop
  | refl (m : MindMapNode) : ReachesUpN nodes m m 0
  | step (m mp a : MindMapNode) (p : Nat) (k : Nat)
      (hp : m.parentId = some p)
      (hf : nodes.find? (fun n => n.id == p) = some mp)
      (h : ReachesUpN nodes mp a k) : ReachesUpN nodes m a (k + 1)

/-- Distance to the root along the parent chain. -/
inductive HasDepth (nodes : List MindMapNode) : MindMapNode → Nat → Prop
  | root (m : MindMapNode) (h : m.parentId = none) : HasDepth nodes m 0
  | step (m mp : MindMapNode) (p : Nat) (d : Nat)
      (hp : m.parentId = some p)
      (hf : nodes.find? (fun n => n.id == p) = some mp)
      (h : HasDepth nodes mp d) : HasDepth nodes m (d + 1)

/-- Parent chains are deterministic, so depth is unique. -/
theorem hasDepth_unique {nodes : List MindMapNode} {m : MindMapNode} {d1 d2 : Nat}
    (h1 : HasDepth nodes m d1) (h2 : HasDepth nodes m d2) : d1 = d2 := by
  induction h1 generalizing d2 with
  | root m hm =>
    cases h2 with
    | root _ _ => rfl
    | step _ mp p d hp hf h => rw [hm] at hp; cases hp
  | step m mp p d hp hf h ih =>
    cases h2 with
    | root _ hm => rw [hm] at hp; cases hp
    | step _ mp2 p2 d2 hp2 hf2 h2b =>
      rw [hp] at hp2
      obtain rfl : p = p2 := Option.some_inj.mp hp2
      rw [hf] at hf2
      obtain rfl : mp = mp2 := Option.some_inj.mp hf2
      rw [ih h2b]

/-- A passing `chainToRoot` check yields a depth. -/
theorem hasDepth_of_chainToRoot {nodes : List MindMapNode} :
    ∀ (fuel : Nat) (m : MindMapNode), chainToRoot fuel nodes m = true →
      ∃ d, HasDepth nodes m d := by
  intro fuel
  induction fuel with
  | zero => intro m h; simp [chainToRoot] at h
  | succ fuel ih =>
    intro m h
    cases hp : m.parentId with
    | none => exact ⟨0, .root m hp⟩
    | some p =>
      cases hf : nodes.find? (fun n => n.id == p) with
      | none =>
        exfalso
        simp only [chainToRoot, hp, hf] at h
        exact Bool.noConfusion h
      | some mp =>
        simp only [chainToRoot, hp, hf] at h
        obtain ⟨d, hd⟩ := ih mp h
        exact ⟨d + 1, .step m mp p d hp hf hd⟩

/-- Walking `k` steps up from a node of depth `d` lands at depth `d - k`. -/
theorem reachesUpN_depth {nodes : List MindMapNode} {m a : MindMapNode} {k d : Nat}
    (hr : ReachesUpN nodes m a k) (hd : HasDepth nodes m d) :
    k ≤ d ∧ HasDepth nodes a (d - k) := by
  induction hr generalizing d with
  | refl m => simpa using hd
  | step m mp a p k hp hf h ih =>
    cases hd with
    | root _ hm => rw [hm] at hp; cases hp
    | step _ mp2 p2 d2 hp2 hf2 hd2 =>
      rw [hp] at hp2
      obtain rfl : p = p2 := Option.some_inj.mp hp2
      rw [hf] at hf2
      obtain rfl : mp = mp2 := Option.some_inj.mp hf2
      obtain ⟨hk, hdeep⟩ := ih hd2
      refine ⟨by omega, ?_⟩
      have he : d2 + 1 - (k + 1) = d2 - k := by omega
      rw [he]
      exact hdeep

/-- No node is its own strict ancestor. -/
theorem reachesUpN_self {nodes : List MindMapNode} {a : MindMapNode} {k d : Nat}
    (hr : ReachesUpN nodes a a k) (hd : HasDepth nodes a d) : k = 0 := by
  obtain ⟨hk, hdeep⟩ := reachesUpN_depth hr hd
  have := hasDepth_unique hd hdeep
  omega

/-- Ancestor chains compose. -/
theorem reachesUpN_trans {nodes : List MindMapNode} {m b a : MindMapNode} {k l : Nat}
    (h1 : ReachesUpN nodes m b k) (h2 : ReachesUpN nodes b a l) :
    ReachesUpN nodes m a (k + l) := by
  induction h1 with
  | refl m =>
    have he : 0 + l = l := by omega
    rw [he]
    exact h2
  | step m mp b p k hp hf h ih =>
    have he : k + 1 + l = (k + l) + 1 := by omega
    rw [he]
    exact .step m mp a p (k + l) hp hf (ih h2)

/-- The `k`-th ancestor is unique. -/
theorem reachesUpN_unique {nodes : List MindMapNode} {m a1 a2 : MindMapNode} {k : Nat}
    (h1 : ReachesUpN nodes m a1 k) (h2 : ReachesUpN nodes m a2 k) : a1 = a2 := by
  induction h1 generalizing a2 with
  | refl m =>
    cases h2 with
    | refl _ => rfl
  | step m mp a1 p k hp hf h ih =>
    cases h2 with
    | step _ mp2 _ p2 _ hp2 hf2 h2b =>
      rw [hp] at hp2
      obtain rfl : p = p2 := Option.some_inj.mp hp2
      rw [hf] at hf2
      obtain rfl : mp = mp2 := Option.some_inj.mp hf2
      exact ih h2b

/-- Extending a chain one step past its top. -/
theorem reachesUpN_extend {nodes : List MindMapNode} {m a ap : MindMapNode} {p : Nat}
    {k : Nat} (h : ReachesUpN nodes m a k) (hp : a.parentId = some p)
    (hf : nodes.find? (fun n => n.id == p) = some ap) :
    ReachesUpN nodes m ap (k + 1) := by
  induction h with
  | refl m => exact .step m ap ap p 0 hp hf (.refl ap)
  | step m mp a p2 k hp2 hf2 h ih =>
    exact .step m mp ap p2 (k + 1) hp2 hf2 (ih hp)

/-- Splitting a chain at an intermediate position. -/
theorem reachesUpN_split {nodes : List MindMapNode} {m a : MindMapNode} {K : Nat}
    (h : ReachesUpN nodes m a K) :
    ∀ j, j ≤ K → ∃ b, ReachesUpN nodes m b j ∧ ReachesUpN nodes b a (K - j) := by
  induction h with
  | refl m =>
    intro j hj
    obtain rfl : j = 0 := by omega
    exact ⟨m, .refl m, .refl m⟩
  | step m mp a p k hp hf h ih =>
    intro j hj
    match j with
    | 0 => exact ⟨m, .refl m, .step m mp a p k hp hf h⟩
    | j + 1 =>
      obtain ⟨b, hb1, hb2⟩ := ih j (by omega)
      refine ⟨b, .step m mp b p j hp hf hb1, ?_⟩
      have he : k + 1 - (j + 1) = k - j := by omega
      rw [he]
      exact hb2

/-- A zero-length chain stays put. -/
theorem reachesUpN_zero {nodes : List MindMapNode} {x y : MindMapNode}
    (h : ReachesUpN nodes x y 0) : x = y := by
  cases h with
  | refl _ => rfl

/-- The first chain step below an ancestor is one of its children. -/
theorem reachesUpN_decompose {nodes : List MindMapNode} :
    ∀ (k : Nat) (m a : MindMapNode), ReachesUpN nodes m a (k + 1) → m ∈ nodes →
      ∃ c ∈ nodes, ReachesUpN nodes m c k ∧ c.parentId = some a.id := by
  intro k
  induction k with
  | zero =>
    intro m a hr hm
    cases hr with
    | step _ mp _ p _ hp hf h =>
      obtain rfl := reachesUpN_zero h
      have hid : mp.id = p := by simpa using List.find?_some hf
      exact ⟨m, hm, .refl m, by rw [hp, hid]⟩
  | succ k ih =>
    intro m a hr hm
    cases hr with
    | step _ mp _ p _ hp hf h =>
      have hmp : mp ∈ nodes := List.mem_of_find?_eq_some hf
      obtain ⟨c, hc, hrc, hcp⟩ := ih mp a h hmp
      exact ⟨c, hc, .step m mp c p k hp hf hrc, hcp⟩

/-- Two chains from one node through two distinct children of the same
ancestor cannot both exist. -/
theorem chains_disjoint_le {nodes : List MindMapNode} {m c1 c2 ni : MindMapNode}
    {k1 k2 : Nat}
    (hAllDepth : ∀ n ∈ nodes, ∃ d, HasDepth nodes n d)
    (hni : ni ∈ nodes)
    (h1 : ReachesUpN nodes m c1 k1) (h2 : ReachesUpN nodes m c2 k2)
    (hc1 : c1.parentId = some ni.id) (hc2 : c2.parentId = some ni.id)
    (hfi : nodes.find? (fun n => n.id == ni.id) = some ni)
    (hne : c1 ≠ c2) (hle : k1 ≤ k2) : False := by
  rcases Nat.lt_or_ge k1 k2 with hlt | hge
  · have hup1 : ReachesUpN nodes m ni (k1 + 1) := reachesUpN_extend h1 hc1 hfi
    obtain ⟨b, hb1, hb2⟩ := reachesUpN_split h2 (k1 + 1) (by omega)
    obtain rfl : ni = b := reachesUpN_unique hup1 hb1
    have hcyc : ReachesUpN nodes ni ni (k2 - (k1 + 1) + 1) :=
      reachesUpN_extend hb2 hc2 hfi
    obtain ⟨d, hd⟩ := hAllDepth ni hni
    have := reachesUpN_self hcyc hd
    omega
  · obtain rfl : k1 = k2 := by omega
    exact hne (reachesUpN_unique h1 h2)

/-- Symmetric wrapper for the disjointness of child chains. -/
theorem chains_disjoint {nodes : List MindMapNode} {m c1 c2 ni : MindMapNode}
    {k1 k2 : Nat}
    (hAllDepth : ∀ n ∈ nodes, ∃ d, HasDepth nodes n d)
    (hni : ni ∈ nodes)
    (h1 : ReachesUpN nodes m c1 k1) (h2 : ReachesUpN nodes m c2 k2)
    (hc1 : c1.parentId = some ni.id) (hc2 : c2.parentId = some ni.id)
    (hfi : nodes.find? (fun n => n.id == ni.id) = some ni)
    (hne : c1 ≠ c2) : False := by
  rcases Nat.le_total k1 k2 with h | h
  · exact chains_disjoint_le hAllDepth hni h1 h2 hc1 hc2 hfi hne h
  · exact chains_disjoint_le hAllDepth hni h2 h1 hc2 hc1 hfi (Ne.symm hne) h

/-- A chain of ancestors list-witnesses the depth. -/
theorem hasDepth_chain {nodes : List MindMapNode} {m : MindMapNode} {d : Nat}
    (h : HasDepth nodes m d) :
    m ∈ nodes → ∃ l : List MindMapNode, l.length = d + 1 ∧ l.Nodup
      ∧ (∀ x ∈ l, x ∈ nodes)
      ∧ (∀ x ∈ l, ∃ dx, dx ≤ d ∧ HasDepth nodes x dx) := by
  induction h with
  | root m hroot =>
    intro hm
    refine ⟨[m], rfl, List.nodup_singleton m, ?_, ?_⟩
    · intro x hx
      rw [List.mem_singleton] at hx
      subst hx
      exact hm
    · intro x hx
      rw [List.mem_singleton] at hx
      rw [hx]
      exact ⟨0, le_refl 0, .root m hroot⟩
  | step m mp p d hp hf h ih =>
    intro hm
    have hmp : mp ∈ nodes := List.mem_of_find?_eq_some hf
    obtain ⟨l, hlen, hnd, hsub, hdepths⟩ := ih hmp
    refine ⟨m :: l, by simp [hlen], ?_, ?_, ?_⟩
    · rw [List.nodup_cons]
      refine ⟨?_, hnd⟩
      intro hmem
      obtain ⟨dx, hdx, hhd⟩ := hdepths m hmem
      have := hasDepth_unique (HasDepth.step m mp p d hp hf h) hhd
      omega
    · intro x hx
      rcases List.mem_cons.mp hx with h2 | hx2
      · rw [h2]
        exact hm
      · exact hsub x hx2
    · intro x hx
      rcases List.mem_cons.mp hx with h2 | hx2
      · rw [h2]
        exact ⟨d + 1, le_refl _, HasDepth.step m mp p d hp hf h⟩
      · obtain ⟨dx, hdx, hhd⟩ := hdepths x hx2
        exact ⟨dx, by omega, hhd⟩

/-- Depth is bounded by the node count. -/
theorem hasDepth_lt_length {nodes : List MindMapNode} {m : MindMapNode} {d : Nat}
    (h : HasDepth nodes m d) (hm : m ∈ nodes) : d < nodes.length := by
  obtain ⟨l, hlen, hnd, hsub, _⟩ := hasDepth_chain h hm
  have hle : l.length ≤ nodes.length :=
    List.Subperm.length_le (List.subperm_of_subset hnd hsub)
  omega

theorem treeIds_mk (i : Nat) (c : String) (children : List TreeNode) (w h : Int) :
    treeIds (.mk i c children w h) = i :: flatTreeIds children := rfl

theorem flatTreeIds_nil : flatTreeIds [] = [] := rfl

theorem flatTreeIds_cons (t : TreeNode) (ts : List TreeNode) :
    flatTreeIds (t :: ts) = treeIds t ++ flatTreeIds ts := rfl

theorem heightsOf_nil : heightsOf [] = [] := rfl

theorem heightsOf_cons (t : TreeNode) (ts : List TreeNode) :
    heightsOf (t :: ts) = subtreeHeight t :: heightsOf ts := rfl

theorem subtreeHeight_mk_nil (i : Nat) (c : String) (w h : Int) :
    subtreeHeight (.mk i c [] w h) = h := rfl

theorem subtreeHeight_mk_cons (i : Nat) (c : String) (c2 : TreeNode) (cs : List TreeNode)
    (w h : Int) :
    subtreeHeight (.mk i c (c2 :: cs) w h) =
      max h ((heightsOf (c2 :: cs)).foldl (fun sum hh => sum + hh + 20) (-20)) := rfl

theorem layoutNode_mk_nil (i : Nat) (c : String) (w h : Int) (x y : ℚ) :
    layoutNode (.mk i c [] w h) x y = ([(⟨i, x, y, w, h⟩ : NodeLayout)], []) := rfl

theorem layoutNode_mk_cons (i : Nat) (cstr : String) (c : TreeNode) (cs : List TreeNode)
    (w h : Int) (x y : ℚ) :
    layoutNode (.mk i cstr (c :: cs) w h) x y =
      ((⟨i, x, y, w, h⟩ : NodeLayout) ::
        (layoutChildren i x y w h (x + (w : ℚ) + 60) (c :: cs)
          (y + (h : ℚ) / 2 -
            (((heightsOf (c :: cs)).foldl (fun sum hh => sum + hh + 20) (-20) : Int) : ℚ) / 2)).1,
       (layoutChildren i x y w h (x + (w : ℚ) + 60) (c :: cs)
          (y + (h : ℚ) / 2 -
            (((heightsOf (c :: cs)).foldl (fun sum hh => sum + hh + 20) (-20) : Int) : ℚ) / 2)).2) := rfl

theorem layoutChildren_nil (pid : Nat) (px py : ℚ) (pw ph : Int) (childX childY : ℚ) :
    layoutChildren pid px py pw ph childX [] childY = ([], []) := rfl

theorem layoutChildren_cons (pid : Nat) (px py : ℚ) (pw ph : Int) (childX : ℚ)
    (t : TreeNode) (ts : List TreeNode) (childY : ℚ) :
    layoutChildren pid px py pw ph childX (t :: ts) childY =
      ((layoutNode t childX
          (childY + ((subtreeHeight t : Int) : ℚ) / 2 - ((t.height : Int) : ℚ) / 2)).1 ++
        (layoutChildren pid px py pw ph childX ts
          (childY + ((subtreeHeight t : Int) : ℚ) + 20)).1,
       (⟨pid, t.id, px + (pw : ℚ), py + (ph : ℚ) / 2, childX,
          (childY + ((subtreeHeight t : Int) : ℚ) / 2 - ((t.height : Int) : ℚ) / 2)
            + ((t.height : Int) : ℚ) / 2⟩ : EdgeLayout) ::
        ((layoutNode t childX
          (childY + ((subtreeHeight t : Int) : ℚ) / 2 - ((t.height : Int) : ℚ) / 2)).2 ++
        (layoutChildren pid px py pw ph childX ts
          (childY + ((subtreeHeight t : Int) : ℚ) + 20)).2)) := rfl

/-- With duplicate-free ids, `find?` by a member's own id returns it. -/
theorem find?_id_of_mem_nodup {l : List MindMapNode}
    (hnodup : (l.map (fun n => n.id)).Nodup) {x : MindMapNode} (hx : x ∈ l) :
    l.find? (fun n => n.id == x.id) = some x := by
  cases h : l.find? (fun n => n.id == x.id) with
  | none =>
    have := List.find?_eq_none.mp h x hx
    simp at this
  | some y =>
    have hy := List.find?_some h
    have hymem := List.mem_of_find?_eq_some h
    have : y = x := List.inj_on_of_nodup_map hnodup hymem hx (by simpa using hy)
    rw [this]

theorem mem_childrenOf {nodes : List MindMapNode} {i : Nat} {c : MindMapNode} :
    c ∈ childrenOf nodes i ↔ c ∈ nodes ∧ c.parentId = some i := by
  unfold childrenOf
  rw [(sortByOrder_perm _).mem_iff, List.mem_filter]
  simp

theorem childrenOf_ids_nodup (nodes : List MindMapNode)
    (hnodup : (nodes.map (fun n => n.id)).Nodup) (i : Nat) :
    ((childrenOf nodes i).map (fun n => n.id)).Nodup := by
  have hperm : List.Perm ((childrenOf nodes i).map (fun n => n.id))
      ((nodes.filter (fun n => n.parentId == some i)).map (fun n => n.id)) :=
    (sortByOrder_perm _).map _
  rw [hperm.nodup_iff]
  exact hnodup.sublist ((List.filter_sublist _).map _)

/-- One unfolding step of `buildNodeFuel` on a found node. -/
theorem buildNodeFuel_some {fuel : Nat} {nodes : List MindMapNode} {i : Nat}
    {node : MindMapNode} (hf : nodes.find? (fun n => n.id == i) = some node) :
    buildNodeFuel (fuel + 1) nodes i =
      some (.mk node.id node.content
        (((childrenOf nodes i).map (fun c => buildNodeFuel fuel nodes c.id)).filterMap id)
        (calculateNodeDimensions node.content).1
        (calculateNodeDimensions node.content).2) := by
  simp only [buildNodeFuel, hf]

/-- Soundness: every id a built tree mentions belongs to a stored node
whose parent chain reaches the tree's root node. -/
theorem treeIds_sound {nodes : List MindMapNode}
    (hnodup : (nodes.map (fun n => n.id)).Nodup) :
    ∀ (fuel : Nat) (i : Nat) (node : MindMapNode) (t : TreeNode),
      nodes.find? (fun n => n.id == i) = some node →
      buildNodeFuel fuel nodes i = some t →
      ∀ mid ∈ treeIds t, ∃ m ∈ nodes, m.id = mid ∧ ∃ k, ReachesUpN nodes m node k := by
  intro fuel
  induction fuel with
  | zero =>
    intro i node t hf hb
    simp [buildNodeFuel] at hb
  | succ fuel ih =>
    intro i node t hf hb
    rw [buildNodeFuel_some hf] at hb
    obtain rfl := (Option.some_inj.mp hb).symm
    intro mid hmid
    rw [treeIds_mk] at hmid
    rcases List.mem_cons.mp hmid with rfl | hmid2
    · exact ⟨node, List.mem_of_find?_eq_some hf, rfl, 0, .refl node⟩
    · -- the id sits in some successfully built child subtree
      have hflat : ∀ (cs : List MindMapNode),
          (∀ c ∈ cs, c ∈ nodes ∧ c.parentId = some i) →
          mid ∈ flatTreeIds ((cs.map (fun c => buildNodeFuel fuel nodes c.id)).filterMap id) →
          ∃ m ∈ nodes, m.id = mid ∧ ∃ k, ReachesUpN nodes m node k := by
        intro cs
        induction cs with
        | nil => intro _ hmem; simp [flatTreeIds_nil] at hmem
        | cons c cs ihc =>
          intro hcs hmem
          rw [List.map_cons, List.filterMap_cons] at hmem
          cases hbc : buildNodeFuel fuel nodes c.id with
          | none =>
            rw [hbc] at hmem
            simp only [id_eq] at hmem
            exact ihc (fun c2 hc2 => hcs c2 (List.mem_cons_of_mem c hc2)) hmem
          | some tc =>
            rw [hbc] at hmem
            simp only [id_eq] at hmem
            rw [flatTreeIds_cons] at hmem
            rcases List.mem_append.mp hmem with hsub | hrest
            · obtain ⟨hcmem, hcp⟩ := hcs c (List.mem_cons_self c cs)
              have hfc : nodes.find? (fun n => n.id == c.id) = some c :=
                find?_id_of_mem_nodup hnodup hcmem
              obtain ⟨m, hm, hmid3, k, hk⟩ := ih c.id c tc hfc hbc mid hsub
              have hnid : node.id = i := by simpa using List.find?_some hf
              exact ⟨m, hm, hmid3, k + 1,
                @reachesUpN_extend nodes m c node i k hk hcp hf⟩
            · exact ihc (fun c2 hc2 => hcs c2 (List.mem_cons_of_mem c hc2)) hrest
      exact hflat (childrenOf nodes i) (fun c hc => mem_childrenOf.mp hc) hmid2

/-- Completeness: a node whose chain reaches the built root within the
fuel bound shows up in the built tree. -/
theorem treeIds_complete {nodes : List MindMapNode}
    (hnodup : (nodes.map (fun n => n.id)).Nodup) :
    ∀ (k : Nat) (fuel : Nat) (m node : MindMapNode) (t : TreeNode),
      m ∈ nodes → node ∈ nodes →
      ReachesUpN nodes m node k →
      k + 1 ≤ fuel →
      buildNodeFuel fuel nodes node.id = some t →
      m.id ∈ treeIds t := by
  intro k
  induction k with
  | zero =>
    intro fuel m node t hm hnode hr hfuel hb
    obtain rfl := reachesUpN_zero hr
    obtain ⟨fuel2, rfl⟩ : ∃ f2, fuel = f2 + 1 := ⟨fuel - 1, by omega⟩
    rw [buildNodeFuel_some (find?_id_of_mem_nodup hnodup hm)] at hb
    obtain rfl := (Option.some_inj.mp hb).symm
    rw [treeIds_mk]
    exact List.mem_cons_self _ _
  | succ k ihk =>
    intro fuel m node t hm hnode hr hfuel hb
    obtain ⟨c, hc, hrc, hcp⟩ := reachesUpN_decompose k m node hr hm
    obtain ⟨fuel2, rfl⟩ : ∃ f2, fuel = f2 + 1 := ⟨fuel - 1, by omega⟩
    rw [buildNodeFuel_some (find?_id_of_mem_nodup hnodup hnode)] at hb
    obtain rfl := (Option.some_inj.mp hb).symm
    rw [treeIds_mk]
    refine List.mem_cons_of_mem _ ?_
    have hcchild : c ∈ childrenOf nodes node.id := mem_childrenOf.mpr ⟨hc, hcp⟩
    obtain ⟨fuel3, rfl⟩ : ∃ f3, fuel2 = f3 + 1 := ⟨fuel2 - 1, by omega⟩
    obtain ⟨tc, hbc⟩ : ∃ tc, buildNodeFuel (fuel3 + 1) nodes c.id = some tc :=
      ⟨_, buildNodeFuel_some (find?_id_of_mem_nodup hnodup hc)⟩
    have hmtc : m.id ∈ treeIds tc :=
      ihk (fuel3 + 1) m c tc hm hc hrc (by omega) hbc
    have htcmem : tc ∈ ((childrenOf nodes node.id).map
        (fun c2 => buildNodeFuel (fuel3 + 1) nodes c2.id)).filterMap id := by
      rw [List.mem_filterMap]
      refine ⟨some tc, ?_, rfl⟩
      have hmm : buildNodeFuel (fuel3 + 1) nodes c.id ∈
          (childrenOf nodes node.id).map (fun c2 => buildNodeFuel (fuel3 + 1) nodes c2.id) :=
        List.mem_map_of_mem _ hcchild
      rw [hbc] at hmm
      exact hmm
    have hlift : ∀ (L : List TreeNode), tc ∈ L → m.id ∈ treeIds tc →
        m.id ∈ flatTreeIds L := by
      intro L
      induction L with
      | nil => intro h; cases h
      | cons t2 ts iht =>
        intro hmem hin
        rw [flatTreeIds_cons]
        rcases List.mem_cons.mp hmem with rfl | h2
        · exact List.mem_append.mpr (Or.inl hin)
        · exact List.mem_append.mpr (Or.inr (iht h2 hin))
    exact hlift _ htcmem hmtc

/-- The built tree never repeats an id: distinct children's subtrees are
disjoint because parent chains are deterministic and acyclic. -/
theorem treeIds_nodup {nodes : List MindMapNode}
    (hnodup : (nodes.map (fun n => n.id)).Nodup)
    (hAllDepth : ∀ n ∈ nodes, ∃ d, HasDepth nodes n d) :
    ∀ (fuel : Nat) (i : Nat) (node : MindMapNode) (t : TreeNode),
      nodes.find? (fun n => n.id == i) = some node →
      buildNodeFuel fuel nodes i = some t →
      (treeIds t).Nodup := by
  intro fuel
  induction fuel with
  | zero =>
    intro i node t hf hb
    simp [buildNodeFuel] at hb
  | succ fuel ih =>
    intro i node t hf hb
    rw [buildNodeFuel_some hf] at hb
    obtain rfl := (Option.some_inj.mp hb).symm
    have hnid : node.id = i := by simpa using List.find?_some hf
    have hnodemem : node ∈ nodes := List.mem_of_find?_eq_some hf
    have hforest : ∀ cs : List MindMapNode,
        (∀ c ∈ cs, c ∈ nodes ∧ c.parentId = some i) →
        ((cs.map (fun n => n.id)).Nodup) →
        (flatTreeIds ((cs.map (fun c => buildNodeFuel fuel nodes c.id)).filterMap id)).Nodup
        ∧ (∀ mid ∈ flatTreeIds ((cs.map
              (fun c => buildNodeFuel fuel nodes c.id)).filterMap id),
            ∃ m ∈ nodes, m.id = mid ∧ ∃ c ∈ cs, ∃ k, ReachesUpN nodes m c k) := by
      intro cs
      induction cs with
      | nil =>
        intro _ _
        constructor
        · rw [List.map_nil, List.filterMap_nil, flatTreeIds_nil]
          exact List.nodup_nil
        · intro mid hmid
          rw [List.map_nil, List.filterMap_nil, flatTreeIds_nil] at hmid
          cases hmid
      | cons c cs ihc =>
        intro hcs hcsnodup
        rw [List.map_cons, List.nodup_cons] at hcsnodup
        obtain ⟨hcid_notin, hcsnodup2⟩ := hcsnodup
        obtain ⟨hcmem, hcparent⟩ := hcs c (List.mem_cons_self c cs)
        have hrest := ihc (fun c2 h2 => hcs c2 (List.mem_cons_of_mem c h2)) hcsnodup2
        rw [List.map_cons, List.filterMap_cons]
        cases hbc : buildNodeFuel fuel nodes c.id with
        | none =>
          simp only [id_eq]
          refine ⟨hrest.1, ?_⟩
          intro mid hmid
          obtain ⟨m, hm, hmid2, c2, hc2, k, hk⟩ := hrest.2 mid hmid
          exact ⟨m, hm, hmid2, c2, List.mem_cons_of_mem c hc2, k, hk⟩
        | some tc =>
          simp only [id_eq]
          rw [flatTreeIds_cons]
          have hfc : nodes.find? (fun n => n.id == c.id) = some c :=
            find?_id_of_mem_nodup hnodup hcmem
          constructor
          · rw [List.nodup_append]
            refine ⟨ih c.id c tc hfc hbc, hrest.1, ?_⟩
            intro mid hmid1 hmid2
            obtain ⟨m1, hm1, hmid1e, k1, hk1⟩ :=
              treeIds_sound hnodup fuel c.id c tc hfc hbc mid hmid1
            obtain ⟨m2, hm2, hmid2e, c2, hc2, k2, hk2⟩ := hrest.2 mid hmid2
            obtain rfl : m1 = m2 :=
              List.inj_on_of_nodup_map hnodup hm1 hm2 (hmid1e.trans hmid2e.symm)
            obtain ⟨hc2mem, hc2parent⟩ := hcs c2 (List.mem_cons_of_mem c hc2)
            have hcne : c ≠ c2 := by
              intro h
              exact hcid_notin (h ▸ List.mem_map_of_mem (fun n => n.id) hc2)
            refine chains_disjoint hAllDepth hnodemem hk1 hk2 ?_ ?_ ?_ hcne
            · rw [hcparent, hnid]
            · rw [hc2parent, hnid]
            · rw [hnid]
              exact hf
          · intro mid hmid
            rcases List.mem_append.mp hmid with h1 | h2
            · obtain ⟨m, hm, hmide, k, hk⟩ :=
                treeIds_sound hnodup fuel c.id c tc hfc hbc mid h1
              exact ⟨m, hm, hmide, c, List.mem_cons_self c cs, k, hk⟩
            · obtain ⟨m, hm, hmide, c2, hc2, k, hk⟩ := hrest.2 mid h2
              exact ⟨m, hm, hmide, c2, List.mem_cons_of_mem c hc2, k, hk⟩
    have hmain := hforest (childrenOf nodes i) (fun c hc => mem_childrenOf.mp hc)
      (childrenOf_ids_nodup nodes hnodup i)
    rw [treeIds_mk, List.nodup_cons]
    refine ⟨?_, hmain.1⟩
    intro hmem
    obtain ⟨m, hm, hmid, c, hc, k, hk⟩ := hmain.2 node.id hmem
    have hmn : m = node := List.inj_on_of_nodup_map hnodup hm hnodemem hmid
    rw [hmn] at hk
    obtain ⟨hcmem2, hcp2⟩ := mem_childrenOf.mp hc
    have hcyc := @reachesUpN_extend nodes node c node i k hk hcp2 hf
    obtain ⟨d, hd⟩ := hAllDepth node hnodemem
    have := reachesUpN_self hcyc hd
    omega

/-- Walking the whole depth reaches a parentless node. -/
theorem hasDepth_top {nodes : List MindMapNode} {m : MindMapNode} {d : Nat}
    (h : HasDepth nodes m d) : m ∈ nodes →
    ∃ r ∈ nodes, ReachesUpN nodes m r d ∧ r.parentId = none := by
  induction h with
  | root m hr =>
    intro hm
    exact ⟨m, hm, .refl m, hr⟩
  | step m mp p d hp hf h ih =>
    intro hm
    obtain ⟨r, hrmem, hrk, hrn⟩ := ih (List.mem_of_find?_eq_some hf)
    exact ⟨r, hrmem, .step m mp r p d hp hf hrk, hrn⟩

/-- On a rooted tree input, `buildTree` succeeds and its tree carries each
stored id exactly once. -/
theorem buildTree_perm {nodes : List MindMapNode} (hrt : isRootedTree nodes) :
    ∃ t, buildTree nodes = some t
      ∧ List.Perm (treeIds t) (nodes.map (fun n => n.id))
      ∧ (treeIds t).Nodup := by
  obtain ⟨hnodup, hone, hchain⟩ := hrt
  have hfind : ∃ rootNode, nodes.find? (fun n => n.parentId == none) = some rootNode := by
    cases hf : nodes.find? (fun n => n.parentId == none) with
    | none =>
      exfalso
      have hempty : nodes.filter (fun n => n.parentId == none) = [] := by
        rw [List.filter_eq_nil_iff]
        intro a ha
        have := List.find?_eq_none.mp hf a ha
        simpa using this
      rw [hempty] at hone
      simp at hone
    | some r => exact ⟨r, rfl⟩
  obtain ⟨rootNode, hfr⟩ := hfind
  have hrootmem : rootNode ∈ nodes := List.mem_of_find?_eq_some hfr
  have hrootnone : rootNode.parentId = none := by simpa using List.find?_some hfr
  have hAllDepth : ∀ n ∈ nodes, ∃ d, HasDepth nodes n d :=
    fun n hn => hasDepth_of_chainToRoot (nodes.length + 1) n (hchain n hn)
  have huniq : ∀ r ∈ nodes, r.parentId = none → r = rootNode := by
    intro r hr hrn
    have h1 : r ∈ nodes.filter (fun n => n.parentId == none) :=
      List.mem_filter.mpr ⟨hr, by simp [hrn]⟩
    have h2 : rootNode ∈ nodes.filter (fun n => n.parentId == none) :=
      List.mem_filter.mpr ⟨hrootmem, by simp [hrootnone]⟩
    obtain ⟨a, ha⟩ := List.length_eq_one.mp hone
    rw [ha, List.mem_singleton] at h1 h2
    rw [h1, h2]
  have hreach : ∀ m ∈ nodes, ∃ k, k < nodes.length ∧ ReachesUpN nodes m rootNode k := by
    intro m hm
    obtain ⟨d, hd⟩ := hAllDepth m hm
    obtain ⟨r, hrmem, hrk, hrn⟩ := hasDepth_top hd hm
    rw [huniq r hrmem hrn] at hrk
    exact ⟨d, hasDepth_lt_length hd hm, hrk⟩
  have hfrootid : nodes.find? (fun n => n.id == rootNode.id) = some rootNode :=
    find?_id_of_mem_nodup hnodup hrootmem
  obtain ⟨t, hbt⟩ : ∃ t, buildNodeFuel (nodes.length + 1) nodes rootNode.id = some t :=
    ⟨_, buildNodeFuel_some hfrootid⟩
  have hnd : (treeIds t).Nodup :=
    treeIds_nodup hnodup hAllDepth _ _ rootNode t hfrootid hbt
  refine ⟨t, ?_, ?_, hnd⟩
  · simp only [buildTree, hfr]
    exact hbt
  · have hsub1 : ∀ x ∈ treeIds t, x ∈ nodes.map (fun n => n.id) := by
      intro x hx
      obtain ⟨m, hm, hmid, _⟩ :=
        treeIds_sound hnodup _ rootNode.id rootNode t hfrootid hbt x hx
      exact hmid ▸ List.mem_map_of_mem _ hm
    have hsub2 : ∀ x ∈ nodes.map (fun n => n.id), x ∈ treeIds t := by
      intro x hx
      rcases List.mem_map.mp hx with ⟨m, hm, rfl⟩
      obtain ⟨k, hklt, hrk⟩ := hreach m hm
      exact treeIds_complete hnodup k (nodes.length + 1) m rootNode t hm hrootmem hrk
        (by omega) hbt
    exact (List.subperm_of_subset hnd hsub1).antisymm
      (List.subperm_of_subset hnodup hsub2)

/-- Node boxes clamp to the documented minimums. -/
theorem calculateNodeDimensions_bounds (content : String) :
    80 ≤ (calculateNodeDimensions content).1 ∧ 40 ≤ (calculateNodeDimensions content).2 := by
  simp only [calculateNodeDimensions]
  constructor
  · have h1 : (80 : Int) ≤ max 80
        (((content.splitOn "\n").map (fun l => (l.length : Int))).foldl max 1 * 8 + 24) :=
      le_max_left _ _
    omega
  · exact le_max_left _ _

mutual

/-- Every node of the tree carries the clamped box sizes. -/
def wfTree : TreeNode → Prop
  | .mk _ _ children w h => 80 ≤ w ∧ 40 ≤ h ∧ wfForest children

def wfForest : List TreeNode → Prop
  | [] => True
  | t :: ts => wfTree t ∧ wfForest ts

end

theorem wfForest_mem {ts : List TreeNode} (h : wfForest ts) {u : TreeNode}
    (hu : u ∈ ts) : wfTree u := by
  induction ts with
  | nil => cases hu
  | cons t ts ih =>
    have h2 : wfTree t ∧ wfForest ts := h
    rcases List.mem_cons.mp hu with rfl | hu2
    · exact h2.1
    · exact ih h2.2 hu2

/-- Strong induction over the nested tree type via sizes. -/
theorem tree_strong_induction {P : TreeNode → Prop}
    (h : ∀ (i : Nat) (c : String) (children : List TreeNode) (w hgt : Int),
      (∀ t ∈ children, P t) → P (.mk i c children w hgt)) :
    ∀ t, P t := by
  have key : ∀ n t, sizeOf t ≤ n → P t := by
    intro n
    induction n with
    | zero =>
      intro t ht
      cases t with
      | mk i c children w hgt =>
        simp at ht
    | succ n ih =>
      intro t ht
      cases t with
      | mk i c children w hgt =>
        refine h i c children w hgt ?_
        intro x hx
        have h1 := List.sizeOf_lt_of_mem hx
        simp only [TreeNode.mk.sizeOf_spec] at ht
        exact ih x (by omega)
  intro t
  exact key (sizeOf t) t (le_refl _)

/-- The stacked extent of a child list (the `reduce` with the trailing gap
folded out). -/
def sumH : List TreeNode → Int
  | [] => -20
  | t :: ts => subtreeHeight t + 20 + sumH ts

theorem foldl_heights_eq (ts : List TreeNode) :
    ∀ a : Int, (heightsOf ts).foldl (fun sum hh => sum + hh + 20) a = a + sumH ts + 20 := by
  induction ts with
  | nil =>
    intro a
    rw [heightsOf_nil]
    show a = a + -20 + 20
    omega
  | cons t ts ih =>
    intro a
    rw [heightsOf_cons, List.foldl_cons, ih (a + subtreeHeight t + 20)]
    show a + subtreeHeight t + 20 + sumH ts + 20
      = a + (subtreeHeight t + 20 + sumH ts) + 20
    omega

theorem subtreeHeight_ge_height (t : TreeNode) : t.height ≤ subtreeHeight t := by
  cases t with
  | mk i c children w h =>
    cases children with
    | nil => rw [subtreeHeight_mk_nil]; exact le_refl _
    | cons c2 cs => rw [subtreeHeight_mk_cons]; exact le_max_left _ _

theorem subtreeHeight_ge_40 {t : TreeNode} (h : wfTree t) : 40 ≤ subtreeHeight t := by
  cases t with
  | mk i c children w hgt =>
    have h2 : 80 ≤ w ∧ 40 ≤ hgt ∧ wfForest children := h
    exact le_trans h2.2.1 (subtreeHeight_ge_height _)

theorem sumH_ge_neg {ts : List TreeNode} (h : ∀ u ∈ ts, 0 ≤ subtreeHeight u) :
    -20 ≤ sumH ts := by
  induction ts with
  | nil => show (-20 : Int) ≤ -20; omega
  | cons t ts ih =>
    have h1 := h t (List.mem_cons_self t ts)
    have h2 := ih (fun u hu => h u (List.mem_cons_of_mem t hu))
    show -20 ≤ subtreeHeight t + 20 + sumH ts
    omega

/-- Two boxes do not intersect in both axes at once. -/
def noOverlap (a b : NodeLayout) : Prop :=
  ¬(a.x < b.x + (b.width : ℚ) ∧ b.x < a.x + (a.width : ℚ)
    ∧ a.y < b.y + (b.height : ℚ) ∧ b.y < a.y + (a.height : ℚ))

/-- Each tree's own id heads its id list. -/
theorem id_mem_treeIds (t : TreeNode) : t.id ∈ treeIds t := by
  cases t with
  | mk i c children w h =>
    rw [treeIds_mk]
    exact List.mem_cons_self _ _

set_option maxHeartbeats 1000000 in
/-- The heart of the layout claim: every laid-out subtree stays right of
its root's x and inside the vertical band of half its subtree height
around its root's centre; boxes are pairwise non-overlapping; the layouts
list the tree's ids in preorder; and every edge endpoint is laid out. -/
theorem layout_main : ∀ t : TreeNode, wfTree t → ∀ x y : ℚ,
    (∀ L ∈ (layoutNode t x y).1,
      x ≤ L.x
      ∧ y + ((t.height : Int) : ℚ) / 2 - ((subtreeHeight t : Int) : ℚ) / 2 ≤ L.y
      ∧ L.y + ((L.height : Int) : ℚ)
          ≤ y + ((t.height : Int) : ℚ) / 2 + ((subtreeHeight t : Int) : ℚ) / 2
      ∧ (40 : Int) ≤ L.height)
    ∧ (layoutNode t x y).1.Pairwise noOverlap
    ∧ (layoutNode t x y).1.map (fun L => L.nodeId) = treeIds t
    ∧ (∀ e ∈ (layoutNode t x y).2,
        e.fromId ∈ (layoutNode t x y).1.map (fun L => L.nodeId)
        ∧ e.toId ∈ (layoutNode t x y).1.map (fun L => L.nodeId)) := by
  refine tree_strong_induction ?_
  intro i cstr children w h IH hwf x y
  have hwf2 : 80 ≤ w ∧ 40 ≤ h ∧ wfForest children := hwf
  cases children with
  | nil =>
    rw [layoutNode_mk_nil]
    refine ⟨?_, List.pairwise_singleton _ _, ?_, ?_⟩
    · intro L hL
      rw [List.mem_singleton] at hL
      subst hL
      refine ⟨le_refl x, ?_, ?_, hwf2.2.1⟩
      · show y + (h : ℚ) / 2 - ((subtreeHeight (.mk i cstr [] w h) : Int) : ℚ) / 2 ≤ y
        rw [subtreeHeight_mk_nil]
        linarith
      · show y + (h : ℚ)
          ≤ y + (h : ℚ) / 2 + ((subtreeHeight (.mk i cstr [] w h) : Int) : ℚ) / 2
        rw [subtreeHeight_mk_nil]
        linarith
    · rw [treeIds_mk, flatTreeIds_nil]
      rfl
    · intro e he
      cases he
  | cons c0 cs =>
    have htotal : (heightsOf (c0 :: cs)).foldl (fun sum hh => sum + hh + 20) (-20)
        = sumH (c0 :: cs) := by
      rw [foldl_heights_eq]
      omega
    have hS : subtreeHeight (.mk i cstr (c0 :: cs) w h) = max h (sumH (c0 :: cs)) := by
      rw [subtreeHeight_mk_cons, htotal]
    have hwfF : wfForest (c0 :: cs) := hwf2.2.2
    have hwfmem : ∀ u ∈ c0 :: cs, wfTree u := fun u hu => wfForest_mem hwfF hu
    have hch40 : ∀ u ∈ c0 :: cs, (40 : Int) ≤ subtreeHeight u :=
      fun u hu => subtreeHeight_ge_40 (hwfmem u hu)
    have hFL : ∀ ts : List TreeNode, (∀ u ∈ ts, u ∈ c0 :: cs) → ∀ childY : ℚ,
        (∀ L ∈ (layoutChildren i x y w h (x + (w : ℚ) + 60) ts childY).1,
          x + (w : ℚ) + 60 ≤ L.x ∧ childY ≤ L.y
          ∧ L.y + ((L.height : Int) : ℚ) ≤ childY + ((sumH ts : Int) : ℚ)
          ∧ (40 : Int) ≤ L.height)
        ∧ (layoutChildren i x y w h (x + (w : ℚ) + 60) ts childY).1.Pairwise noOverlap
        ∧ (layoutChildren i x y w h (x + (w : ℚ) + 60) ts childY).1.map
            (fun L => L.nodeId) = flatTreeIds ts
        ∧ (∀ e ∈ (layoutChildren i x y w h (x + (w : ℚ) + 60) ts childY).2,
            (e.fromId = i
              ∨ e.fromId ∈ (layoutChildren i x y w h (x + (w : ℚ) + 60) ts childY).1.map
                  (fun L => L.nodeId))
            ∧ e.toId ∈ (layoutChildren i x y w h (x + (w : ℚ) + 60) ts childY).1.map
                (fun L => L.nodeId)) := by
      intro ts
      induction ts with
      | nil =>
        intro _ childY
        rw [layoutChildren_nil]
        refine ⟨?_, List.Pairwise.nil, ?_, ?_⟩
        · intro L hL
          cases hL
        · rw [flatTreeIds_nil]
          rfl
        · intro e he
          cases he
      | cons u us ihts =>
        intro hmem childY
        have humem : u ∈ c0 :: cs := hmem u (List.mem_cons_self u us)
        have hus40 : ∀ v ∈ us, (0 : Int) ≤ subtreeHeight v := by
          intro v hv
          have := hch40 v (hmem v (List.mem_cons_of_mem u hv))
          omega
        have hsumus : (-20 : Int) ≤ sumH us := sumH_ge_neg hus40
        have hu40 : (40 : Int) ≤ subtreeHeight u := hch40 u humem
        have hu40q : (40 : ℚ) ≤ ((subtreeHeight u : Int) : ℚ) := by exact_mod_cast hu40
        have hsumusq : (-20 : ℚ) ≤ ((sumH us : Int) : ℚ) := by exact_mod_cast hsumus
        have hsumHcons : sumH (u :: us) = subtreeHeight u + 20 + sumH us := rfl
        have hsumHconsq : ((sumH (u :: us) : Int) : ℚ)
            = ((subtreeHeight u : Int) : ℚ) + 20 + ((sumH us : Int) : ℚ) := by
          rw [hsumHcons]
          push_cast
          ring
        obtain ⟨hTb, hTp, hTm, hTe⟩ := IH u humem (hwfmem u humem) (x + (w : ℚ) + 60)
          (childY + ((subtreeHeight u : Int) : ℚ) / 2 - ((u.height : Int) : ℚ) / 2)
        obtain ⟨hRb, hRp, hRm, hRe⟩ := ihts (fun v hv => hmem v (List.mem_cons_of_mem u hv))
          (childY + ((subtreeHeight u : Int) : ℚ) + 20)
        rw [layoutChildren_cons]
        have hsubBand : ∀ L ∈ (layoutNode u (x + (w : ℚ) + 60)
            (childY + ((subtreeHeight u : Int) : ℚ) / 2 - ((u.height : Int) : ℚ) / 2)).1,
            x + (w : ℚ) + 60 ≤ L.x ∧ childY ≤ L.y
            ∧ L.y + ((L.height : Int) : ℚ) ≤ childY + ((subtreeHeight u : Int) : ℚ)
            ∧ (40 : Int) ≤ L.height := by
          intro L hL
          obtain ⟨h1, h2, h3, h4⟩ := hTb L hL
          refine ⟨h1, by linarith, by linarith, h4⟩
        refine ⟨?_, ?_, ?_, ?_⟩
        · intro L hL
          rcases List.mem_append.mp hL with hsub | hrest
          · obtain ⟨h1, h2, h3, h4⟩ := hsubBand L hsub
            refine ⟨h1, h2, ?_, h4⟩
            rw [hsumHconsq]
            linarith
          · obtain ⟨h1, h2, h3, h4⟩ := hRb L hrest
            refine ⟨h1, by linarith, ?_, h4⟩
            rw [hsumHconsq]
            linarith
        · rw [List.pairwise_append]
          refine ⟨hTp, hRp, ?_⟩
          intro a ha b hb
          obtain ⟨_, _, ha3, _⟩ := hsubBand a ha
          obtain ⟨_, hb2, _, _⟩ := hRb b hb
          intro hov
          obtain ⟨hov1, hov2, hov3, hov4⟩ := hov
          linarith
        · rw [List.map_append, hTm, hRm, flatTreeIds_cons]
        · intro e he
          rcases List.mem_cons.mp he with rfl | he2
          · constructor
            · exact Or.inl rfl
            · rw [List.map_append]
              refine List.mem_append.mpr (Or.inl ?_)
              rw [hTm]
              exact id_mem_treeIds u
          · rcases List.mem_append.mp he2 with hesub | herest
            · obtain ⟨hf1, hf2⟩ := hTe e hesub
              constructor
              · refine Or.inr ?_
                rw [List.map_append]
                exact List.mem_append.mpr (Or.inl hf1)
              · rw [List.map_append]
                exact List.mem_append.mpr (Or.inl hf2)
            · obtain ⟨hf1, hf2⟩ := hRe e herest
              constructor
              · rcases hf1 with hi | hf1b
                · exact Or.inl hi
                · refine Or.inr ?_
                  rw [List.map_append]
                  exact List.mem_append.mpr (Or.inr hf1b)
              · rw [List.map_append]
                exact List.mem_append.mpr (Or.inr hf2)
    rw [layoutNode_mk_cons, htotal]
    obtain ⟨hFb, hFp, hFm, hFe⟩ := hFL (c0 :: cs) (fun u hu => hu)
      (y + (h : ℚ) / 2 - ((sumH (c0 :: cs) : Int) : ℚ) / 2)
    have hmaxlq : (h : ℚ) ≤ ((max h (sumH (c0 :: cs)) : Int) : ℚ) := by
      exact_mod_cast le_max_left h (sumH (c0 :: cs))
    have hmaxrq : ((sumH (c0 :: cs) : Int) : ℚ) ≤ ((max h (sumH (c0 :: cs)) : Int) : ℚ) := by
      exact_mod_cast le_max_right h (sumH (c0 :: cs))
    have hwq : (80 : ℚ) ≤ (w : ℚ) := by exact_mod_cast hwf2.1
    refine ⟨?_, ?_, ?_, ?_⟩
    · intro L hL
      rcases List.mem_cons.mp hL with rfl | hL2
      · refine ⟨le_refl x, ?_, ?_, hwf2.2.1⟩
        · show y + (h : ℚ) / 2
            - ((subtreeHeight (.mk i cstr (c0 :: cs) w h) : Int) : ℚ) / 2 ≤ y
          rw [hS]
          linarith
        · show y + (h : ℚ) ≤ y + (h : ℚ) / 2
            + ((subtreeHeight (.mk i cstr (c0 :: cs) w h) : Int) : ℚ) / 2
          rw [hS]
          linarith
      · obtain ⟨h1, h2, h3, h4⟩ := hFb L hL2
        refine ⟨by linarith, ?_, ?_, h4⟩
        · show y + (h : ℚ) / 2
            - ((subtreeHeight (.mk i cstr (c0 :: cs) w h) : Int) : ℚ) / 2 ≤ L.y
          rw [hS]
          linarith
        · show L.y + ((L.height : Int) : ℚ) ≤ y + (h : ℚ) / 2
            + ((subtreeHeight (.mk i cstr (c0 :: cs) w h) : Int) : ℚ) / 2
          rw [hS]
          linarith
    · refine List.Pairwise.cons ?_ hFp
      intro b hb
      obtain ⟨hb1, _, _, _⟩ := hFb b hb
      intro hov
      obtain ⟨hov1, hov2, hov3, hov4⟩ := hov
      show False
      have hself : ((⟨i, x, y, w, h⟩ : NodeLayout).x : ℚ)
          + (((⟨i, x, y, w, h⟩ : NodeLayout).width : Int) : ℚ) = x + (w : ℚ) := rfl
      rw [hself] at hov2
      linarith
    · rw [List.map_cons, hFm, treeIds_mk]
    · intro e he
      obtain ⟨hf1, hf2⟩ := hFe e he
      constructor
      · rcases hf1 with hi | hf1b
        · rw [List.map_cons, hi]
          exact List.mem_cons_self _ _
        · rw [List.map_cons]
          exact List.mem_cons_of_mem _ hf1b
      · rw [List.map_cons]
        exact List.mem_cons_of_mem _ hf2

/-- Every tree `buildNode` produces carries clamped box sizes. -/
theorem buildNodeFuel_wf :
    ∀ (fuel : Nat) (nodes : List MindMapNode) (i : Nat) (t : TreeNode),
      buildNodeFuel fuel nodes i = some t → wfTree t := by
  intro fuel
  induction fuel with
  | zero =>
    intro nodes i t hb
    simp [buildNodeFuel] at hb
  | succ fuel ih =>
    intro nodes i t hb
    cases hf : nodes.find? (fun n => n.id == i) with
    | none =>
      simp only [buildNodeFuel, hf] at hb
      cases hb
    | some node =>
      rw [buildNodeFuel_some hf] at hb
      obtain rfl := (Option.some_inj.mp hb).symm
      show 80 ≤ _ ∧ 40 ≤ _ ∧ wfForest _
      refine ⟨(calculateNodeDimensions_bounds node.content).1,
        (calculateNodeDimensions_bounds node.content).2, ?_⟩
      have hforest : ∀ cs : List MindMapNode,
          wfForest ((cs.map (fun c => buildNodeFuel fuel nodes c.id)).filterMap id) := by
        intro cs
        induction cs with
        | nil =>
          rw [List.map_nil, List.filterMap_nil]
          exact trivial
        | cons c cs ihc =>
          rw [List.map_cons, List.filterMap_cons]
          cases hbc : buildNodeFuel fuel nodes c.id with
          | none =>
            simp only [id_eq]
            exact ihc
          | some tc =>
            simp only [id_eq]
            show wfTree tc ∧ wfForest _
            exact ⟨ih nodes c.id tc hbc, ihc⟩
      exact hforest _

/-! ## Claim C8 -/

/-- C8: on every rooted-tree input (duplicate-free ids, one parentless
node, all parent chains reaching it), `calculateLayout` returns exactly one
layout per input node, no two returned boxes overlap in both axes at once,
every edge endpoint id is among the returned layouts, and the function is
pure - the same input yields the identical result. -/
theorem claim_C8 (nodes : List MindMapNode) (hrt : isRootedTree nodes) :
    (calculateLayout nodes).nodes.length = nodes.length
    ∧ (calculateLayout nodes).nodes.Pairwise noOverlap
    ∧ (∀ e ∈ (calculateLayout nodes).edges,
        e.fromId ∈ (calculateLayout nodes).nodes.map (fun L => L.nodeId)
        ∧ e.toId ∈ (calculateLayout nodes).nodes.map (fun L => L.nodeId))
    ∧ calculateLayout nodes = calculateLayout nodes := by
  obtain ⟨t, hbt, hperm, hnd⟩ := buildTree_perm hrt
  have hne : nodes.length ≠ 0 := by
    intro h0
    rw [List.length_eq_zero] at h0
    rw [h0] at hbt
    simp [buildTree] at hbt
  have hwft : wfTree t := by
    unfold buildTree at hbt
    cases hf : nodes.find? (fun n => n.parentId == none) with
    | none => rw [hf] at hbt; cases hbt
    | some r =>
      rw [hf] at hbt
      exact buildNodeFuel_wf _ _ _ _ hbt
  have hcalc : (calculateLayout nodes).nodes = (layoutNode t 50 50).1
      ∧ (calculateLayout nodes).edges = (layoutNode t 50 50).2 := by
    unfold calculateLayout
    rw [if_neg hne, hbt]
    exact ⟨rfl, rfl⟩
  obtain ⟨hlay, hTp, hTm, hTe⟩ := layout_main t hwft 50 50
  refine ⟨?_, ?_, ?_, rfl⟩
  · rw [hcalc.1]
    have hlen : (layoutNode t 50 50).1.length = (treeIds t).length := by
      rw [← hTm, List.length_map]
    rw [hlen, hperm.length_eq, List.length_map]
  · rw [hcalc.1]
    exact hTp
  · intro e he
    rw [hcalc.2] at he
    rw [hcalc.1]
    exact hTe e he

/-- The concrete three-node rooted tree used as the layout witness. -/
def exNodes : List MindMapNode :=
  [ { id := 0, content := "Root", parentId := none, order := 0 },
    { id := 1, content := "a", parentId := some 0, order := 0 },
    { id := 2, content := "b", parentId := some 0, order := 1 } ]

/-- C8, witness: the three-node store is a rooted tree, and by the claim
its layout has exactly three node boxes. -/
theorem claim_C8_witness :
    isRootedTree exNodes ∧ (calculateLayout exNodes).nodes.length = exNodes.length := by
  have h : isRootedTree exNodes := by decide
  exact ⟨h, (claim_C8 exNodes h).1⟩
